import Mathlib

/-!
Verification of the push-relabel max-flow solver in
`ortools/graph/generic_max_flow.h`.

The C++ code is shallowly embedded: every definition below mirrors the
corresponding C++ function of `GenericMaxFlow<Graph>` (names are kept).
Machine integers (`FlowQuantity` = `int64_t`) are modelled as `Int` together
with the explicit ceiling constant `kMaxFlowQuantity = 2^63 - 1`; the solver
itself is written so that intermediate values never exceed this ceiling.
Unbounded C++ loops are embedded as fuel-indexed recursions returning
`Option`; `none` means the fuel ran out, and every theorem about a loop is
conditioned on the loop having returned.

The graph container (an external collaborator, `StarGraph` or the reverse-arc
graphs of `graph.h`) is modelled by `FlowGraph`: forward arcs are
`0, ..., numArcs-1`, the opposite of arc `a` is `-a-1` (the `~a` encoding of
`ebert_graph.h`), and adjacency lists are derived from the `tails`/`heads`
maps.  The container contract (heads and tails of valid arcs are valid
nodes, the node reservation covers `numNodes`) is part of the structure.
-/

set_option linter.unusedVariables false

namespace ORTools

/-- Status of a max-flow run (`MaxFlowStatusClass::Status`). -/
inductive Status where
  | NOT_SOLVED
  | OPTIMAL
  | INT_OVERFLOW
  | BAD_INPUT
  | BAD_RESULT
  deriving DecidableEq, Repr

/-- `kMaxFlowQuantity = std::numeric_limits<FlowQuantity>::max()` for
`FlowQuantity = int64_t`. -/
def kMaxFlowQuantity : Int := 2 ^ 63 - 1

/-- `PriorityQueueWithRestrictedPush<Element, IntegerPriority>`.  The two
`std::vector`s are modelled as lists whose *head* is the vector's *back*
(most recently pushed element), so `push_back` is `cons` and `back` is
`head`. -/
structure PriorityQueueWithRestrictedPush (α : Type) where
  even_queue : List (α × Int)
  odd_queue : List (α × Int)
  deriving Repr

/-- The default-constructed empty queue. -/
def PQEmpty (α : Type) : PriorityQueueWithRestrictedPush α := ⟨[], []⟩

/-- `PriorityQueueWithRestrictedPush::IsEmpty`. -/
def PQIsEmpty (q : PriorityQueueWithRestrictedPush α) : Bool :=
  q.even_queue.isEmpty && q.odd_queue.isEmpty

/-- `PriorityQueueWithRestrictedPush::Clear`. -/
def PQClear (q : PriorityQueueWithRestrictedPush α) :
    PriorityQueueWithRestrictedPush α := ⟨[], []⟩

/-- `PriorityQueueWithRestrictedPush::Push` (the `priority & 1` parity test
dispatches on `priority % 2`, which matches two's-complement `& 1`). -/
def PQPush (q : PriorityQueueWithRestrictedPush α) (element : α)
    (priority : Int) : PriorityQueueWithRestrictedPush α :=
  if priority % 2 = 1 then { q with odd_queue := (element, priority) :: q.odd_queue }
  else { q with even_queue := (element, priority) :: q.even_queue }

/-- `PriorityQueueWithRestrictedPush::Pop` together with `PopBack`.  The C++
function has the precondition `!IsEmpty()`; `none` models a call that
violates it. -/
def PQPop (q : PriorityQueueWithRestrictedPush α) :
    Option (α × PriorityQueueWithRestrictedPush α) :=
  match q.even_queue, q.odd_queue with
  | [], [] => none
  | [], (e, _) :: rest => some (e, { q with odd_queue := rest })
  | (e, _) :: rest, [] => some (e, { q with even_queue := rest })
  | (e, pe) :: re, (o, po) :: ro =>
    if po > pe then some (o, { q with odd_queue := ro })
    else some (e, { q with even_queue := re })

/-- The graph container consumed by `GenericMaxFlow` (see §6 of the spec and
`graphs.h`): `numArcs` forward arcs with their tails and heads, a node
reservation that is at least `numNodes`, and the container contract that
endpoints of forward arcs are valid nodes. -/
structure FlowGraph where
  numNodes : Nat
  numArcs : Nat
  nodeReservation : Nat
  tails : Nat → Nat
  heads : Nat → Nat
  reservation_ok : numNodes ≤ nodeReservation
  tails_lt : ∀ a, a < numArcs → tails a < numNodes
  heads_lt : ∀ a, a < numArcs → heads a < numNodes

/-- `Opposite(arc)`: the paired reverse arc, `~arc = -arc - 1`. -/
def Opposite (arc : Int) : Int := -arc - 1

/-- `IsArcValid(arc)`: `-num_arcs <= arc < num_arcs`. -/
def IsArcValid (g : FlowGraph) (arc : Int) : Bool :=
  decide (-(g.numArcs : Int) ≤ arc) && decide (arc < (g.numArcs : Int))

/-- `IsArcDirect(arc)`: valid and non-negative. -/
def IsArcDirect (g : FlowGraph) (arc : Int) : Bool :=
  IsArcValid g arc && decide (0 ≤ arc)

/-- `Head(arc)` for a signed arc index (the head of a reverse arc is the
tail of its opposite). -/
def Head (g : FlowGraph) (arc : Int) : Nat :=
  if 0 ≤ arc then g.heads arc.toNat else g.tails (Opposite arc).toNat

/-- `Tail(arc)` for a signed arc index. -/
def Tail (g : FlowGraph) (arc : Int) : Nat :=
  if 0 ≤ arc then g.tails arc.toNat else g.heads (Opposite arc).toNat

/-- `OutgoingArcIterator`: the forward arcs whose tail is `v`, in increasing
arc order. -/
def OutgoingArcs (g : FlowGraph) (v : Nat) : List Int :=
  ((List.range g.numArcs).filter (fun a => g.tails a = v)).map (fun a => (a : Int))

/-- `IncomingArcIterator`: the forward arcs whose head is `v`. -/
def IncomingArcs (g : FlowGraph) (v : Nat) : List Int :=
  ((List.range g.numArcs).filter (fun a => g.heads a = v)).map (fun a => (a : Int))

/-- `OutgoingOrOppositeIncomingArcIterator`: all residual-sense arcs leaving
`v` (outgoing forward arcs followed by the opposites of incoming arcs; the
container contract does not fix the interleaving, this is one admissible
adjacency order). -/
def IncidentArcs (g : FlowGraph) (v : Nat) : List Int :=
  OutgoingArcs g v ++ (IncomingArcs g v).map Opposite

/-- `OutgoingOrOppositeIncomingArcIterator` resumed from a given arc
(`first_admissible_arc_` hint, `none` = `kNilArc` = scan everything). -/
def IncidentArcsFrom (g : FlowGraph) (v : Nat) : Option Int → List Int
  | none => IncidentArcs g v
  | some a => (IncidentArcs g v).dropWhile (fun b => b ≠ a)

/-- The mutable per-node / per-arc state of `GenericMaxFlow` (the members
`node_excess_`, `node_potential_`, `residual_arc_capacity_`,
`first_admissible_arc_`, `active_node_by_height_`, `status_`). -/
structure MFState where
  node_excess : Nat → Int
  node_potential : Nat → Nat
  residual_arc_capacity : Int → Int
  first_admissible_arc : Nat → Option Int
  active_node_by_height : PriorityQueueWithRestrictedPush Nat
  status : Status

/-- The constructor `GenericMaxFlow(graph, source, sink)`.  `make_unique<T[]>`
value-initializes the node arrays to zero and `residual_arc_capacity_` is
`SetAll(0)`; `first_admissible_arc_` is filled with `kNilArc`.  The member
`status_` is NOT initialized by the constructor, so its value is
indeterminate; the parameter `status0` stands for that indeterminate value. -/
def GenericMaxFlow (g : FlowGraph) (source sink : Nat) (status0 : Status) :
    MFState where
  node_excess := fun _ => 0
  node_potential := fun _ => 0
  residual_arc_capacity := fun _ => 0
  first_admissible_arc := fun _ => none
  active_node_by_height := PQEmpty Nat
  status := status0

/-- `status()`. -/
def status (st : MFState) : Status := st.status

/-- `GetOptimalFlow()`: `node_excess_[sink_]`. -/
def GetOptimalFlow (st : MFState) (sink : Nat) : Int := st.node_excess sink

/-- `Flow(arc)`: flow on a direct arc is the residual capacity of its
opposite; on a reverse arc it is minus its own residual capacity. -/
def Flow (g : FlowGraph) (st : MFState) (arc : Int) : Int :=
  if IsArcDirect g arc then st.residual_arc_capacity (Opposite arc)
  else -st.residual_arc_capacity arc

/-- `Capacity(arc)`: on a direct arc, `res_cap[arc] + res_cap[opp(arc)]`;
on a reverse arc, `0`. -/
def Capacity (g : FlowGraph) (st : MFState) (arc : Int) : Int :=
  if IsArcDirect g arc then
    st.residual_arc_capacity arc + st.residual_arc_capacity (Opposite arc)
  else 0

/-- `SetCapacityAndClearFlow(arc, capacity)`. -/
def SetCapacityAndClearFlow (st : MFState) (arc : Int) (capacity : Int) :
    MFState :=
  { st with
    residual_arc_capacity :=
      Function.update (Function.update st.residual_arc_capacity arc capacity)
        (Opposite arc) 0 }

/-- `IsAdmissible(tail, arc, potentials)`. -/
def IsAdmissible (g : FlowGraph) (st : MFState) (tail : Nat) (arc : Int) :
    Bool :=
  decide (st.residual_arc_capacity arc > 0) &&
    decide (st.node_potential tail = st.node_potential (Head g arc) + 1)

/-- `IsActive(node)`. -/
def IsActive (st : MFState) (source sink node : Nat) : Bool :=
  decide (node ≠ source) && decide (node ≠ sink) &&
    decide (st.node_excess node > 0)

/-- `PushFlow(flow, tail, arc)`: consume `flow` on `res_cap[arc]`, release it
on `res_cap[opp(arc)]` and update the excesses at `tail` and `Head(arc)`. -/
def PushFlow (g : FlowGraph) (st : MFState) (flow : Int) (tail : Nat)
    (arc : Int) : MFState :=
  { st with
    residual_arc_capacity :=
      Function.update
        (Function.update st.residual_arc_capacity arc
          (st.residual_arc_capacity arc - flow))
        (Opposite arc) (st.residual_arc_capacity (Opposite arc) + flow)
    node_excess :=
      Function.update
        (Function.update st.node_excess tail (st.node_excess tail - flow))
        (Head g arc)
        (Function.update st.node_excess tail (st.node_excess tail - flow)
          (Head g arc) + flow) }

/-- `FastPushFlow(flow, tail, arc, node_excess)`: identical state change as
`PushFlow`; the C++ difference (a cached `node_excess_.data()` pointer) is
invisible in the embedding. -/
def FastPushFlow (g : FlowGraph) (st : MFState) (flow : Int) (tail : Nat)
    (arc : Int) : MFState :=
  PushFlow g st flow tail arc

/-- `SetArcCapacity(arc, new_capacity)`. -/
def SetArcCapacity (g : FlowGraph) (st : MFState) (arc : Int)
    (new_capacity : Int) : MFState :=
  let free_capacity := st.residual_arc_capacity arc
  let capacity_delta := new_capacity - Capacity g st arc
  if capacity_delta = 0 then st
  else
    let st' := { st with status := Status.NOT_SOLVED }
    if free_capacity + capacity_delta ≥ 0 then
      { st' with
        residual_arc_capacity :=
          Function.update st'.residual_arc_capacity arc
            (free_capacity + capacity_delta) }
    else SetCapacityAndClearFlow st' arc new_capacity

/-- `PushActiveNode(node)`: push on `active_node_by_height_` with the node's
current potential as priority. -/
def PushActiveNode (st : MFState) (node : Nat) : MFState :=
  { st with
    active_node_by_height :=
      PQPush st.active_node_by_height node (st.node_potential node : Int) }

/-- `IsEmptyActiveNodeContainer()`. -/
def IsEmptyActiveNodeContainer (st : MFState) : Bool :=
  PQIsEmpty st.active_node_by_height

/-- `InitializePreflow()`: zero the excesses, reset every arc to
`(capacity, 0)`, zero the potentials except `height[source] = n`, and clear
the admissible-arc hints.  The fills run over `[0, node reservation)`. -/
def InitializePreflow (g : FlowGraph) (source : Nat) (st : MFState) :
    MFState :=
  let st := { st with
    node_excess := fun v => if v < g.nodeReservation then 0 else st.node_excess v }
  let st := (List.range g.numArcs).foldl
    (fun st (a : Nat) => SetCapacityAndClearFlow st ((a : Int))
      (Capacity g st ((a : Int)))) st
  let st := { st with
    node_potential := fun v =>
      if v < g.nodeReservation then 0 else st.node_potential v }
  let st := { st with
    node_potential := Function.update st.node_potential source g.numNodes }
  { st with
    first_admissible_arc := fun v =>
      if v < g.nodeReservation then none else st.first_admissible_arc v }

/-- Inner loop of `AugmentingPathExists()`: scan the incident arcs of the
node just popped, marking and stacking unreached heads of residual arcs. -/
def ReachScanArcs (g : FlowGraph) (st : MFState) :
    List Int → (Nat → Bool) → List Nat → ((Nat → Bool) × List Nat)
  | [], is_reached, to_process => (is_reached, to_process)
  | arc :: rest, is_reached, to_process =>
    if st.residual_arc_capacity arc > 0 then
      let head := Head g arc
      if is_reached head then ReachScanArcs g st rest is_reached to_process
      else ReachScanArcs g st rest (Function.update is_reached head true)
        (head :: to_process)
    else ReachScanArcs g st rest is_reached to_process

/-- Outer loop of `AugmentingPathExists()` (fuel-indexed). -/
def ReachLoop (g : FlowGraph) (st : MFState) :
    Nat → (Nat → Bool) → List Nat → Option (Nat → Bool)
  | 0, _, _ => none
  | _ + 1, is_reached, [] => some is_reached
  | fuel + 1, is_reached, node :: rest =>
    let (is_reached', to_process') :=
      ReachScanArcs g st (IncidentArcs g node) is_reached rest
    ReachLoop g st fuel is_reached' to_process'

/-- `AugmentingPathExists()`: reachability of the sink from the source in
the residual graph. -/
def AugmentingPathExists (g : FlowGraph) (st : MFState) (source sink : Nat)
    (fuel : Nat) : Option Bool :=
  (ReachLoop g st fuel (Function.update (fun _ => false) source true)
      [source]).map (fun is_reached => is_reached sink)

/-- Arc scan of `ComputeReachableNodes<reverse>`: append newly reached heads
to the BFS queue. -/
def CRNScanArcs (g : FlowGraph) (st : MFState) (reverse : Bool) :
    List Int → (Nat → Bool) → List Nat → ((Nat → Bool) × List Nat)
  | [], in_queue, news => (in_queue, news)
  | arc :: rest, in_queue, news =>
    let head := Head g arc
    if in_queue head then CRNScanArcs g st reverse rest in_queue news
    else if st.residual_arc_capacity (if reverse then Opposite arc else arc) = 0
    then CRNScanArcs g st reverse rest in_queue news
    else CRNScanArcs g st reverse rest (Function.update in_queue head true)
      (news ++ [head])

/-- BFS loop of `ComputeReachableNodes<reverse>` (fuel-indexed); `acc` is the
whole `bfs_queue_`, `pending` its unprocessed suffix. -/
def CRNLoop (g : FlowGraph) (st : MFState) (reverse : Bool) :
    Nat → (Nat → Bool) → List Nat → List Nat → Option (List Nat)
  | 0, _, _, _ => none
  | _ + 1, _, [], acc => some acc
  | fuel + 1, in_queue, node :: rest, acc =>
    let (in_queue', news) :=
      CRNScanArcs g st reverse (IncidentArcs g node) in_queue []
    CRNLoop g st reverse fuel in_queue' (rest ++ news) (acc ++ news)

/-- `ComputeReachableNodes<reverse>(start, result)`: if `start` is not a
valid node it can reach only itself; otherwise BFS in the (possibly
reversed) residual graph. -/
def ComputeReachableNodes (g : FlowGraph) (st : MFState) (reverse : Bool)
    (start : Nat) (fuel : Nat) : Option (List Nat) :=
  if start ≥ g.numNodes then some [start]
  else CRNLoop g st reverse fuel (Function.update (fun _ => false) start true)
    [start] [start]

/-- `GetSourceSideMinCut(result)`. -/
def GetSourceSideMinCut (g : FlowGraph) (st : MFState) (source : Nat)
    (fuel : Nat) : Option (List Nat) :=
  ComputeReachableNodes g st false source fuel

/-- `GetSinkSideMinCut(result)`. -/
def GetSinkSideMinCut (g : FlowGraph) (st : MFState) (sink : Nat)
    (fuel : Nat) : Option (List Nat) :=
  ComputeReachableNodes g st true sink fuel

/-- Arc scan of `Relabel(node)`: track the minimum residual-neighbour height
and the corresponding arc, stopping early on an arc that is admissible at
the current height (`target`). -/
def RelabelScan (g : FlowGraph) (st : MFState) (target : Nat) :
    List Int → Nat → Option Int → (Nat × Option Int)
  | [], min_height, first_adm => (min_height, first_adm)
  | arc :: rest, min_height, first_adm =>
    if st.residual_arc_capacity arc > 0 then
      let head_height := st.node_potential (Head g arc)
      if head_height < min_height then
        if head_height + 1 = target then (head_height, some arc)
        else RelabelScan g st target rest head_height (some arc)
      else RelabelScan g st target rest min_height first_adm
    else RelabelScan g st target rest min_height first_adm

/-- `Relabel(node)`: `min_height` starts at
`std::numeric_limits<NodeHeight>::max()` (`NodeHeight` is a 32-bit node
index, so `2^31 - 1`). -/
def Relabel (g : FlowGraph) (st : MFState) (node : Nat) : MFState :=
  let (min_height, first_adm) :=
    RelabelScan g st (st.node_potential node) (IncidentArcs g node)
      (2 ^ 31 - 1) none
  { st with
    node_potential := Function.update st.node_potential node (min_height + 1)
    first_admissible_arc :=
      Function.update st.first_admissible_arc node first_adm }

/-- Admissible-arc scan of `Discharge(node)`; returns the state and whether
the function returned early (excess exhausted). -/
def DischargeScan (g : FlowGraph) (node : Nat) :
    List Int → MFState → MFState × Bool
  | [], st => (st, false)
  | arc :: rest, st =>
    if IsAdmissible g st node arc then
      let head := Head g arc
      let st := if st.node_excess head = 0 then PushActiveNode st head else st
      let delta := min (st.node_excess node) (st.residual_arc_capacity arc)
      let st := FastPushFlow g st delta node arc
      if st.node_excess node = 0 then
        ({ st with
           first_admissible_arc :=
             Function.update st.first_admissible_arc node (some arc) }, true)
      else DischargeScan g node rest st
    else DischargeScan g node rest st

/-- `Discharge(node)` (fuel-indexed `while (true)` loop): scan from the
`first_admissible_arc_` hint, relabel when the scan exhausts the arcs, stop
when the node's height reaches `num_nodes`. -/
def Discharge (g : FlowGraph) (node : Nat) :
    Nat → MFState → Option MFState
  | 0, _ => none
  | fuel + 1, st =>
    match DischargeScan g node
        (IncidentArcsFrom g node (st.first_admissible_arc node)) st with
    | (st', true) => some st'
    | (st', false) =>
      let st'' := Relabel g st' node
      if st''.node_potential node ≥ g.numNodes then some st''
      else Discharge g node fuel st''

/-- Arc scan of `GlobalUpdate()`'s reverse BFS from one queue node,
including the excess-stealing push. -/
def GlobalUpdateScan (g : FlowGraph) (candidate_distance : Nat) :
    List Int → MFState → (Nat → Bool) → List Nat →
      (MFState × (Nat → Bool) × List Nat)
  | [], st, in_queue, news => (st, in_queue, news)
  | arc :: rest, st, in_queue, news =>
    let head := Head g arc
    if in_queue head then
      GlobalUpdateScan g candidate_distance rest st in_queue news
    else
      let opposite_arc := Opposite arc
      if st.residual_arc_capacity opposite_arc > 0 then
        let st :=
          if st.node_excess head > 0 then
            FastPushFlow g st
              (min (st.node_excess head)
                (st.residual_arc_capacity opposite_arc)) head opposite_arc
          else st
        if st.residual_arc_capacity opposite_arc = 0 then
          GlobalUpdateScan g candidate_distance rest st in_queue news
        else
          GlobalUpdateScan g candidate_distance rest
            { st with
              node_potential :=
                Function.update st.node_potential head candidate_distance }
            (Function.update in_queue head true) (news ++ [head])
      else GlobalUpdateScan g candidate_distance rest st in_queue news

/-- BFS loop of `GlobalUpdate()` (fuel-indexed). -/
def GlobalUpdateBfs (g : FlowGraph) :
    Nat → MFState → (Nat → Bool) → List Nat → List Nat →
      Option (MFState × (Nat → Bool) × List Nat)
  | 0, _, _, _, _ => none
  | _ + 1, st, in_queue, [], acc => some (st, in_queue, acc)
  | fuel + 1, st, in_queue, node :: rest, acc =>
    let candidate_distance := st.node_potential node + 1
    let (st', in_queue', news) :=
      GlobalUpdateScan g candidate_distance (IncidentArcs g node) st in_queue
        []
    GlobalUpdateBfs g fuel st' in_queue' (rest ++ news) (acc ++ news)

/-- `GlobalUpdate()`: reverse BFS from the sink (the source is pre-marked so
it is never relabelled), unreached nodes get height `2n - 1`, and the active
queue is reseeded from the BFS order (skipping `bfs_queue_[0]`, the sink). -/
def GlobalUpdate (g : FlowGraph) (source sink : Nat) (fuel : Nat)
    (st : MFState) : Option MFState :=
  let in_queue :=
    Function.update (Function.update (fun _ : Nat => false) sink true) source
      true
  match GlobalUpdateBfs g fuel st in_queue [sink] [sink] with
  | none => none
  | some (st, in_queue, bfs_queue) =>
    let st := { st with
      node_potential := fun v =>
        if v < g.numNodes ∧ in_queue v = false then 2 * g.numNodes - 1
        else st.node_potential v }
    some ((bfs_queue.drop 1).foldl
      (fun st node =>
        if st.node_excess node > 0 then PushActiveNode st node else st) st)

/-- Arc scan of `SaturateOutgoingArcsFromSource()` over the source's
outgoing arcs, with the `kMaxFlowQuantity` capping logic and its early
returns. -/
def SaturateScan (g : FlowGraph) (source : Nat) :
    List Int → MFState → Bool → MFState × Bool
  | [], st, flow_pushed => (st, flow_pushed)
  | arc :: rest, st, flow_pushed =>
    let flow := st.residual_arc_capacity arc
    if flow = 0 ∨ st.node_potential (Head g arc) ≥ g.numNodes then
      SaturateScan g source rest st flow_pushed
    else
      let current_flow_out_of_source := -st.node_excess source
      let capped_flow := kMaxFlowQuantity - current_flow_out_of_source
      if capped_flow < flow then
        if capped_flow = 0 then (st, true)
        else (PushFlow g st capped_flow source arc, true)
      else SaturateScan g source rest (PushFlow g st flow source arc) true

/-- `SaturateOutgoingArcsFromSource()`. -/
def SaturateOutgoingArcsFromSource (g : FlowGraph) (source sink : Nat)
    (st : MFState) : MFState × Bool :=
  if st.node_excess sink = kMaxFlowQuantity then (st, false)
  else if st.node_excess source = -kMaxFlowQuantity then (st, false)
  else SaturateScan g source (OutgoingArcs g source) st false

/-- State of the Tarjan-style DFS in `PushFlowExcessBackToSource()`. The
lists model the C++ vectors front-first (element `0` first, `back()` last),
so pushes are appends and `resize` is `take`. -/
structure DfsState where
  st : MFState
  stored : Nat → Bool
  visited : Nat → Bool
  arc_stack : List Int
  index_branch : List Nat
  reverse_topological_order : List Nat

/-- The `cycle_begin` scan of `PushFlowExcessBackToSource()`: starting from
`index_branch.size()`, decrease while the head of the branch arc just below
differs from `head`. -/
def FindCycleBegin (g : FlowGraph) (arc_stack : List Int)
    (index_branch : List Nat) (head : Nat) : Nat → Nat
  | 0 => 0
  | cb + 1 =>
    if Head g (arc_stack.getD (index_branch.getD cb 0) 0) = head then cb + 1
    else FindCycleBegin g arc_stack index_branch head cb

/-- The `max_flow` / `first_saturated_index` scan over the cycle's branch
arcs, iterating `i` from `index_branch.size() - 1` down to `cycle_begin`.
The initial value of `max_flow` is the flow on the back arc. -/
def FindMaxFlowAndFirstSaturated (g : FlowGraph) (st : MFState)
    (arc_stack : List Int) (index_branch : List Nat) (cycle_begin : Nat)
    (flow : Int) : Int × Nat :=
  ((List.range index_branch.length).drop cycle_begin).reverse.foldl
    (fun p i =>
      let arc_on_cycle := arc_stack.getD (index_branch.getD i 0) 0
      if Flow g st arc_on_cycle ≤ p.1 then (Flow g st arc_on_cycle, i) else p)
    (flow, index_branch.length)

/-- The cycle-cancellation block of `PushFlowExcessBackToSource()`: push
`-max_flow` on the back arc and on every branch arc of the cycle, un-visit
the heads of the saturated ones, and backtrack (`true` = the `break` was
taken). -/
def CancelCycle (g : FlowGraph) (node : Nat) (arc : Int) (flow : Int)
    (head : Nat) (d : DfsState) : DfsState × Bool :=
  let cycle_begin :=
    FindCycleBegin g d.arc_stack d.index_branch head d.index_branch.length
  let (max_flow, first_saturated_index) :=
    FindMaxFlowAndFirstSaturated g d.st d.arc_stack d.index_branch cycle_begin
      flow
  let st := PushFlow g d.st (-max_flow) node arc
  let p :=
    ((List.range d.index_branch.length).drop cycle_begin).reverse.foldl
      (fun (p : MFState × (Nat → Bool)) i =>
        let arc_on_cycle := d.arc_stack.getD (d.index_branch.getD i 0) 0
        let st := PushFlow g p.1 (-max_flow) (Tail g arc_on_cycle) arc_on_cycle
        let visited :=
          if i ≥ first_saturated_index then
            Function.update p.2 (Head g arc_on_cycle) false
          else p.2
        (st, visited))
      (st, d.visited)
  let d := { d with st := p.1, visited := p.2 }
  if first_saturated_index < d.index_branch.length then
    ({ d with
       arc_stack := d.arc_stack.take (d.index_branch.getD first_saturated_index 0)
       index_branch := d.index_branch.take first_saturated_index }, true)
  else (d, false)

/-- The `for` loop over the outgoing arcs of a newly explored node in
`PushFlowExcessBackToSource()`, including back-edge handling. -/
def DfsExploreArcs (g : FlowGraph) (node : Nat) :
    List Int → DfsState → DfsState
  | [], d => d
  | arc :: rest, d =>
    let flow := Flow g d.st arc
    let head := Head g arc
    if flow > 0 ∧ d.stored head = false then
      if d.visited head = false then
        DfsExploreArcs g node rest { d with arc_stack := d.arc_stack ++ [arc] }
      else
        let pb := CancelCycle g node arc flow head d
        if pb.2 then pb.1 else DfsExploreArcs g node rest pb.1
    else DfsExploreArcs g node rest d

/-- The DFS `while` loop of `PushFlowExcessBackToSource()` (fuel-indexed). -/
def DfsLoop (g : FlowGraph) : Nat → DfsState → Option DfsState
  | 0, _ => none
  | fuel + 1, d =>
    match d.arc_stack.getLast? with
    | none => some d
    | some back_arc =>
      let node := Head g back_arc
      if d.visited node then
        let d :=
          if d.stored node = false then
            { d with
              stored := Function.update d.stored node true
              reverse_topological_order :=
                d.reverse_topological_order ++ [node]
              index_branch := d.index_branch.dropLast }
          else d
        DfsLoop g fuel { d with arc_stack := d.arc_stack.dropLast }
      else
        let d := { d with
          visited := Function.update d.visited node true
          index_branch := d.index_branch ++ [d.arc_stack.length - 1] }
        DfsLoop g fuel (DfsExploreArcs g node (OutgoingArcs g node) d)

/-- Inner loop of the excess-return phase: push the node's excess back along
flow-carrying incoming arcs until it vanishes. -/
def ReturnExcessScan (g : FlowGraph) (node : Nat) :
    List Int → MFState → MFState
  | [], st => st
  | in_arc :: rest, st =>
    let opposite_arc := Opposite in_arc
    if st.residual_arc_capacity opposite_arc > 0 then
      let flow :=
        min (st.node_excess node) (st.residual_arc_capacity opposite_arc)
      let st := PushFlow g st flow node opposite_arc
      if st.node_excess node = 0 then st
      else ReturnExcessScan g node rest st
    else ReturnExcessScan g node rest st

/-- The excess-return phase over `reverse_topological_order`. -/
def ReturnExcess (g : FlowGraph) : List Nat → MFState → MFState
  | [], st => st
  | node :: rest, st =>
    if st.node_excess node = 0 then ReturnExcess g rest st
    else ReturnExcess g rest (ReturnExcessScan g node (IncomingArcs g node) st)

/-- `PushFlowExcessBackToSource()`: DFS cycle cancellation followed by the
reverse-topological excess return. -/
def PushFlowExcessBackToSource (g : FlowGraph) (source sink : Nat)
    (fuel : Nat) (st : MFState) : Option MFState :=
  let stored := Function.update (fun _ : Nat => false) sink true
  let visited :=
    Function.update (Function.update (fun _ : Nat => false) sink true) source
      true
  let arc_stack := (OutgoingArcs g source).filter (fun a => Flow g st a > 0)
  match DfsLoop g fuel
      { st := st, stored := stored, visited := visited
        arc_stack := arc_stack, index_branch := []
        reverse_topological_order := [] } with
  | none => none
  | some d => some (ReturnExcess g d.reverse_topological_order d.st)

/-- The `while (!IsEmptyActiveNodeContainer())` loop of
`RefineWithGlobalUpdate()` (fuel-indexed), threading the skip counters and
`num_skipped`. -/
def RefineInner (g : FlowGraph) (source sink : Nat) :
    Nat → MFState → (Nat → Nat) → Nat → Option (MFState × Nat)
  | 0, _, _, _ => none
  | fuel + 1, st, skip_active_node, num_skipped =>
    match PQPop st.active_node_by_height with
    | none => some (st, num_skipped)
    | some (node, q) =>
      let st := { st with active_node_by_height := q }
      if skip_active_node node > 1 then
        let num_skipped :=
          if node ≠ sink ∧ node ≠ source then num_skipped + 1
          else num_skipped
        RefineInner g source sink fuel st skip_active_node num_skipped
      else
        let old_height := st.node_potential node
        match Discharge g node (fuel + 1) st with
        | none => none
        | some st =>
          let skip_active_node :=
            if st.node_potential node > old_height + 1 then
              Function.update skip_active_node node (skip_active_node node + 1)
            else skip_active_node
          RefineInner g source sink fuel st skip_active_node num_skipped

/-- The `do { ... } while (num_skipped > 0)` loop of
`RefineWithGlobalUpdate()` (fuel-indexed). -/
def RefineDo (g : FlowGraph) (source sink : Nat) :
    Nat → MFState → Option MFState
  | 0, _ => none
  | fuel + 1, st =>
    let skip_active_node :=
      Function.update (Function.update (fun _ : Nat => 0) sink 2) source 2
    match GlobalUpdate g source sink (fuel + 1) st with
    | none => none
    | some st =>
      match RefineInner g source sink (fuel + 1) st skip_active_node 0 with
      | none => none
      | some (st, num_skipped) =>
        if num_skipped > 0 then RefineDo g source sink fuel st else some st

/-- The outer `while (SaturateOutgoingArcsFromSource())` loop of
`RefineWithGlobalUpdate()` (fuel-indexed). -/
def RefineOuter (g : FlowGraph) (source sink : Nat) :
    Nat → MFState → Option MFState
  | 0, _ => none
  | fuel + 1, st =>
    match SaturateOutgoingArcsFromSource g source sink st with
    | (st, false) => some st
    | (st, true) =>
      match RefineDo g source sink (fuel + 1) st with
      | none => none
      | some st =>
        match PushFlowExcessBackToSource g source sink (fuel + 1) st with
        | none => none
        | some st => RefineOuter g source sink fuel st

/-- `RefineWithGlobalUpdate()`. -/
def RefineWithGlobalUpdate (g : FlowGraph) (source sink : Nat) (fuel : Nat)
    (st : MFState) : Option MFState :=
  RefineOuter g source sink fuel st

/-- `Solve()`: reset the status, initialize the preflow, handle a source or
sink outside the graph, refine, and detect integer overflow.  The C++
function always returns `true`; `none` only models running out of fuel. -/
def Solve (g : FlowGraph) (source sink : Nat) (st : MFState) (fuel : Nat) :
    Option (MFState × Bool) :=
  let st := { st with status := Status.NOT_SOLVED }
  let st := InitializePreflow g source st
  if sink ≥ g.numNodes ∨ source ≥ g.numNodes then
    some ({ st with status := Status.OPTIMAL }, true)
  else
    match RefineWithGlobalUpdate g source sink fuel st with
    | none => none
    | some st =>
      let st := { st with status := Status.OPTIMAL }
      if GetOptimalFlow st sink = kMaxFlowQuantity then
        match AugmentingPathExists g st source sink fuel with
        | none => none
        | some b =>
          some
            ((if b then { st with status := Status.INT_OVERFLOW } else st),
              true)
      else some (st, true)

/-! ### Basic lemmas about the primitives -/

theorem Opposite_Opposite (a : Int) : Opposite (Opposite a) = a := by
  unfold Opposite; ring

theorem Opposite_ne (a : Int) : Opposite a ≠ a := by
  unfold Opposite; omega

theorem ne_Opposite (a : Int) : a ≠ Opposite a := (Opposite_ne a).symm

@[simp] theorem PushFlow_resCap (g : FlowGraph) (st : MFState) (f : Int)
    (tail : Nat) (arc b : Int) :
    (PushFlow g st f tail arc).residual_arc_capacity b =
      if b = Opposite arc then st.residual_arc_capacity (Opposite arc) + f
      else if b = arc then st.residual_arc_capacity arc - f
      else st.residual_arc_capacity b := by
  simp only [PushFlow, Function.update_apply]

@[simp] theorem PushFlow_excess (g : FlowGraph) (st : MFState) (f : Int)
    (tail : Nat) (arc : Int) (v : Nat) :
    (PushFlow g st f tail arc).node_excess v =
      st.node_excess v - (if v = tail then f else 0) +
        (if v = Head g arc then f else 0) := by
  simp only [PushFlow, Function.update_apply]
  by_cases h1 : v = Head g arc <;> by_cases h2 : v = tail <;>
    subst_vars <;> simp_all

@[simp] theorem PushFlow_potential (g : FlowGraph) (st : MFState) (f : Int)
    (tail : Nat) (arc : Int) :
    (PushFlow g st f tail arc).node_potential = st.node_potential := rfl

@[simp] theorem PushFlow_status (g : FlowGraph) (st : MFState) (f : Int)
    (tail : Nat) (arc : Int) :
    (PushFlow g st f tail arc).status = st.status := rfl

@[simp] theorem PushFlow_queue (g : FlowGraph) (st : MFState) (f : Int)
    (tail : Nat) (arc : Int) :
    (PushFlow g st f tail arc).active_node_by_height =
      st.active_node_by_height := rfl

@[simp] theorem PushFlow_firstAdm (g : FlowGraph) (st : MFState) (f : Int)
    (tail : Nat) (arc : Int) :
    (PushFlow g st f tail arc).first_admissible_arc =
      st.first_admissible_arc := rfl

@[simp] theorem SetCapacityAndClearFlow_resCap (st : MFState) (arc cap b : Int) :
    (SetCapacityAndClearFlow st arc cap).residual_arc_capacity b =
      if b = Opposite arc then 0
      else if b = arc then cap
      else st.residual_arc_capacity b := by
  simp only [SetCapacityAndClearFlow, Function.update_apply]

@[simp] theorem SetCapacityAndClearFlow_excess (st : MFState) (arc cap : Int) :
    (SetCapacityAndClearFlow st arc cap).node_excess = st.node_excess := rfl

@[simp] theorem SetCapacityAndClearFlow_potential (st : MFState)
    (arc cap : Int) :
    (SetCapacityAndClearFlow st arc cap).node_potential = st.node_potential :=
  rfl

@[simp] theorem SetCapacityAndClearFlow_status (st : MFState) (arc cap : Int) :
    (SetCapacityAndClearFlow st arc cap).status = st.status := rfl

/-! ### C10: min-cut extraction when the start node is outside the graph -/

/-- C10: if the start node is not in the graph (`source >= num_nodes()` for
`GetSourceSideMinCut`, `sink >= num_nodes()` for `GetSinkSideMinCut`), the
returned node list is exactly the one-element list containing that start
node, regardless of solver state. -/
theorem c10_min_cut_start_not_in_graph (g : FlowGraph) (st st' : MFState)
    (source sink fuel fuel' : Nat) (hs : source ≥ g.numNodes)
    (ht : sink ≥ g.numNodes) :
    GetSourceSideMinCut g st source fuel = some [source] ∧
    GetSinkSideMinCut g st' sink fuel' = some [sink] := by
  constructor
  · simp [GetSourceSideMinCut, ComputeReachableNodes, hs]
  · simp [GetSinkSideMinCut, ComputeReachableNodes, ht]

/-- Fixture graph for witnesses: nodes `{0, 1, 2}`, arcs `0 -> 1` and
`1 -> 2`, node reservation `4`. -/
def wG : FlowGraph where
  numNodes := 3
  numArcs := 2
  nodeReservation := 4
  tails := fun a => [0, 1].getD a 0
  heads := fun a => [1, 2].getD a 0
  reservation_ok := by decide
  tails_lt := by decide
  heads_lt := by decide

/-- Fixture state for witnesses: fresh solver on `wG`. -/
def wSt : MFState := ORTools.GenericMaxFlow wG 0 2 Status.NOT_SOLVED

theorem c10_witness :
    (5 ≥ wG.numNodes) ∧ (7 ≥ wG.numNodes) ∧
    (GetSourceSideMinCut wG wSt 5 0 = some [5] ∧
     GetSinkSideMinCut wG wSt 7 0 = some [7]) :=
  ⟨by decide, by decide,
    c10_min_cut_start_not_in_graph wG wSt wSt 5 7 0 0 (by decide) (by decide)⟩

/-! ### C7: the constructor does not initialize `status_` -/

/-- C7 (code bug): the constructor `GenericMaxFlow(graph, source, sink)`
never writes the member `status_` (its member-initializer list sets only
`graph_`, `residual_arc_capacity_`, `source_`, `sink_` and `stats_`), so a
freshly constructed solver reports whatever indeterminate value the member
happens to hold, not necessarily `NOT_SOLVED`:  `status()` returns exactly
the (arbitrary) initial value `status0`. -/
theorem c7_constructor_leaves_status_indeterminate (g : FlowGraph)
    (source sink : Nat) (status0 : Status) :
    status (ORTools.GenericMaxFlow g source sink status0) = status0 := rfl

/-! ### C6: `SetArcCapacity` -/

/-- C6: for a forward arc and `new_cap >= 0`: if `new_cap` equals the
current capacity the call changes nothing (status included); otherwise the
status becomes `NOT_SOLVED` and afterwards `Capacity(arc) = new_cap`, where
the flow on the arc is preserved whenever the capacity reduction does not
exceed the free residual capacity `res_cap[arc]`, and otherwise the flow is
reset to zero (`res_cap[arc] = new_cap`, `res_cap[opp(arc)] = 0`). -/
theorem c6_SetArcCapacity (g : FlowGraph) (st : MFState)
    (arc new_capacity : Int) (hd : IsArcDirect g arc = true)
    (hnn : 0 ≤ new_capacity) :
    (new_capacity = Capacity g st arc →
      SetArcCapacity g st arc new_capacity = st) ∧
    (new_capacity ≠ Capacity g st arc →
      status (SetArcCapacity g st arc new_capacity) = Status.NOT_SOLVED ∧
      Capacity g (SetArcCapacity g st arc new_capacity) arc = new_capacity ∧
      (Capacity g st arc - new_capacity ≤ st.residual_arc_capacity arc →
        Flow g (SetArcCapacity g st arc new_capacity) arc = Flow g st arc) ∧
      (st.residual_arc_capacity arc < Capacity g st arc - new_capacity →
        (SetArcCapacity g st arc new_capacity).residual_arc_capacity arc =
            new_capacity ∧
          (SetArcCapacity g st arc new_capacity).residual_arc_capacity
              (Opposite arc) = 0)) := by
  have hcap : Capacity g st arc =
      st.residual_arc_capacity arc + st.residual_arc_capacity (Opposite arc) := by
    simp [Capacity, hd]
  constructor
  · intro h
    simp [SetArcCapacity, ← h]
  · intro hne
    rw [hcap] at hne
    have hdelta :
        new_capacity - (st.residual_arc_capacity arc +
          st.residual_arc_capacity (Opposite arc)) ≠ 0 := sub_ne_zero.mpr hne
    by_cases hge :
      0 ≤ st.residual_arc_capacity arc + (new_capacity -
        (st.residual_arc_capacity arc +
          st.residual_arc_capacity (Opposite arc)))
    · refine ⟨?_, ?_, ?_, ?_⟩
      · simp [SetArcCapacity, hcap, hdelta, hge, ORTools.status]
      · simp [SetArcCapacity, hcap, hdelta, hge, Capacity, hd,
          Function.update_apply, Opposite_ne, ne_Opposite]
        ring
      · intro _
        simp [SetArcCapacity, hcap, hdelta, hge, Flow, hd,
          Function.update_apply, Opposite_ne, ne_Opposite]
      · intro hlt
        rw [hcap] at hlt
        omega
    · refine ⟨?_, ?_, ?_, ?_⟩
      · simp [SetArcCapacity, hcap, hdelta, hge, ORTools.status]
      · simp [SetArcCapacity, hcap, hdelta, hge, Capacity, hd,
          Function.update_apply, Opposite_ne, ne_Opposite]
      · intro hle
        rw [hcap] at hle
        omega
      · intro _
        simp [SetArcCapacity, hcap, hdelta, hge, Function.update_apply,
          Opposite_ne, ne_Opposite]

theorem c6_witness :
    IsArcDirect wG 0 = true ∧ (0 : Int) ≤ 5 ∧
    ((5 = Capacity wG wSt 0 → SetArcCapacity wG wSt 0 5 = wSt) ∧
      (5 ≠ Capacity wG wSt 0 →
        status (SetArcCapacity wG wSt 0 5) = Status.NOT_SOLVED ∧
        Capacity wG (SetArcCapacity wG wSt 0 5) 0 = 5 ∧
        (Capacity wG wSt 0 - 5 ≤ wSt.residual_arc_capacity 0 →
          Flow wG (SetArcCapacity wG wSt 0 5) 0 = Flow wG wSt 0) ∧
        (wSt.residual_arc_capacity 0 < Capacity wG wSt 0 - 5 →
          (SetArcCapacity wG wSt 0 5).residual_arc_capacity 0 = 5 ∧
            (SetArcCapacity wG wSt 0 5).residual_arc_capacity (Opposite 0) =
              0))) :=
  ⟨by decide, by decide, c6_SetArcCapacity wG wSt 0 5 (by decide) (by decide)⟩

/-! ### C8: Solve with the source or sink outside the graph -/

theorem IsArcDirect_iff (g : FlowGraph) (a : Int) :
    IsArcDirect g a = true ↔
      -(g.numArcs : Int) ≤ a ∧ a < (g.numArcs : Int) ∧ 0 ≤ a := by
  simp [IsArcDirect, IsArcValid, Bool.and_eq_true, decide_eq_true_iff, and_assoc]

/-- The arc-reset fold of `InitializePreflow` does not touch `node_excess`. -/
theorem initFold_excess (g : FlowGraph) (l : List Nat) (st : MFState) :
    (l.foldl (fun st (a : Nat) => SetCapacityAndClearFlow st ((a : Int))
      (Capacity g st ((a : Int)))) st).node_excess = st.node_excess := by
  induction l generalizing st with
  | nil => rfl
  | cons b rest ih => rw [List.foldl_cons, ih, SetCapacityAndClearFlow_excess]

/-- Once the residual capacity of the opposite of a forward arc is zero, the
arc-reset fold keeps it zero. -/
theorem initFold_opp_stays (g : FlowGraph) (l : List Nat) (st : MFState)
    (a : Int) (h0 : 0 ≤ a)
    (hz : st.residual_arc_capacity (Opposite a) = 0) :
    (l.foldl (fun st (b : Nat) => SetCapacityAndClearFlow st ((b : Int))
      (Capacity g st ((b : Int)))) st).residual_arc_capacity (Opposite a) =
      0 := by
  induction l generalizing st with
  | nil => exact hz
  | cons b rest ih =>
    rw [List.foldl_cons]
    refine ih _ ?_
    rw [SetCapacityAndClearFlow_resCap]
    have hneg : Opposite a < 0 := by unfold Opposite; omega
    have hb : Opposite a ≠ (b : Int) := by omega
    by_cases he : Opposite a = Opposite (b : Int)
    · simp [he]
    · simp [he, hb, hz]

/-- After the arc-reset fold has processed a forward arc, the residual
capacity of its opposite arc is zero. -/
theorem initFold_opp_zero (g : FlowGraph) (l : List Nat) (st : MFState)
    (a : Int) (h0 : 0 ≤ a) (hmem : a.toNat ∈ l) :
    (l.foldl (fun st (b : Nat) => SetCapacityAndClearFlow st ((b : Int))
      (Capacity g st ((b : Int)))) st).residual_arc_capacity (Opposite a) =
      0 := by
  induction l generalizing st with
  | nil => cases hmem
  | cons b rest ih =>
    rw [List.foldl_cons]
    rcases List.mem_cons.mp hmem with hab | hmem'
    · have ha : a = (b : Int) := by omega
      refine initFold_opp_stays g rest _ a h0 ?_
      rw [SetCapacityAndClearFlow_resCap]
      simp [ha]
    · exact ih _ hmem'

theorem InitializePreflow_excess (g : FlowGraph) (source : Nat) (st : MFState)
    (v : Nat) :
    (InitializePreflow g source st).node_excess v =
      if v < g.nodeReservation then 0 else st.node_excess v := by
  unfold InitializePreflow
  rw [initFold_excess]

theorem InitializePreflow_flow_zero (g : FlowGraph) (source : Nat)
    (st : MFState) (arc : Int) (hd : IsArcDirect g arc = true) :
    Flow g (InitializePreflow g source st) arc = 0 := by
  obtain ⟨h1, h2, h3⟩ := (IsArcDirect_iff g arc).mp hd
  have hmem : arc.toNat ∈ List.range g.numArcs := by
    refine List.mem_range.mpr ?_
    omega
  unfold InitializePreflow
  simp only [Flow, hd, if_true]
  rw [initFold_opp_zero g _ _ arc h3 hmem]

/-- C8: if the source or the sink index is `>= num_nodes()`, `Solve()`
returns `true` with status `OPTIMAL`, `GetOptimalFlow() = 0`, and zero flow
on every forward arc.  (The hypothesis `sink < nodeReservation` is the
constructor's `IsNodeValid` DCHECK: the node arrays have `node_reservation`
entries.) -/
theorem c8_solve_source_or_sink_not_in_graph (g : FlowGraph)
    (source sink : Nat) (st : MFState) (fuel : Nat)
    (h : sink ≥ g.numNodes ∨ source ≥ g.numNodes)
    (hres : sink < g.nodeReservation) :
    ∃ st2, Solve g source sink st fuel = some (st2, true) ∧
      status st2 = Status.OPTIMAL ∧ GetOptimalFlow st2 sink = 0 ∧
      ∀ arc, IsArcDirect g arc = true → Flow g st2 arc = 0 := by
  refine ⟨{ InitializePreflow g source { st with status := Status.NOT_SOLVED }
      with status := Status.OPTIMAL }, ?_, rfl, ?_, ?_⟩
  · unfold Solve
    rw [if_pos h]
  · show (InitializePreflow g source
      { st with status := Status.NOT_SOLVED }).node_excess sink = 0
    rw [InitializePreflow_excess]
    simp [hres]
  · intro arc hd
    show Flow g (InitializePreflow g source
      { st with status := Status.NOT_SOLVED }) arc = 0
    exact InitializePreflow_flow_zero g source _ arc hd

theorem c8_witness :
    ((3 : Nat) ≥ wG.numNodes ∨ (0 : Nat) ≥ wG.numNodes) ∧
    (3 : Nat) < wG.nodeReservation ∧
    (∃ st2, Solve wG 0 3 wSt 0 = some (st2, true) ∧
      status st2 = Status.OPTIMAL ∧ GetOptimalFlow st2 3 = 0 ∧
      ∀ arc, IsArcDirect wG arc = true → Flow wG st2 arc = 0) :=
  ⟨Or.inl (by decide), by decide,
    c8_solve_source_or_sink_not_in_graph wG 0 3 wSt 0 (Or.inl (by decide))
      (by decide)⟩

/-! ### C4: paired residual updates keep `res_cap[b] + res_cap[opp(b)]` -/

theorem Opposite_inj {a b : Int} (h : Opposite a = Opposite b) : a = b := by
  unfold Opposite at h; omega

/-- The paired-update property of a single `PushFlow`. -/
theorem PushFlow_pairSum (g : FlowGraph) (st : MFState) (f : Int)
    (tail : Nat) (arc b : Int) :
    (PushFlow g st f tail arc).residual_arc_capacity b +
      (PushFlow g st f tail arc).residual_arc_capacity (Opposite b) =
    st.residual_arc_capacity b + st.residual_arc_capacity (Opposite b) := by
  rw [PushFlow_resCap, PushFlow_resCap]
  by_cases h1 : b = Opposite arc
  · subst h1
    rw [Opposite_Opposite, if_pos rfl, if_neg (ne_Opposite arc), if_pos rfl]
    ring
  · by_cases h2 : b = arc
    · subst b
      rw [if_neg (ne_Opposite arc), if_pos rfl, if_pos rfl]
      ring
    · have h3 : Opposite b ≠ Opposite arc := fun h => h2 (Opposite_inj h)
      have h4 : Opposite b ≠ arc := by
        intro h
        exact h1 (by rw [← h, Opposite_Opposite])
      rw [if_neg h1, if_neg h2, if_neg h3, if_neg h4]

/-- `st'` has the same pair sums `res_cap[b] + res_cap[opp(b)]` as `st`. -/
def SameCaps (st st' : MFState) : Prop :=
  ∀ b : Int,
    st'.residual_arc_capacity b + st'.residual_arc_capacity (Opposite b) =
      st.residual_arc_capacity b + st.residual_arc_capacity (Opposite b)

theorem SameCaps_refl (st : MFState) : SameCaps st st := fun _ => rfl

theorem SameCaps_trans {s1 s2 s3 : MFState} (h1 : SameCaps s1 s2)
    (h2 : SameCaps s2 s3) : SameCaps s1 s3 := fun b => (h2 b).trans (h1 b)

theorem SameCaps_of_resCap_eq {s1 s2 : MFState}
    (h : s2.residual_arc_capacity = s1.residual_arc_capacity) :
    SameCaps s1 s2 := fun b => by rw [h]

theorem SameCaps_PushFlow (g : FlowGraph) (st : MFState) (f : Int)
    (tail : Nat) (arc : Int) : SameCaps st (PushFlow g st f tail arc) :=
  fun b => PushFlow_pairSum g st f tail arc b

theorem SameCaps_FastPushFlow (g : FlowGraph) (st : MFState) (f : Int)
    (tail : Nat) (arc : Int) : SameCaps st (FastPushFlow g st f tail arc) :=
  fun b => PushFlow_pairSum g st f tail arc b

theorem SameCaps_setPotential (st : MFState) (f : Nat → Nat) :
    SameCaps st { st with node_potential := f } := SameCaps_of_resCap_eq rfl

theorem SameCaps_setQueue (st : MFState)
    (q : PriorityQueueWithRestrictedPush Nat) :
    SameCaps st { st with active_node_by_height := q } :=
  SameCaps_of_resCap_eq rfl

theorem SameCaps_setStatus (st : MFState) (s : Status) :
    SameCaps st { st with status := s } := SameCaps_of_resCap_eq rfl

/-- `SetCapacityAndClearFlow(arc, c)` preserves the pair sums whenever `c`
is the current pair sum of `arc` (as in `InitializePreflow`). -/
theorem SameCaps_SetCapacityAndClearFlow (st : MFState) (arc c : Int)
    (hc : c = st.residual_arc_capacity arc +
      st.residual_arc_capacity (Opposite arc)) :
    SameCaps st (SetCapacityAndClearFlow st arc c) := by
  intro b
  rw [SetCapacityAndClearFlow_resCap, SetCapacityAndClearFlow_resCap]
  by_cases h1 : b = Opposite arc
  · subst h1
    rw [Opposite_Opposite, if_pos rfl, if_neg (ne_Opposite arc), if_pos rfl,
      hc]
    ring
  · by_cases h2 : b = arc
    · subst b
      rw [if_neg (ne_Opposite arc), if_pos rfl, if_pos rfl, hc]
      ring
    · have h3 : Opposite b ≠ Opposite arc := fun h => h2 (Opposite_inj h)
      have h4 : Opposite b ≠ arc := by
        intro h
        exact h1 (by rw [← h, Opposite_Opposite])
      rw [if_neg h1, if_neg h2, if_neg h3, if_neg h4]

theorem SameCaps_initFold (g : FlowGraph) (l : List Nat) (st : MFState)
    (hl : ∀ a ∈ l, a < g.numArcs) :
    SameCaps st (l.foldl (fun st (a : Nat) => SetCapacityAndClearFlow st
      ((a : Int)) (Capacity g st ((a : Int)))) st) := by
  induction l generalizing st with
  | nil => exact SameCaps_refl st
  | cons b rest ih =>
    rw [List.foldl_cons]
    have hb : b < g.numArcs := hl b (List.mem_cons_self b rest)
    have hdir : IsArcDirect g ((b : Int)) = true := by
      rw [IsArcDirect_iff]
      constructor
      · omega
      · constructor <;> omega
    refine SameCaps_trans ?_ (ih _ (fun a ha => hl a (List.mem_cons_of_mem b ha)))
    refine SameCaps_SetCapacityAndClearFlow st _ _ ?_
    simp [Capacity, hdir]

theorem SameCaps_InitializePreflow (g : FlowGraph) (source : Nat)
    (st : MFState) : SameCaps st (InitializePreflow g source st) := by
  unfold InitializePreflow
  refine SameCaps_trans (SameCaps_refl st) ?_
  have h := SameCaps_initFold g (List.range g.numArcs)
    { st with node_excess := fun v =>
        if v < g.nodeReservation then 0 else st.node_excess v }
    (fun a ha => List.mem_range.mp ha)
  intro b
  exact h b

theorem SameCaps_DischargeScan (g : FlowGraph) (node : Nat) :
    ∀ (l : List Int) (st : MFState),
      SameCaps st (DischargeScan g node l st).1 := by
  intro l
  induction l with
  | nil => intro st; exact SameCaps_refl st
  | cons arc rest ih =>
    intro st
    unfold DischargeScan
    by_cases hadm : IsAdmissible g st node arc = true
    · simp only [hadm, if_true]
      set st1 := if st.node_excess (Head g arc) = 0
        then PushActiveNode st (Head g arc) else st with hst1
      have hc1 : SameCaps st st1 := by
        rw [hst1]
        split
        · exact SameCaps_of_resCap_eq rfl
        · exact SameCaps_refl st
      set st2 := FastPushFlow g st1
        (min (st1.node_excess node) (st1.residual_arc_capacity arc)) node arc
        with hst2
      have hc2 : SameCaps st st2 :=
        SameCaps_trans hc1 (SameCaps_PushFlow g st1 _ node arc)
      split
      · exact hc2
      · exact SameCaps_trans hc2 (ih st2)
    · simp only [hadm, if_false]
      exact ih st

theorem SameCaps_Relabel (g : FlowGraph) (st : MFState) (node : Nat) :
    SameCaps st (Relabel g st node) := by
  unfold Relabel
  exact SameCaps_of_resCap_eq rfl

theorem SameCaps_Discharge (g : FlowGraph) (node : Nat) :
    ∀ (fuel : Nat) (st st' : MFState),
      Discharge g node fuel st = some st' → SameCaps st st' := by
  intro fuel
  induction fuel with
  | zero => intro st st' h; cases h
  | succ fuel ih =>
    intro st st' h
    unfold Discharge at h
    split at h
    case _ st1 heq =>
      cases h
      have hc1 := SameCaps_DischargeScan g node
        (IncidentArcsFrom g node (st.first_admissible_arc node)) st
      rw [heq] at hc1
      exact hc1
    case _ st1 heq =>
      have hc1 : SameCaps st st1 := by
        have hc := SameCaps_DischargeScan g node
          (IncidentArcsFrom g node (st.first_admissible_arc node)) st
        rw [heq] at hc
        exact hc
      have hc2 : SameCaps st (Relabel g st1 node) :=
        SameCaps_trans hc1 (SameCaps_Relabel g st1 node)
      simp only [ge_iff_le] at h
      split at h
      · cases h
        exact hc2
      · exact SameCaps_trans hc2 (ih _ _ h)

theorem SameCaps_PushActiveNode (st : MFState) (node : Nat) :
    SameCaps st (PushActiveNode st node) :=
  SameCaps_of_resCap_eq rfl

theorem SameCaps_activeFold (l : List Nat) (st : MFState) :
    (l.foldl (fun st node =>
      if st.node_excess node > 0 then PushActiveNode st node else st)
        st).residual_arc_capacity = st.residual_arc_capacity := by
  induction l generalizing st with
  | nil => rfl
  | cons b rest ih =>
    rw [List.foldl_cons, ih]
    split <;> rfl

theorem SameCaps_GlobalUpdateScan (g : FlowGraph) (cand : Nat) :
    ∀ (l : List Int) (st : MFState) (inq : Nat → Bool) (news : List Nat),
      SameCaps st (GlobalUpdateScan g cand l st inq news).1 := by
  intro l
  induction l with
  | nil => intro st inq news; exact SameCaps_refl st
  | cons arc rest ih =>
    intro st inq news
    simp only [GlobalUpdateScan]
    split
    · exact ih st inq news
    · split
      · split
        · split
          · exact SameCaps_trans (SameCaps_FastPushFlow g st _ _ _) (ih _ _ _)
          · exact SameCaps_trans (SameCaps_FastPushFlow g st _ _ _)
              (SameCaps_trans (SameCaps_setPotential _ _) (ih _ _ _))
        · split
          · exact ih _ _ _
          · exact SameCaps_trans (SameCaps_setPotential _ _) (ih _ _ _)
      · exact ih st inq news

theorem SameCaps_GlobalUpdateBfs (g : FlowGraph) :
    ∀ (fuel : Nat) (st : MFState) (inq : Nat → Bool) (pending acc : List Nat)
      (st' : MFState) (inq' : Nat → Bool) (acc' : List Nat),
      GlobalUpdateBfs g fuel st inq pending acc = some (st', inq', acc') →
      SameCaps st st' := by
  intro fuel
  induction fuel with
  | zero => intro st inq pending acc st' inq' acc' h; cases h
  | succ fuel ih =>
    intro st inq pending acc st' inq' acc' h
    cases pending with
    | nil =>
      simp only [GlobalUpdateBfs, Option.some.injEq] at h
      cases h
      exact SameCaps_refl _
    | cons node rest =>
      simp only [GlobalUpdateBfs] at h
      rcases hscan : GlobalUpdateScan g (st.node_potential node + 1)
          (IncidentArcs g node) st inq [] with ⟨st1, inq1, news⟩
      rw [hscan] at h
      have hc1 : SameCaps st st1 := by
        have hc := SameCaps_GlobalUpdateScan g (st.node_potential node + 1)
          (IncidentArcs g node) st inq []
        rw [hscan] at hc
        exact hc
      exact SameCaps_trans hc1 (ih _ _ _ _ _ _ _ h)

theorem SameCaps_GlobalUpdate (g : FlowGraph) (source sink : Nat) :
    ∀ (fuel : Nat) (st st' : MFState),
      GlobalUpdate g source sink fuel st = some st' → SameCaps st st' := by
  intro fuel st st' h
  simp only [GlobalUpdate] at h
  split at h
  · cases h
  · rename_i st1 inq1 queue hbfs
    simp only [Option.some.injEq] at h
    have hc1 : SameCaps st st1 := SameCaps_GlobalUpdateBfs g fuel st _ _ _ _ _ _ hbfs
    refine SameCaps_trans hc1 ?_
    rw [← h]
    refine SameCaps_trans (SameCaps_refl st1) ?_
    exact SameCaps_of_resCap_eq (SameCaps_activeFold _ _)

theorem SameCaps_SaturateScan (g : FlowGraph) (source : Nat) :
    ∀ (l : List Int) (st : MFState) (b : Bool),
      SameCaps st (SaturateScan g source l st b).1 := by
  intro l
  induction l with
  | nil => intro st b; exact SameCaps_refl st
  | cons arc rest ih =>
    intro st b
    simp only [SaturateScan]
    split
    · exact ih st b
    · split
      · split
        · exact SameCaps_refl st
        · exact SameCaps_PushFlow g st _ _ _
      · exact SameCaps_trans (SameCaps_PushFlow g st _ _ _) (ih _ _)

theorem SameCaps_SaturateOutgoingArcsFromSource (g : FlowGraph)
    (source sink : Nat) (st : MFState) :
    SameCaps st (SaturateOutgoingArcsFromSource g source sink st).1 := by
  unfold SaturateOutgoingArcsFromSource
  split
  · exact SameCaps_refl st
  · split
    · exact SameCaps_refl st
    · exact SameCaps_SaturateScan g source _ st false

theorem SameCaps_cancelFold (g : FlowGraph) (arc_stack : List Int)
    (index_branch : List Nat) (max_flow : Int) (fsi : Nat) :
    ∀ (l : List Nat) (p : MFState × (Nat → Bool)),
      SameCaps p.1 ((l.foldl (fun (p : MFState × (Nat → Bool)) i =>
        let arc_on_cycle := arc_stack.getD (index_branch.getD i 0) 0
        let st := PushFlow g p.1 (-max_flow) (Tail g arc_on_cycle) arc_on_cycle
        let visited :=
          if i ≥ fsi then
            Function.update p.2 (Head g arc_on_cycle) false
          else p.2
        (st, visited)) p).1) := by
  intro l
  induction l with
  | nil => intro p; exact SameCaps_refl p.1
  | cons i rest ih =>
    intro p
    rw [List.foldl_cons]
    exact SameCaps_trans (SameCaps_PushFlow g p.1 _ _ _) (ih _)

theorem SameCaps_CancelCycle (g : FlowGraph) (node : Nat) (arc : Int)
    (flow : Int) (head : Nat) (d : DfsState) :
    SameCaps d.st (CancelCycle g node arc flow head d).1.st := by
  simp only [CancelCycle]
  have h1 := SameCaps_PushFlow g d.st
    (-(FindMaxFlowAndFirstSaturated g d.st d.arc_stack d.index_branch
      (FindCycleBegin g d.arc_stack d.index_branch head
        d.index_branch.length) flow).1) node arc
  split
  · exact SameCaps_trans h1 (SameCaps_cancelFold g _ _ _ _ _ _)
  · exact SameCaps_trans h1 (SameCaps_cancelFold g _ _ _ _ _ _)

theorem SameCaps_DfsExploreArcs (g : FlowGraph) (node : Nat) :
    ∀ (l : List Int) (d : DfsState),
      SameCaps d.st (DfsExploreArcs g node l d).st := by
  intro l
  induction l with
  | nil => intro d; exact SameCaps_refl d.st
  | cons arc rest ih =>
    intro d
    simp only [DfsExploreArcs]
    split
    · split
      · exact ih _
      · have hc := SameCaps_CancelCycle g node arc (Flow g d.st arc)
          (Head g arc) d
        split
        · exact hc
        · exact SameCaps_trans hc (ih _)
    · exact ih d

theorem SameCaps_DfsLoop (g : FlowGraph) :
    ∀ (fuel : Nat) (d d' : DfsState),
      DfsLoop g fuel d = some d' → SameCaps d.st d'.st := by
  intro fuel
  induction fuel with
  | zero => intro d d' h; cases h
  | succ fuel ih =>
    intro d d' h
    simp only [DfsLoop] at h
    split at h
    · cases h
      exact SameCaps_refl _
    · split at h
      · refine SameCaps_trans (SameCaps_of_resCap_eq ?_) (ih _ _ h)
        split <;> rfl
      · refine SameCaps_trans ?_ (ih _ _ h)
        exact SameCaps_DfsExploreArcs g _ _ _

theorem SameCaps_ReturnExcessScan (g : FlowGraph) (node : Nat) :
    ∀ (l : List Int) (st : MFState),
      SameCaps st (ReturnExcessScan g node l st) := by
  intro l
  induction l with
  | nil => intro st; exact SameCaps_refl st
  | cons arc rest ih =>
    intro st
    simp only [ReturnExcessScan]
    split
    · split
      · exact SameCaps_PushFlow g st _ _ _
      · exact SameCaps_trans (SameCaps_PushFlow g st _ _ _) (ih _)
    · exact ih st

theorem SameCaps_ReturnExcess (g : FlowGraph) :
    ∀ (l : List Nat) (st : MFState), SameCaps st (ReturnExcess g l st) := by
  intro l
  induction l with
  | nil => intro st; exact SameCaps_refl st
  | cons node rest ih =>
    intro st
    unfold ReturnExcess
    split
    · exact ih st
    · exact SameCaps_trans (SameCaps_ReturnExcessScan g node _ st) (ih _)

theorem SameCaps_PushFlowExcessBackToSource (g : FlowGraph)
    (source sink : Nat) :
    ∀ (fuel : Nat) (st st' : MFState),
      PushFlowExcessBackToSource g source sink fuel st = some st' →
        SameCaps st st' := by
  intro fuel st st' h
  simp only [PushFlowExcessBackToSource] at h
  split at h
  · cases h
  · rename_i d hd
    simp only [Option.some.injEq] at h
    have hc1 : SameCaps st d.st := SameCaps_DfsLoop g fuel _ d hd
    rw [← h]
    exact SameCaps_trans hc1 (SameCaps_ReturnExcess g _ d.st)

theorem SameCaps_RefineInner (g : FlowGraph) (source sink : Nat) :
    ∀ (fuel : Nat) (st : MFState) (skip : Nat → Nat) (ns : Nat)
      (st' : MFState) (ns' : Nat),
      RefineInner g source sink fuel st skip ns = some (st', ns') →
        SameCaps st st' := by
  intro fuel
  induction fuel with
  | zero => intro st skip ns st' ns' h; cases h
  | succ fuel ih =>
    intro st skip ns st' ns' h
    simp only [RefineInner] at h
    split at h
    · cases h
      exact SameCaps_refl _
    · rename_i p node q hpop
      split at h
      · exact SameCaps_trans (SameCaps_setQueue st q) (ih _ _ _ _ _ h)
      · split at h
        · cases h
        · rename_i st1 hdis
          refine SameCaps_trans ?_ (ih _ _ _ _ _ h)
          exact SameCaps_trans (SameCaps_setQueue st q)
            (SameCaps_Discharge g node _ _ _ hdis)

theorem SameCaps_RefineDo (g : FlowGraph) (source sink : Nat) :
    ∀ (fuel : Nat) (st st' : MFState),
      RefineDo g source sink fuel st = some st' → SameCaps st st' := by
  intro fuel
  induction fuel with
  | zero => intro st st' h; cases h
  | succ fuel ih =>
    intro st st' h
    simp only [RefineDo] at h
    split at h
    · cases h
    · rename_i st1 hgu
      split at h
      · cases h
      · rename_i p st2 ns hri
        have hc1 : SameCaps st st1 := SameCaps_GlobalUpdate g source sink _ _ _ hgu
        have hc2 : SameCaps st1 st2 :=
          SameCaps_RefineInner g source sink _ _ _ _ _ _ hri
        split at h
        · exact SameCaps_trans hc1 (SameCaps_trans hc2 (ih _ _ h))
        · cases h
          exact SameCaps_trans hc1 hc2

theorem SameCaps_RefineOuter (g : FlowGraph) (source sink : Nat) :
    ∀ (fuel : Nat) (st st' : MFState),
      RefineOuter g source sink fuel st = some st' → SameCaps st st' := by
  intro fuel
  induction fuel with
  | zero => intro st st' h; cases h
  | succ fuel ih =>
    intro st st' h
    simp only [RefineOuter] at h
    split at h
    · rename_i st1 hsat
      cases h
      have hc := SameCaps_SaturateOutgoingArcsFromSource g source sink st
      rw [hsat] at hc
      exact hc
    · rename_i st1 hsat
      have hc1 : SameCaps st st1 := by
        have hc := SameCaps_SaturateOutgoingArcsFromSource g source sink st
        rw [hsat] at hc
        exact hc
      split at h
      · cases h
      · rename_i st2 hdo
        split at h
        · cases h
        · rename_i st3 hp
          exact SameCaps_trans hc1 (SameCaps_trans
            (SameCaps_RefineDo g source sink _ _ _ hdo)
            (SameCaps_trans
              (SameCaps_PushFlowExcessBackToSource g source sink _ _ _ hp)
              (ih _ _ h)))

/-- C4: `PushFlow(q, tail, a)` and `FastPushFlow` leave
`res_cap[b] + res_cap[opp(b)]` unchanged for every arc pair `b` (for any
flow quantity `q`, positive or negative); consequently `Capacity(a)` of
every forward arc is constant throughout a `Solve()`. -/
theorem c4_push_flow_preserves_capacity :
    (∀ (g : FlowGraph) (st : MFState) (q : Int) (tail : Nat) (arc b : Int),
      (PushFlow g st q tail arc).residual_arc_capacity b +
          (PushFlow g st q tail arc).residual_arc_capacity (Opposite b) =
        st.residual_arc_capacity b +
          st.residual_arc_capacity (Opposite b)) ∧
    (∀ (g : FlowGraph) (st : MFState) (q : Int) (tail : Nat) (arc b : Int),
      (FastPushFlow g st q tail arc).residual_arc_capacity b +
          (FastPushFlow g st q tail arc).residual_arc_capacity (Opposite b) =
        st.residual_arc_capacity b +
          st.residual_arc_capacity (Opposite b)) ∧
    (∀ (g : FlowGraph) (source sink : Nat) (st : MFState) (fuel : Nat)
      (st2 : MFState) (r : Bool),
      Solve g source sink st fuel = some (st2, r) →
      ∀ arc : Int, IsArcDirect g arc = true →
        Capacity g st2 arc = Capacity g st arc) := by
  refine ⟨PushFlow_pairSum, PushFlow_pairSum, ?_⟩
  intro g source sink st fuel st2 r h arc hd
  have hcap : ∀ s1 s2 : MFState, SameCaps s1 s2 →
      Capacity g s2 arc = Capacity g s1 arc := by
    intro s1 s2 hc
    simp only [Capacity, hd, if_true]
    exact hc arc
  simp only [Solve] at h
  split at h
  · cases h
    refine hcap _ _ ?_
    exact SameCaps_trans (SameCaps_setStatus st _)
      (SameCaps_trans (SameCaps_InitializePreflow g source _)
        (SameCaps_setStatus _ _))
  · split at h
    · cases h
    · rename_i st1 href
      have hc1 : SameCaps st { st1 with status := Status.OPTIMAL } :=
        SameCaps_trans (SameCaps_setStatus st _)
          (SameCaps_trans (SameCaps_InitializePreflow g source _)
            (SameCaps_trans (SameCaps_RefineOuter g source sink fuel _ _ href)
              (SameCaps_setStatus _ _)))
      split at h
      · split at h
        · cases h
        · rename_i b hb
          cases h
          refine hcap _ _ ?_
          split
          · exact SameCaps_trans hc1 (SameCaps_setStatus _ _)
          · exact hc1
      · cases h
        exact hcap _ _ hc1

theorem c4_witness :
    IsArcDirect wG 0 = true ∧
    Capacity wG ((Solve wG 0 2 wSt 30).getD (wSt, false)).1 0 =
      Capacity wG wSt 0 :=
  ⟨by decide,
    c4_push_flow_preserves_capacity.2.2 wG 0 2 wSt 30
      ((Solve wG 0 2 wSt 30).getD (wSt, false)).1
      ((Solve wG 0 2 wSt 30).getD (wSt, false)).2
      (by rw [Prod.mk.eta]; rfl) 0 (by decide)⟩

/-! ### C9: cycle cancellation does not change any node's excess -/

/-- Pointwise excess effect of the cancellation fold of `CancelCycle`: each
push of `-m` on a cycle arc adds `m` at the arc's tail and removes `m` at
its head. -/
theorem cancelFold_excess (g : FlowGraph) (arc_stack : List Int)
    (index_branch : List Nat) (m : Int) (fsi : Nat) :
    ∀ (is : List Nat) (p : MFState × (Nat → Bool)) (v : Nat),
      ((is.foldl (fun (p : MFState × (Nat → Bool)) i =>
        let arc_on_cycle := arc_stack.getD (index_branch.getD i 0) 0
        let st := PushFlow g p.1 (-m) (Tail g arc_on_cycle) arc_on_cycle
        let visited :=
          if i ≥ fsi then
            Function.update p.2 (Head g arc_on_cycle) false
          else p.2
        (st, visited)) p).1).node_excess v =
      p.1.node_excess v + ((is.map (fun i =>
        arc_stack.getD (index_branch.getD i 0) 0)).map (fun a =>
        ((if v = Tail g a then m else 0) -
          (if v = Head g a then m else 0)))).sum := by
  intro is
  induction is with
  | nil => intro p v; simp
  | cons i rest ih =>
    intro p v
    rw [List.foldl_cons, List.map_cons, List.map_cons, List.sum_cons, ih]
    simp only [PushFlow_excess]
    by_cases h1 : v = Tail g (arc_stack.getD (index_branch.getD i 0) 0)
    · by_cases h2 : v = Head g (arc_stack.getD (index_branch.getD i 0) 0)
      · rw [if_pos h1, if_pos h2, if_pos h1, if_pos h2]
        ring
      · rw [if_pos h1, if_neg h2, if_pos h1, if_neg h2]
        ring
    · by_cases h2 : v = Head g (arc_stack.getD (index_branch.getD i 0) 0)
      · rw [if_neg h1, if_pos h2, if_neg h1, if_pos h2]
        ring
      · rw [if_neg h1, if_neg h2, if_neg h1, if_neg h2]
        ring

/-- Telescoping a chain of tail/head indicator differences. -/
theorem chain_sum (g : FlowGraph) (m : Int) (v : Nat) :
    ∀ (L : List Int) (hne : L ≠ [])
      (hchain : List.Chain' (fun a b => Head g a = Tail g b) L),
      (L.map (fun a => ((if v = Tail g a then m else 0) -
        (if v = Head g a then m else 0)))).sum =
        (if v = Tail g L.headI then m else 0) -
          (if v = Head g (L.getLast hne) then m else 0) := by
  intro L
  induction L with
  | nil => intro hne; cases hne rfl
  | cons a rest ih =>
    intro hne hchain
    cases rest with
    | nil => simp
    | cons b rest2 =>
      have hab : Head g a = Tail g b := (List.chain'_cons.mp hchain).1
      have hrec := ih (by simp) (List.chain'_cons.mp hchain).2
      rw [List.map_cons, List.sum_cons, hrec]
      rw [List.getLast_cons (by simp : (b :: rest2) ≠ [])]
      show (if v = Tail g a then m else 0) - (if v = Head g a then m else 0) +
        ((if v = Tail g (b :: rest2).headI then m else 0) -
          (if v = Head g ((b :: rest2).getLast (by simp)) then m else 0)) = _
      rw [show (b :: rest2).headI = b from rfl, hab]
      show _ = (if v = Tail g (a :: b :: rest2).headI then m else 0) -
        (if v = Head g ((b :: rest2).getLast (by simp)) then m else 0)
      rw [show (a :: b :: rest2).headI = a from rfl]
      ring

/-- C9: cancelling a detected flow cycle (pushing `-max_flow` on the back
arc and on every branch arc of the cycle) leaves `excess[v]` unchanged for
every node `v`, provided the cancelled arcs do form a closed cycle: the back
arc leaves `node`, consecutive branch arcs are chained head-to-tail, the
last branch arc enters `node`, and the back arc's head is the tail of the
first branch arc (the DFS of `PushFlowExcessBackToSource` establishes
exactly this shape when it discovers a back edge). -/
theorem c9_cancel_cycle_preserves_excess (g : FlowGraph) (node : Nat)
    (arc : Int) (flow : Int) (head : Nat) (d : DfsState) (cb : Nat)
    (L : List Int)
    (hcb : cb = FindCycleBegin g d.arc_stack d.index_branch head
      d.index_branch.length)
    (hL : L = ((List.range d.index_branch.length).drop cb).map
      (fun i => d.arc_stack.getD (d.index_branch.getD i 0) 0))
    (htail : Tail g arc = node)
    (hchain : List.Chain' (fun a b => Head g a = Tail g b) L)
    (hclose_nil : L = [] → Head g arc = node)
    (hclose_cons : ∀ hne : L ≠ [],
      Head g arc = Tail g L.headI ∧ Head g (L.getLast hne) = node) :
    ∀ v : Nat, (CancelCycle g node arc flow head d).1.st.node_excess v =
      d.st.node_excess v := by
  intro v
  have key : ∀ (m : Int) (fsi : Nat) (p2 : Nat → Bool),
      ((((List.range d.index_branch.length).drop cb).reverse.foldl
        (fun (p : MFState × (Nat → Bool)) i =>
          let arc_on_cycle := d.arc_stack.getD (d.index_branch.getD i 0) 0
          let st := PushFlow g p.1 (-m) (Tail g arc_on_cycle) arc_on_cycle
          let visited :=
            if i ≥ fsi then
              Function.update p.2 (Head g arc_on_cycle) false
            else p.2
          (st, visited))
        (PushFlow g d.st (-m) node arc, p2)).1).node_excess v =
      d.st.node_excess v := by
    intro m fsi p2
    rw [cancelFold_excess]
    simp only [PushFlow_excess, htail]
    rw [List.map_reverse, ← hL, List.map_reverse, List.sum_reverse]
    rcases hLe : L with _ | ⟨a0, Lrest⟩
    · have hcn := hclose_nil hLe
      rw [List.map_nil, List.sum_nil, hcn]
      by_cases h1 : v = node
      · rw [if_pos h1]
        ring
      · rw [if_neg h1]
        ring
    · rw [← hLe]
      have hne : L ≠ [] := by rw [hLe]; simp
      rw [chain_sum g m v L hne hchain]
      obtain ⟨hc1, hc2⟩ := hclose_cons hne
      rw [← hc1, hc2]
      by_cases h1 : v = node
      · by_cases h2 : v = Head g arc
        · rw [if_pos h1, if_pos h2, if_pos h2, if_pos h1]
          ring
        · rw [if_pos h1, if_neg h2, if_neg h2, if_pos h1]
          ring
      · by_cases h2 : v = Head g arc
        · rw [if_neg h1, if_pos h2, if_pos h2, if_neg h1]
          ring
        · rw [if_neg h1, if_neg h2, if_neg h2, if_neg h1]
          ring
  simp only [CancelCycle, ← hcb]
  split
  · exact key _ _ _
  · exact key _ _ _

/-- Fixture graph for the cycle witness: arcs `0 -> 1`, `1 -> 2`, `2 -> 1`
(a flow cycle between nodes 1 and 2). -/
def wG2 : FlowGraph where
  numNodes := 3
  numArcs := 3
  nodeReservation := 3
  tails := fun a => [0, 1, 2].getD a 0
  heads := fun a => [1, 2, 1].getD a 0
  reservation_ok := by decide
  tails_lt := by decide
  heads_lt := by decide

/-- Fixture DFS state for the cycle witness: the branch holds the discovery
arc `1 -> 2` and the back arc is `2 -> 1`. -/
def wD : DfsState where
  st := ORTools.GenericMaxFlow wG2 0 2 Status.NOT_SOLVED
  stored := fun _ => false
  visited := fun _ => false
  arc_stack := [1]
  index_branch := [0]
  reverse_topological_order := []

theorem c9_witness :
    (0 = FindCycleBegin wG2 wD.arc_stack wD.index_branch 1
      wD.index_branch.length) ∧
    ([(1 : Int)] = ((List.range wD.index_branch.length).drop 0).map
      (fun i => wD.arc_stack.getD (wD.index_branch.getD i 0) 0)) ∧
    (Tail wG2 2 = 2) ∧
    List.Chain' (fun a b => Head wG2 a = Tail wG2 b) [(1 : Int)] ∧
    (CancelCycle wG2 2 2 1 1 wD).1.st.node_excess 1 =
      wD.st.node_excess 1 := by
  refine ⟨by decide, by decide, by decide, by simp, ?_⟩
  exact c9_cancel_cycle_preserves_excess wG2 2 2 1 1 wD 0 [1] (by decide)
    (by decide) (by decide) (by simp)
    (by intro h; exact absurd h (by decide))
    (fun hne => ⟨by decide, by rw [List.getLast_singleton]; decide⟩) 1

/-! ### C5: `PriorityQueueWithRestrictedPush` behaviour under the
restricted-push contract.

Runs are instrumented: each pushed element carries the index of its push
(`Nat` timestamp), so "most recently pushed" is "largest timestamp". -/

/-- The multiset of `(element, priority)` pairs currently stored. -/
def PQContents (q : PriorityQueueWithRestrictedPush α) : List (α × Int) :=
  q.even_queue ++ q.odd_queue

/-- One operation on the queue. -/
inductive PQOp where
  | push (e : Nat) (p : Int)
  | pop
  deriving DecidableEq, Repr

/-- Execute one operation on an instrumented queue (elements are
`(payload, timestamp)` pairs, the counter is the next timestamp). -/
def PQStep (op : PQOp) (s : PriorityQueueWithRestrictedPush (Nat × Nat) × Nat) :
    PriorityQueueWithRestrictedPush (Nat × Nat) × Nat :=
  match op with
  | .push e p => (PQPush s.1 (e, s.2) p, s.2 + 1)
  | .pop =>
    match PQPop s.1 with
    | none => s
    | some (_, q') => (q', s.2)

/-- Execute a list of operations. -/
def PQExec (ops : List PQOp)
    (s : PriorityQueueWithRestrictedPush (Nat × Nat) × Nat) :
    PriorityQueueWithRestrictedPush (Nat × Nat) × Nat :=
  ops.foldl (fun s op => PQStep op s) s

/-- The restricted-push contract over a run: every `Push` has priority at
least the highest priority currently stored minus one, every `Pop` is on a
non-empty queue. -/
def PQValidRun : List PQOp →
    PriorityQueueWithRestrictedPush (Nat × Nat) × Nat → Bool
  | [], _ => true
  | .push e p :: rest, s =>
    (PQContents s.1).all (fun x => decide (x.2 - 1 ≤ p)) &&
      PQValidRun rest (PQStep (.push e p) s)
  | .pop :: rest, s =>
    !PQIsEmpty s.1 && PQValidRun rest (PQStep .pop s)

/-- Internal invariant of an instrumented queue: the stacks are split by
priority parity, sorted (front = vector back = most recent, with larger
priority and strictly larger timestamp), and all timestamps are below the
counter. -/
def PQInv (s : PriorityQueueWithRestrictedPush (Nat × Nat) × Nat) : Prop :=
  (∀ x ∈ s.1.even_queue, x.2 % 2 = 0) ∧
  (∀ x ∈ s.1.odd_queue, x.2 % 2 = 1) ∧
  s.1.even_queue.Pairwise (fun x y => y.2 ≤ x.2 ∧ y.1.2 < x.1.2) ∧
  s.1.odd_queue.Pairwise (fun x y => y.2 ≤ x.2 ∧ y.1.2 < x.1.2) ∧
  (∀ x ∈ PQContents s.1, x.1.2 < s.2)

theorem PQInv_empty : PQInv (PQEmpty (Nat × Nat), 0) := by
  refine ⟨?_, ?_, ?_, ?_, ?_⟩ <;> simp [PQEmpty, PQContents]

theorem PQInv_push (s : PriorityQueueWithRestrictedPush (Nat × Nat) × Nat)
    (e : Nat) (p : Int) (hinv : PQInv s)
    (hpre : ∀ x ∈ PQContents s.1, x.2 - 1 ≤ p) :
    PQInv (PQStep (.push e p) s) := by
  obtain ⟨he, ho, pe, po, hts⟩ := hinv
  simp only [PQStep, PQPush]
  by_cases hp : p % 2 = 1
  · rw [if_pos hp]
    refine ⟨he, ?_, pe, ?_, ?_⟩
    · intro x hx
      rcases List.mem_cons.mp hx with hx | hx
      · rw [hx]; exact hp
      · exact ho x hx
    · rw [List.pairwise_cons]
      refine ⟨?_, po⟩
      intro x hx
      have hmem : x ∈ PQContents s.1 := List.mem_append.mpr (Or.inr hx)
      constructor
      · have h1 := hpre x hmem
        have h2 := ho x hx
        omega
      · exact hts x hmem
    · intro x hx
      simp only [PQContents, List.mem_append, List.mem_cons] at hx
      rcases hx with hx | hx | hx
      · exact Nat.lt_succ_of_lt
          (hts x (List.mem_append.mpr (Or.inl hx)))
      · rw [hx]; exact Nat.lt_succ_self _
      · exact Nat.lt_succ_of_lt
          (hts x (List.mem_append.mpr (Or.inr hx)))
  · rw [if_neg hp]
    refine ⟨?_, ho, ?_, po, ?_⟩
    · intro x hx
      rcases List.mem_cons.mp hx with hx | hx
      · rw [hx]; omega
      · exact he x hx
    · rw [List.pairwise_cons]
      refine ⟨?_, pe⟩
      intro x hx
      have hmem : x ∈ PQContents s.1 := List.mem_append.mpr (Or.inl hx)
      constructor
      · have h1 := hpre x hmem
        have h2 := he x hx
        omega
      · exact hts x hmem
    · intro x hx
      simp only [PQContents, List.mem_append, List.mem_cons] at hx
      rcases hx with (hx | hx) | hx
      · rw [hx]; exact Nat.lt_succ_self _
      · exact Nat.lt_succ_of_lt
          (hts x (List.mem_append.mpr (Or.inl hx)))
      · exact Nat.lt_succ_of_lt
          (hts x (List.mem_append.mpr (Or.inr hx)))

theorem PQInv_pop (s : PriorityQueueWithRestrictedPush (Nat × Nat) × Nat)
    (hinv : PQInv s) : PQInv (PQStep .pop s) := by
  obtain ⟨⟨qe, qo⟩, c⟩ := s
  obtain ⟨he, ho, pe, po, hts⟩ := hinv
  cases qe with
  | nil =>
    cases qo with
    | nil => exact ⟨he, ho, pe, po, hts⟩
    | cons y ro =>
      obtain ⟨ye, yp⟩ := y
      simp only [PQStep, PQPop]
      refine ⟨he, ?_, pe, (List.pairwise_cons.mp po).2, ?_⟩
      · intro z hz
        exact ho z (List.mem_cons_of_mem _ hz)
      · intro z hz
        refine hts z ?_
        simp only [PQContents, List.mem_append, List.mem_cons] at hz ⊢
        tauto
  | cons x re =>
    obtain ⟨xe, xp⟩ := x
    cases qo with
    | nil =>
      simp only [PQStep, PQPop]
      refine ⟨?_, ho, (List.pairwise_cons.mp pe).2, po, ?_⟩
      · intro z hz
        exact he z (List.mem_cons_of_mem _ hz)
      · intro z hz
        refine hts z ?_
        simp only [PQContents, List.mem_append, List.mem_cons] at hz ⊢
        tauto
    | cons y ro =>
      obtain ⟨ye, yp⟩ := y
      by_cases hc : yp > xp
      · simp only [PQStep, PQPop]
        rw [if_pos hc]
        refine ⟨he, ?_, pe, (List.pairwise_cons.mp po).2, ?_⟩
        · intro z hz
          exact ho z (List.mem_cons_of_mem _ hz)
        · intro z hz
          refine hts z ?_
          simp only [PQContents, List.mem_append, List.mem_cons] at hz ⊢
          tauto
      · simp only [PQStep, PQPop]
        rw [if_neg hc]
        refine ⟨?_, ho, (List.pairwise_cons.mp pe).2, po, ?_⟩
        · intro z hz
          exact he z (List.mem_cons_of_mem _ hz)
        · intro z hz
          refine hts z ?_
          simp only [PQContents, List.mem_append, List.mem_cons] at hz ⊢
          tauto

theorem PQInv_exec (ops : List PQOp) :
    ∀ s, PQValidRun ops s = true → PQInv s → PQInv (PQExec ops s) := by
  induction ops with
  | nil => intro s _ hinv; exact hinv
  | cons op rest ih =>
    intro s hvalid hinv
    cases op with
    | push e p =>
      simp only [PQValidRun, Bool.and_eq_true, List.all_eq_true] at hvalid
      refine ih _ hvalid.2 ?_
      refine PQInv_push s e p hinv ?_
      intro x hx
      have := hvalid.1 x hx
      exact of_decide_eq_true this
    | pop =>
      simp only [PQValidRun, Bool.and_eq_true] at hvalid
      exact ih _ hvalid.2 (PQInv_pop s hinv)

/-- Under the invariant, a pop returns an element of maximal priority; among
stored elements of that priority it is the most recently pushed one. -/
theorem PQPop_max (s : PriorityQueueWithRestrictedPush (Nat × Nat) × Nat)
    (hinv : PQInv s) (hne : PQIsEmpty s.1 = false) :
    ∃ (e t : Nat) (p0 : Int)
      (q' : PriorityQueueWithRestrictedPush (Nat × Nat)),
      PQPop s.1 = some ((e, t), q') ∧
      ((e, t), p0) ∈ PQContents s.1 ∧
      ∀ x ∈ PQContents s.1, x.2 ≤ p0 ∧ (x.2 = p0 → x.1.2 ≤ t) := by
  obtain ⟨⟨qe, qo⟩, c⟩ := s
  obtain ⟨he, ho, pe, po, hts⟩ := hinv
  cases qe with
  | nil =>
    cases qo with
    | nil => simp [PQIsEmpty] at hne
    | cons y ro =>
      obtain ⟨⟨y1, y2⟩, yp⟩ := y
      refine ⟨y1, y2, yp, _, rfl, by simp [PQContents], ?_⟩
      intro x hx
      simp only [PQContents, List.nil_append, List.mem_cons] at hx
      rcases hx with hx | hx
      · rw [hx]; exact ⟨le_refl _, fun _ => le_refl _⟩
      · have hp := (List.pairwise_cons.mp po).1 x hx
        exact ⟨hp.1, fun _ => le_of_lt hp.2⟩
  | cons xq re =>
    obtain ⟨⟨x1, x2⟩, xp⟩ := xq
    cases qo with
    | nil =>
      refine ⟨x1, x2, xp, _, rfl, by simp [PQContents], ?_⟩
      intro x hx
      simp only [PQContents, List.append_nil, List.mem_cons] at hx
      rcases hx with hx | hx
      · rw [hx]; exact ⟨le_refl _, fun _ => le_refl _⟩
      · have hp := (List.pairwise_cons.mp pe).1 x hx
        exact ⟨hp.1, fun _ => le_of_lt hp.2⟩
    | cons y ro =>
      obtain ⟨⟨y1, y2⟩, yp⟩ := y
      by_cases hc : yp > xp
      · refine ⟨y1, y2, yp, ⟨((x1, x2), xp) :: re, ro⟩, ?_,
          by simp [PQContents], ?_⟩
        · simp only [PQPop]
          rw [if_pos hc]
        · intro x hx
          simp only [PQContents, List.mem_append, List.mem_cons] at hx
          rcases hx with hx | hx
          · rcases hx with hx | hx
            · rw [hx]
              refine ⟨le_of_lt hc, fun hEq => ?_⟩
              exfalso
              have h1 := he ((x1, x2), xp) (by simp)
              have h2 := ho ((y1, y2), yp) (by simp)
              omega
            · have hp := (List.pairwise_cons.mp pe).1 x hx
              refine ⟨le_of_lt (lt_of_le_of_lt hp.1 hc), fun hEq => ?_⟩
              exfalso
              have := lt_of_le_of_lt hp.1 hc
              omega
          · rcases hx with hx | hx
            · rw [hx]; exact ⟨le_refl _, fun _ => le_refl _⟩
            · have hp := (List.pairwise_cons.mp po).1 x hx
              exact ⟨hp.1, fun _ => le_of_lt hp.2⟩
      · have hc' : yp ≤ xp := not_lt.mp hc
        refine ⟨x1, x2, xp, ⟨re, ((y1, y2), yp) :: ro⟩, ?_,
          by simp [PQContents], ?_⟩
        · simp only [PQPop]
          rw [if_neg hc]
        · intro x hx
          simp only [PQContents, List.mem_append, List.mem_cons] at hx
          rcases hx with hx | hx
          · rcases hx with hx | hx
            · rw [hx]; exact ⟨le_refl _, fun _ => le_refl _⟩
            · have hp := (List.pairwise_cons.mp pe).1 x hx
              exact ⟨hp.1, fun _ => le_of_lt hp.2⟩
          · rcases hx with hx | hx
            · rw [hx]
              refine ⟨hc', fun hEq => ?_⟩
              exfalso
              have h1 := he ((x1, x2), xp) (by simp)
              have h2 := ho ((y1, y2), yp) (by simp)
              omega
            · have hp := (List.pairwise_cons.mp po).1 x hx
              refine ⟨le_trans hp.1 hc', fun hEq => ?_⟩
              exfalso
              have h1 := he ((x1, x2), xp) (by simp)
              have h2 := ho x (List.mem_cons_of_mem _ hx)
              omega

/-- C5: in every run of `PriorityQueueWithRestrictedPush` operations from
the empty queue in which each `Push(element, priority)` satisfies
`priority >= (highest priority in the queue) - 1` and each `Pop` is on a
non-empty queue, a `Pop` of the reached queue returns an element whose
priority is maximal among the stored elements, and among elements of equal
priority the most recently pushed one (LIFO).  Elements are instrumented
with their push timestamp `t`. -/
theorem c5_priority_queue_restricted_push (ops : List PQOp)
    (hvalid : PQValidRun ops (PQEmpty (Nat × Nat), 0) = true)
    (hne : PQIsEmpty (PQExec ops (PQEmpty (Nat × Nat), 0)).1 = false) :
    ∃ (e t : Nat) (p0 : Int)
      (q' : PriorityQueueWithRestrictedPush (Nat × Nat)),
      PQPop (PQExec ops (PQEmpty (Nat × Nat), 0)).1 = some ((e, t), q') ∧
      ((e, t), p0) ∈ PQContents (PQExec ops (PQEmpty (Nat × Nat), 0)).1 ∧
      ∀ x ∈ PQContents (PQExec ops (PQEmpty (Nat × Nat), 0)).1,
        x.2 ≤ p0 ∧ (x.2 = p0 → x.1.2 ≤ t) :=
  PQPop_max _ (PQInv_exec ops _ hvalid PQInv_empty) hne

theorem c5_witness :
    PQValidRun [PQOp.push 10 4, PQOp.push 11 4, PQOp.push 12 3]
      (PQEmpty (Nat × Nat), 0) = true ∧
    PQIsEmpty (PQExec [PQOp.push 10 4, PQOp.push 11 4, PQOp.push 12 3]
      (PQEmpty (Nat × Nat), 0)).1 = false ∧
    (∃ (e t : Nat) (p0 : Int)
      (q' : PriorityQueueWithRestrictedPush (Nat × Nat)),
      PQPop (PQExec [PQOp.push 10 4, PQOp.push 11 4, PQOp.push 12 3]
        (PQEmpty (Nat × Nat), 0)).1 = some ((e, t), q') ∧
      ((e, t), p0) ∈ PQContents (PQExec
        [PQOp.push 10 4, PQOp.push 11 4, PQOp.push 12 3]
        (PQEmpty (Nat × Nat), 0)).1 ∧
      ∀ x ∈ PQContents (PQExec
        [PQOp.push 10 4, PQOp.push 11 4, PQOp.push 12 3]
        (PQEmpty (Nat × Nat), 0)).1,
        x.2 ≤ p0 ∧ (x.2 = p0 → x.1.2 ≤ t)) :=
  ⟨by decide, by decide,
    c5_priority_queue_restricted_push
      [PQOp.push 10 4, PQOp.push 11 4, PQOp.push 12 3] (by decide)
      (by decide)⟩

/-! ### Arc helpers for the flow-conservation development (C1, C2) -/

theorem listCast_eq (l : List Nat) :
    l.map (fun n => (n : Int)) = l.map (fun (n : Nat) => (n : Int)) := by
  induction l with
  | nil => rfl
  | cons x xs ih =>
    simp only [List.pure_def, List.bind_eq_flatMap, List.flatMap_cons,
      List.map_append, List.map_cons, List.map_nil, List.cons_append,
      List.nil_append] at *
    rw [← ih]

theorem OutgoingArcs_eq (g : FlowGraph) (v : Nat) :
    OutgoingArcs g v = ((List.range g.numArcs).filter
      (fun a => g.tails a = v)).map (fun (n : Nat) => (n : Int)) :=
  listCast_eq _

theorem IncomingArcs_eq (g : FlowGraph) (v : Nat) :
    IncomingArcs g v = ((List.range g.numArcs).filter
      (fun a => g.heads a = v)).map (fun (n : Nat) => (n : Int)) :=
  listCast_eq _

theorem mem_OutgoingArcs {g : FlowGraph} {v : Nat} {a : Int}
    (h : a ∈ OutgoingArcs g v) :
    ∃ n : Nat, a = (n : Int) ∧ n < g.numArcs ∧ g.tails n = v := by
  rw [OutgoingArcs_eq] at h
  simp only [List.mem_map, List.mem_filter, List.mem_range,
    decide_eq_true_eq] at h
  rcases h with ⟨n, ⟨hn, hf⟩, rfl⟩
  exact ⟨n, rfl, hn, hf⟩

theorem mem_IncomingArcs {g : FlowGraph} {v : Nat} {a : Int}
    (h : a ∈ IncomingArcs g v) :
    ∃ n : Nat, a = (n : Int) ∧ n < g.numArcs ∧ g.heads n = v := by
  rw [IncomingArcs_eq] at h
  simp only [List.mem_map, List.mem_filter, List.mem_range,
    decide_eq_true_eq] at h
  rcases h with ⟨n, ⟨hn, hf⟩, rfl⟩
  exact ⟨n, rfl, hn, hf⟩

theorem mem_OutgoingArcs_of {g : FlowGraph} {v : Nat} {n : Nat}
    (hn : n < g.numArcs) (ht : g.tails n = v) :
    ((n : Nat) : Int) ∈ OutgoingArcs g v := by
  rw [OutgoingArcs_eq]
  exact List.mem_map_of_mem _
    (List.mem_filter.2 ⟨List.mem_range.2 hn, by simpa using ht⟩)

theorem mem_IncomingArcs_of {g : FlowGraph} {v : Nat} {n : Nat}
    (hn : n < g.numArcs) (hh : g.heads n = v) :
    ((n : Nat) : Int) ∈ IncomingArcs g v := by
  rw [IncomingArcs_eq]
  exact List.mem_map_of_mem _
    (List.mem_filter.2 ⟨List.mem_range.2 hn, by simpa using hh⟩)

theorem IsArcValid_iff {g : FlowGraph} {a : Int} :
    IsArcValid g a = true ↔ -(g.numArcs : Int) ≤ a ∧ a < (g.numArcs : Int) := by
  simp [IsArcValid]

theorem IsArcValid_coe {g : FlowGraph} {n : Nat} (h : n < g.numArcs) :
    IsArcValid g ((n : Int)) = true := by
  rw [IsArcValid_iff]
  constructor
  · have : (0 : Int) ≤ (n : Int) := Int.ofNat_nonneg n
    omega
  · exact_mod_cast h

theorem IsArcValid_Opposite {g : FlowGraph} {a : Int} :
    IsArcValid g (Opposite a) = IsArcValid g a := by
  unfold IsArcValid Opposite
  rw [← Bool.decide_and, ← Bool.decide_and, decide_eq_decide]
  omega

theorem Head_Opposite (g : FlowGraph) (a : Int) :
    Head g (Opposite a) = Tail g a := by
  unfold Head Tail Opposite
  by_cases h : 0 ≤ a
  · rw [if_neg (by omega), if_pos h]
    norm_num
  · rw [if_pos (by omega), if_neg h]

theorem Tail_Opposite (g : FlowGraph) (a : Int) :
    Tail g (Opposite a) = Head g a := by
  unfold Head Tail Opposite
  by_cases h : 0 ≤ a
  · rw [if_neg (by omega), if_pos h]
    norm_num
  · rw [if_pos (by omega), if_neg h]

theorem Head_lt {g : FlowGraph} {a : Int} (h : IsArcValid g a = true) :
    Head g a < g.numNodes := by
  rw [IsArcValid_iff] at h
  unfold Head Opposite
  by_cases h0 : 0 ≤ a
  · rw [if_pos h0]
    exact g.heads_lt _ (by omega)
  · rw [if_neg h0]
    exact g.tails_lt _ (by omega)

theorem Tail_lt {g : FlowGraph} {a : Int} (h : IsArcValid g a = true) :
    Tail g a < g.numNodes := by
  rw [IsArcValid_iff] at h
  unfold Tail Opposite
  by_cases h0 : 0 ≤ a
  · rw [if_pos h0]
    exact g.tails_lt _ (by omega)
  · rw [if_neg h0]
    exact g.heads_lt _ (by omega)

theorem Head_coe {g : FlowGraph} {n : Nat} :
    Head g ((n : Int)) = g.heads n := by
  unfold Head
  rw [if_pos (Int.ofNat_nonneg n)]
  norm_num

theorem Tail_coe {g : FlowGraph} {n : Nat} :
    Tail g ((n : Int)) = g.tails n := by
  unfold Tail
  rw [if_pos (Int.ofNat_nonneg n)]
  norm_num

theorem mem_IncidentArcs_facts {g : FlowGraph} {v : Nat} {a : Int}
    (h : a ∈ IncidentArcs g v) :
    IsArcValid g a = true ∧ Tail g a = v := by
  unfold IncidentArcs at h
  rcases List.mem_append.1 h with h | h
  · rcases mem_OutgoingArcs h with ⟨n, rfl, hn, ht⟩
    exact ⟨IsArcValid_coe hn, by rw [Tail_coe]; exact ht⟩
  · rcases List.mem_map.1 h with ⟨b, hb, rfl⟩
    rcases mem_IncomingArcs hb with ⟨n, rfl, hn, hh⟩
    refine ⟨by rw [IsArcValid_Opposite]; exact IsArcValid_coe hn, ?_⟩
    rw [Tail_Opposite, Head_coe]
    exact hh

theorem mem_IncidentArcsFrom {g : FlowGraph} {v : Nat} {hint : Option Int}
    {a : Int} (h : a ∈ IncidentArcsFrom g v hint) : a ∈ IncidentArcs g v := by
  cases hint with
  | none => exact h
  | some b => exact (List.dropWhile_sublist _).subset h

/-! ### Derived excess -/

/-- The flow-derived excess of a node: total flow in minus total flow out,
reading the flow on each forward arc `a` as `res_cap[opp(a)]`. -/
def Excess (g : FlowGraph) (st : MFState) (v : Nat) : Int :=
  ∑ a ∈ Finset.range g.numArcs,
    ((if g.heads a = v then st.residual_arc_capacity (Opposite ((a : Int))) else 0) -
     (if g.tails a = v then st.residual_arc_capacity (Opposite ((a : Int))) else 0))

theorem Excess_of_ge {g : FlowGraph} {st : MFState} {v : Nat}
    (hv : g.numNodes ≤ v) : Excess g st v = 0 := by
  unfold Excess
  refine Finset.sum_eq_zero ?_
  intro a ha
  have h1 : g.heads a ≠ v := by
    have := g.heads_lt a (Finset.mem_range.1 ha); omega
  have h2 : g.tails a ≠ v := by
    have := g.tails_lt a (Finset.mem_range.1 ha); omega
  rw [if_neg h1, if_neg h2]
  ring

theorem sum_range_update (N : Nat) (F G : Nat → Int) (n : Nat) (hn : n < N)
    (hsame : ∀ a, a < N → a ≠ n → F a = G a) :
    ∑ a ∈ Finset.range N, F a = (∑ a ∈ Finset.range N, G a) + (F n - G n) := by
  have hmem : n ∈ Finset.range N := Finset.mem_range.2 hn
  rw [← Finset.sum_erase_add _ F hmem, ← Finset.sum_erase_add _ G hmem,
    Finset.sum_congr rfl
      (fun a ha => hsame a (Finset.mem_range.1 (Finset.mem_of_mem_erase ha))
        (Finset.ne_of_mem_erase ha))]
  ring

theorem IsArcDirect_coe {g : FlowGraph} {n : Nat} (hn : n < g.numArcs) :
    IsArcDirect g ((n : Int)) = true := by
  unfold IsArcDirect
  rw [IsArcValid_coe hn]
  simp

theorem Flow_coe {g : FlowGraph} {st : MFState} {n : Nat}
    (hn : n < g.numArcs) :
    Flow g st ((n : Int)) =
      st.residual_arc_capacity (Opposite ((n : Int))) := by
  unfold Flow
  rw [IsArcDirect_coe hn]
  simp

theorem PushFlow_Excess (g : FlowGraph) (st : MFState) (f : Int) (tail : Nat)
    (arc : Int) (hv : IsArcValid g arc = true) (v : Nat) :
    Excess g (PushFlow g st f tail arc) v =
      Excess g st v + ((if v = Head g arc then f else 0) -
        (if v = Tail g arc then f else 0)) := by
  rw [IsArcValid_iff] at hv
  by_cases h0 : 0 ≤ arc
  · -- direct arc: only the summand at `arc.toNat` changes, by `+ f`.
    have han : ((arc.toNat : Nat) : Int) = arc := Int.toNat_of_nonneg h0
    have hn : arc.toNat < g.numArcs := by omega
    unfold Excess
    have key := sum_range_update g.numArcs
      (fun a =>
        (if g.heads a = v then
          (PushFlow g st f tail arc).residual_arc_capacity
            (Opposite ((a : Int)))
        else 0) -
        (if g.tails a = v then
          (PushFlow g st f tail arc).residual_arc_capacity
            (Opposite ((a : Int)))
        else 0))
      (fun a =>
        (if g.heads a = v then st.residual_arc_capacity (Opposite ((a : Int)))
        else 0) -
        (if g.tails a = v then st.residual_arc_capacity (Opposite ((a : Int)))
        else 0))
      arc.toNat hn (by
        intro a ha hne
        have h1 : Opposite ((a : Int)) ≠ Opposite arc := fun hc =>
          hne (by have := Opposite_inj hc; omega)
        have h2 : Opposite ((a : Int)) ≠ arc := by unfold Opposite; omega
        simp only
        rw [PushFlow_resCap, if_neg h1, if_neg h2])
    rw [key]
    have hH : Head g arc = g.heads arc.toNat := by
      conv_lhs => rw [← han]
      exact Head_coe
    have hT : Tail g arc = g.tails arc.toNat := by
      conv_lhs => rw [← han]
      exact Tail_coe
    have hopp : Opposite (((arc.toNat : Nat) : Int)) = Opposite arc := by
      rw [han]
    simp only
    rw [PushFlow_resCap, if_pos hopp, hH, hT, han]
    split_ifs <;> omega
  · -- reverse arc: only the summand at `(Opposite arc).toNat` changes,
    -- by `- f`, and head and tail swap.
    have han : (((Opposite arc).toNat : Nat) : Int) = Opposite arc := by
      refine Int.toNat_of_nonneg ?_
      unfold Opposite; omega
    have hn : (Opposite arc).toNat < g.numArcs := by unfold Opposite; omega
    unfold Excess
    have key := sum_range_update g.numArcs
      (fun a =>
        (if g.heads a = v then
          (PushFlow g st f tail arc).residual_arc_capacity
            (Opposite ((a : Int)))
        else 0) -
        (if g.tails a = v then
          (PushFlow g st f tail arc).residual_arc_capacity
            (Opposite ((a : Int)))
        else 0))
      (fun a =>
        (if g.heads a = v then st.residual_arc_capacity (Opposite ((a : Int)))
        else 0) -
        (if g.tails a = v then st.residual_arc_capacity (Opposite ((a : Int)))
        else 0))
      (Opposite arc).toNat hn (by
        intro a ha hne
        have h1 : Opposite ((a : Int)) ≠ Opposite arc := fun hc => by
          apply hne
          have h3 := Opposite_inj hc
          omega
        have h2 : Opposite ((a : Int)) ≠ arc := fun hc => by
          apply hne
          have h3 : ((a : Int)) = Opposite arc := by
            rw [← hc, Opposite_Opposite]
          omega
        simp only
        rw [PushFlow_resCap, if_neg h1, if_neg h2])
    rw [key]
    have hH : Head g arc = g.tails (Opposite arc).toNat := by
      rw [show g.tails (Opposite arc).toNat =
        Tail g (((Opposite arc).toNat : Int)) from (Tail_coe).symm, han,
        Tail_Opposite]
    have hT : Tail g arc = g.heads (Opposite arc).toNat := by
      rw [show g.heads (Opposite arc).toNat =
        Head g (((Opposite arc).toNat : Int)) from (Head_coe).symm, han,
        Head_Opposite]
    have hopp : Opposite ((((Opposite arc).toNat : Nat) : Int)) = arc := by
      rw [han, Opposite_Opposite]
    have hopp' : Opposite ((((Opposite arc).toNat : Nat) : Int)) ≠
        Opposite arc := by
      rw [hopp]; exact ne_Opposite arc
    simp only
    rw [PushFlow_resCap, if_neg hopp', if_pos hopp, hH, hT, han,
      Opposite_Opposite]
    split_ifs <;> omega

theorem sum_Excess (g : FlowGraph) (st : MFState) :
    ∑ v ∈ Finset.range g.nodeReservation, Excess g st v = 0 := by
  unfold Excess
  rw [Finset.sum_comm]
  refine Finset.sum_eq_zero ?_
  intro a ha
  have hh : g.heads a ∈ Finset.range g.nodeReservation := by
    have h1 := g.heads_lt a (Finset.mem_range.1 ha)
    have h2 := g.reservation_ok
    exact Finset.mem_range.2 (by omega)
  have ht : g.tails a ∈ Finset.range g.nodeReservation := by
    have h1 := g.tails_lt a (Finset.mem_range.1 ha)
    have h2 := g.reservation_ok
    exact Finset.mem_range.2 (by omega)
  rw [Finset.sum_sub_distrib, Finset.sum_ite_eq _ (g.heads a),
    Finset.sum_ite_eq _ (g.tails a), if_pos hh, if_pos ht]
  ring

theorem PushFlow_derived {g : FlowGraph} {st : MFState} {f : Int}
    {tail : Nat} {arc : Int} (hv : IsArcValid g arc = true)
    (ht : Tail g arc = tail) (v : Nat)
    (hder : st.node_excess v = Excess g st v) :
    (PushFlow g st f tail arc).node_excess v =
      Excess g (PushFlow g st f tail arc) v := by
  rw [PushFlow_excess, PushFlow_Excess g st f tail arc hv v, ← hder, ← ht]
  ring

/-! ### The state invariant carried through `Solve()` -/

/-- The state invariant maintained by every phase of the algorithm between
whole-operation boundaries: residual capacities are nonnegative, the stored
excesses agree with the flow-derived ones, every node but the source has
nonnegative excess, at most `kMaxFlowQuantity` has left the source, the
source keeps height `num_nodes`, and no flow ever appears on an arc leaving
the sink or on a self-loop at the source. -/
structure Inv (g : FlowGraph) (source sink : Nat) (st : MFState) : Prop where
  res_nonneg : ∀ a : Int, IsArcValid g a = true →
    0 ≤ st.residual_arc_capacity a
  excess_derived : ∀ v : Nat, v < g.nodeReservation →
    st.node_excess v = Excess g st v
  interior_nonneg : ∀ v : Nat, v < g.nodeReservation → v ≠ source →
    0 ≤ st.node_excess v
  source_bound : -kMaxFlowQuantity ≤ st.node_excess source
  pot_source : st.node_potential source = g.numNodes
  sink_tail_zero : ∀ a : Nat, a < g.numArcs → g.tails a = sink →
    st.residual_arc_capacity (Opposite ((a : Int))) = 0
  source_self_zero : ∀ a : Nat, a < g.numArcs → g.tails a = source →
    g.heads a = source →
    st.residual_arc_capacity (Opposite ((a : Int))) = 0

theorem Excess_congr {g : FlowGraph} {st st' : MFState}
    (h : st'.residual_arc_capacity = st.residual_arc_capacity) (v : Nat) :
    Excess g st' v = Excess g st v := by
  unfold Excess
  rw [h]

theorem Inv_congr {g : FlowGraph} {source sink : Nat} {st st' : MFState}
    (hI : Inv g source sink st)
    (hres : st'.residual_arc_capacity = st.residual_arc_capacity)
    (hexc : st'.node_excess = st.node_excess)
    (hpot : st'.node_potential source = st.node_potential source) :
    Inv g source sink st' where
  res_nonneg a ha := by rw [hres]; exact hI.res_nonneg a ha
  excess_derived v hv := by
    rw [hexc, Excess_congr hres]
    exact hI.excess_derived v hv
  interior_nonneg v hv hvs := by rw [hexc]; exact hI.interior_nonneg v hv hvs
  source_bound := by rw [hexc]; exact hI.source_bound
  pot_source := by rw [hpot]; exact hI.pot_source
  sink_tail_zero a ha hta := by rw [hres]; exact hI.sink_tail_zero a ha hta
  source_self_zero a ha hta hha := by
    rw [hres]; exact hI.source_self_zero a ha hta hha

/-- Preservation of the invariant by a forward push of a nonnegative amount
bounded by the residual capacity, from the true tail of the arc, as
performed by `SaturateOutgoingArcsFromSource`, `Discharge`,
`GlobalUpdate`'s excess stealing, and the excess-return phase. -/
theorem Inv_PushFlow {g : FlowGraph} {source sink : Nat} {st : MFState}
    {f : Int} {tail : Nat} {arc : Int}
    (hI : Inv g source sink st)
    (hv : IsArcValid g arc = true)
    (ht : Tail g arc = tail)
    (hf0 : 0 ≤ f) (hfr : f ≤ st.residual_arc_capacity arc)
    (hts : tail ≠ sink)
    (hss : tail = source → Head g arc ≠ source ∨ f = 0)
    (hexc : f ≤ st.node_excess tail ∨ tail = source)
    (hsb : tail = source → -kMaxFlowQuantity ≤ st.node_excess source - f) :
    Inv g source sink (PushFlow g st f tail arc) where
  res_nonneg b hb := by
    rw [PushFlow_resCap]
    have h1 := hI.res_nonneg b hb
    have h2 := hI.res_nonneg (Opposite arc)
      (by rw [IsArcValid_Opposite]; exact hv)
    have h3 := hI.res_nonneg arc hv
    split_ifs <;> omega
  excess_derived v hv' := PushFlow_derived hv ht v (hI.excess_derived v hv')
  interior_nonneg v hv' hvs := by
    rw [PushFlow_excess]
    have h1 := hI.interior_nonneg v hv' hvs
    split_ifs with h2 h3
    · omega
    · rcases hexc with h | h
      · subst h2; omega
      · exact absurd (h2.trans h) hvs
    · omega
    · omega
  source_bound := by
    rw [PushFlow_excess]
    have h1 := hI.source_bound
    split_ifs with h2 h3
    · omega
    · have := hsb h2.symm
      subst h2; omega
    · omega
    · omega
  pot_source := by rw [PushFlow_potential]; exact hI.pot_source
  sink_tail_zero a ha hta := by
    rw [PushFlow_resCap]
    split_ifs with h1 h2
    · exfalso
      have harc : arc = ((a : Int)) := (Opposite_inj h1).symm
      apply hts
      rw [← ht, harc, Tail_coe, hta]
    · have h3 : st.residual_arc_capacity arc = 0 := by
        rw [← h2]; exact hI.sink_tail_zero a ha hta
      omega
    · exact hI.sink_tail_zero a ha hta
  source_self_zero a ha hta hha := by
    rw [PushFlow_resCap]
    split_ifs with h1 h2
    · have harc : arc = ((a : Int)) := (Opposite_inj h1).symm
      have htt : tail = source := by rw [← ht, harc, Tail_coe, hta]
      have hhh : Head g arc = source := by rw [harc, Head_coe, hha]
      rcases hss htt with h | h
      · exact absurd hhh h
      · subst h
        have h4 := hI.source_self_zero a ha hta hha
        rw [h1] at h4
        omega
    · have h3 : st.residual_arc_capacity arc = 0 := by
        rw [← h2]; exact hI.source_self_zero a ha hta hha
      omega
    · exact hI.source_self_zero a ha hta hha

/-! ### Properties of the cycle-cancellation block -/

theorem Flow_direct {g : FlowGraph} {st : MFState} {e : Int}
    (h : IsArcDirect g e = true) :
    Flow g st e = st.residual_arc_capacity (Opposite e) := by
  unfold Flow
  rw [h]
  simp

theorem IsArcDirect_nonneg {g : FlowGraph} {e : Int}
    (h : IsArcDirect g e = true) : 0 ≤ e ∧ IsArcValid g e = true := by
  unfold IsArcDirect at h
  rw [Bool.and_eq_true] at h
  rcases h with ⟨h1, h2⟩
  exact ⟨by simpa using h2, h1⟩

theorem foldMin_le (F : Nat → Int) : ∀ (l : List Nat) (p : Int × Nat),
    ((l.foldl (fun q i => if F i ≤ q.1 then (F i, i) else q) p).1 ≤ p.1 ∧
      ∀ i ∈ l, (l.foldl (fun q i => if F i ≤ q.1 then (F i, i) else q) p).1 ≤
        F i) := by
  intro l
  induction l with
  | nil => intro p; exact ⟨le_refl _, by intro i hi; cases hi⟩
  | cons j rest ih =>
    intro p
    rw [List.foldl_cons]
    rcases ih (if F j ≤ p.1 then (F j, j) else p) with ⟨ih1, ih2⟩
    constructor
    · refine le_trans ih1 ?_
      split_ifs with h
      · exact h
      · exact le_refl _
    · intro i hi
      rcases List.mem_cons.1 hi with rfl | hi
      · refine le_trans ih1 ?_
        split_ifs with h
        · exact le_refl _
        · omega
      · exact ih2 i hi

theorem foldMin_cases (F : Nat → Int) : ∀ (l : List Nat) (p : Int × Nat),
    (l.foldl (fun q i => if F i ≤ q.1 then (F i, i) else q) p) = p ∨
      ∃ i ∈ l, (l.foldl (fun q i => if F i ≤ q.1 then (F i, i) else q) p) =
        (F i, i) := by
  intro l
  induction l with
  | nil => intro p; exact Or.inl rfl
  | cons j rest ih =>
    intro p
    rw [List.foldl_cons]
    rcases ih (if F j ≤ p.1 then (F j, j) else p) with h | ⟨i, hi, h⟩
    · rw [h]
      split_ifs with hj
      · exact Or.inr ⟨j, List.mem_cons_self j rest, rfl⟩
      · exact Or.inl rfl
    · exact Or.inr ⟨i, List.mem_cons_of_mem j hi, h⟩

/-- The state component of the branch-arc cancellation fold. -/
def PushNegFold (g : FlowGraph) (bA : Nat → Int) (m : Int) (l : List Nat)
    (s : MFState) : MFState :=
  l.foldl (fun s i => PushFlow g s (-m) (Tail g (bA i)) (bA i)) s

theorem PushNegFold_nil (g : FlowGraph) (bA : Nat → Int) (m : Int)
    (s : MFState) : PushNegFold g bA m [] s = s := rfl

theorem PushNegFold_cons (g : FlowGraph) (bA : Nat → Int) (m : Int)
    (j : Nat) (rest : List Nat) (s : MFState) :
    PushNegFold g bA m (j :: rest) s =
      PushNegFold g bA m rest
        (PushFlow g s (-m) (Tail g (bA j)) (bA j)) := rfl

theorem pushNegFold_st (g : FlowGraph) (bA : Nat → Int) (m : Int)
    (fsi : Nat) : ∀ (l : List Nat) (p : MFState × (Nat → Bool)),
    (l.foldl (fun (p : MFState × (Nat → Bool)) i =>
      let arc_on_cycle := bA i
      let st := PushFlow g p.1 (-m) (Tail g arc_on_cycle) arc_on_cycle
      let visited :=
        if i ≥ fsi then Function.update p.2 (Head g arc_on_cycle) false
        else p.2
      (st, visited)) p).1 = PushNegFold g bA m l p.1 := by
  intro l
  induction l with
  | nil => intro p; rfl
  | cons j rest ih =>
    intro p
    rw [List.foldl_cons, PushNegFold_cons, ih]

theorem pushNegFold_visited (g : FlowGraph) (bA : Nat → Int) (m : Int)
    (fsi : Nat) : ∀ (l : List Nat) (p : MFState × (Nat → Bool)) (v : Nat),
    ((l.foldl (fun (p : MFState × (Nat → Bool)) i =>
      let arc_on_cycle := bA i
      let st := PushFlow g p.1 (-m) (Tail g arc_on_cycle) arc_on_cycle
      let visited :=
        if i ≥ fsi then Function.update p.2 (Head g arc_on_cycle) false
        else p.2
      (st, visited)) p).2 v = false ↔
      (p.2 v = false ∨ ∃ i ∈ l, fsi ≤ i ∧ Head g (bA i) = v)) := by
  intro l
  induction l with
  | nil =>
    intro p v
    simp
  | cons j rest ih =>
    intro p v
    rw [List.foldl_cons, ih]
    simp only
    constructor
    · rintro (h | ⟨i, hi, hf, hh⟩)
      · split_ifs at h with hj
        · by_cases hv : v = Head g (bA j)
          · exact Or.inr ⟨j, List.mem_cons_self j rest, hj, hv.symm⟩
          · rw [Function.update_noteq hv] at h
            exact Or.inl h
        · exact Or.inl h
      · exact Or.inr ⟨i, List.mem_cons_of_mem j hi, hf, hh⟩
    · rintro (h | ⟨i, hi, hf, hh⟩)
      · refine Or.inl ?_
        split_ifs with hj
        · by_cases hv : v = Head g (bA j)
          · rw [hv, Function.update_same]
          · rw [Function.update_noteq hv]
            exact h
        · exact h
      · rcases List.mem_cons.1 hi with rfl | hi
        · refine Or.inl ?_
          split_ifs with hj
          · rw [← hh, Function.update_same]
          · omega
        · exact Or.inr ⟨i, hi, hf, hh⟩

theorem pushNegFold_visited_frame (g : FlowGraph) (bA : Nat → Int) (m : Int)
    (fsi : Nat) (l : List Nat) (p : MFState × (Nat → Bool)) (v : Nat)
    (hno : ∀ i ∈ l, fsi ≤ i → Head g (bA i) ≠ v) :
    (l.foldl (fun (p : MFState × (Nat → Bool)) i =>
      let arc_on_cycle := bA i
      let st := PushFlow g p.1 (-m) (Tail g arc_on_cycle) arc_on_cycle
      let visited :=
        if i ≥ fsi then Function.update p.2 (Head g arc_on_cycle) false
        else p.2
      (st, visited)) p).2 v = p.2 v := by
  have h := pushNegFold_visited g bA m fsi l p v
  have hiff : (l.foldl (fun (p : MFState × (Nat → Bool)) i =>
      let arc_on_cycle := bA i
      let st := PushFlow g p.1 (-m) (Tail g arc_on_cycle) arc_on_cycle
      let visited :=
        if i ≥ fsi then Function.update p.2 (Head g arc_on_cycle) false
        else p.2
      (st, visited)) p).2 v = false ↔ p.2 v = false := by
    rw [h]
    constructor
    · rintro (h2 | ⟨i, hi, hf, hh⟩)
      · exact h2
      · exact absurd hh (hno i hi hf)
    · exact Or.inl
  rcases Bool.eq_false_or_eq_true (p.2 v) with h2 | h2
  · rw [h2]
    rcases Bool.eq_false_or_eq_true ((l.foldl (fun
        (p : MFState × (Nat → Bool)) i =>
      let arc_on_cycle := bA i
      let st := PushFlow g p.1 (-m) (Tail g arc_on_cycle) arc_on_cycle
      let visited :=
        if i ≥ fsi then Function.update p.2 (Head g arc_on_cycle) false
        else p.2
      (st, visited)) p).2 v) with h3 | h3
    · exact h3
    · rw [hiff.1 h3] at h2
      exact Bool.noConfusion h2
  · rw [h2, hiff.2 h2]


theorem pushFold_pot (g : FlowGraph) (bA : Nat → Int) (m : Int) :
    ∀ (l : List Nat) (s : MFState),
    (PushNegFold g bA m l s).node_potential = s.node_potential := by
  intro l
  induction l with
  | nil => intro s; rfl
  | cons j rest ih =>
    intro s
    rw [PushNegFold_cons, ih]
    rfl

theorem pushFold_queue (g : FlowGraph) (bA : Nat → Int) (m : Int) :
    ∀ (l : List Nat) (s : MFState),
    (PushNegFold g bA m l s).active_node_by_height =
      s.active_node_by_height := by
  intro l
  induction l with
  | nil => intro s; rfl
  | cons j rest ih =>
    intro s
    rw [PushNegFold_cons, ih]
    rfl

theorem pushFold_firstAdm (g : FlowGraph) (bA : Nat → Int) (m : Int) :
    ∀ (l : List Nat) (s : MFState),
    (PushNegFold g bA m l s).first_admissible_arc =
      s.first_admissible_arc := by
  intro l
  induction l with
  | nil => intro s; rfl
  | cons j rest ih =>
    intro s
    rw [PushNegFold_cons, ih]
    rfl

theorem pushNegFold_res (g : FlowGraph) (bA : Nat → Int) (m : Int) :
    ∀ (l : List Nat) (s : MFState) (b : Int),
    (∀ i ∈ l, 0 ≤ bA i) → (l.map bA).Nodup →
    (PushNegFold g bA m l s).residual_arc_capacity b =
      if b ∈ l.map bA then s.residual_arc_capacity b + m
      else if Opposite b ∈ l.map bA then s.residual_arc_capacity b - m
      else s.residual_arc_capacity b := by
  intro l
  induction l with
  | nil =>
    intro s b _ _
    rw [PushNegFold_nil]
    simp
  | cons j rest ih =>
    intro s b hdir hnd
    rw [List.map_cons] at hnd
    have hjrest : bA j ∉ rest.map bA := (List.nodup_cons.1 hnd).1
    have hnd' : (rest.map bA).Nodup := (List.nodup_cons.1 hnd).2
    have hdir' : ∀ i ∈ rest, 0 ≤ bA i :=
      fun i hi => hdir i (List.mem_cons_of_mem j hi)
    have hdirj : 0 ≤ bA j := hdir j (List.mem_cons_self j rest)
    rw [PushNegFold_cons, ih _ _ hdir' hnd', List.map_cons]
    by_cases hb1 : b = bA j
    · subst hb1
      rw [if_neg (by simpa using hjrest), if_pos (List.mem_cons_self _ _)]
      have hob : Opposite (bA j) ∉ rest.map bA := by
        intro hc
        rcases List.mem_map.1 hc with ⟨i, hi, he⟩
        have := hdir' i hi
        unfold Opposite at he
        omega
      rw [if_neg hob, PushFlow_resCap,
        if_neg (Ne.symm (Opposite_ne (bA j))), if_pos rfl]
      ring
    · by_cases hb2 : Opposite b = bA j
      · have hbneg : b = Opposite (bA j) := by
          rw [← hb2, Opposite_Opposite]
        have hb3 : b ∉ (bA j :: rest.map bA) := by
          intro hc
          rcases List.mem_cons.1 hc with hc | hc
          · exact hb1 hc
          · rcases List.mem_map.1 hc with ⟨i, hi, he⟩
            have := hdir' i hi
            have : (0 : Int) ≤ b := by omega
            unfold Opposite at hbneg
            omega
        have hob : Opposite b ∈ (bA j :: rest.map bA) :=
          List.mem_cons.2 (Or.inl hb2)
        rw [if_neg hb3, if_pos hob]
        have hbrest : b ∉ rest.map bA := fun hc => hb3 (List.mem_cons_of_mem _ hc)
        have hobrest : Opposite b ∉ rest.map bA := by
          rw [hb2]; exact hjrest
        rw [if_neg hbrest, if_neg hobrest, PushFlow_resCap, hbneg,
          if_pos rfl]
        ring
      · have hstep : MFState.residual_arc_capacity
            (PushFlow g s (-m) (Tail g (bA j)) (bA j)) b =
            s.residual_arc_capacity b := by
          rw [PushFlow_resCap, if_neg ?_, if_neg hb1]
          intro hc
          exact hb2 (by rw [hc, Opposite_Opposite])
        rw [hstep]
        have hc1 : (b ∈ bA j :: rest.map bA) = (b ∈ rest.map bA) :=
          propext ⟨fun hc => (List.mem_cons.1 hc).resolve_left hb1,
            fun hc => List.mem_cons_of_mem _ hc⟩
        have hc2 : (Opposite b ∈ bA j :: rest.map bA) =
            (Opposite b ∈ rest.map bA) :=
          propext ⟨fun hc => (List.mem_cons.1 hc).resolve_left hb2,
            fun hc => List.mem_cons_of_mem _ hc⟩
        simp only [hc1, hc2]

theorem pushNegFold_derived (g : FlowGraph) (bA : Nat → Int) (m : Int) :
    ∀ (l : List Nat) (s : MFState),
    (∀ i ∈ l, IsArcValid g (bA i) = true) →
    (∀ v : Nat, v < g.nodeReservation → s.node_excess v = Excess g s v) →
    ∀ v : Nat, v < g.nodeReservation →
    (PushNegFold g bA m l s).node_excess v =
      Excess g (PushNegFold g bA m l s) v := by
  intro l
  induction l with
  | nil => intro s _ hder v hv; exact hder v hv
  | cons j rest ih =>
    intro s hval hder v hv
    rw [PushNegFold_cons]
    refine ih _ (fun i hi => hval i (List.mem_cons_of_mem j hi)) ?_ v hv
    intro w hw
    exact PushFlow_derived (hval j (List.mem_cons_self j rest)) rfl w
      (hder w hw)

theorem mem_drop_range {n m i : Nat} :
    i ∈ (List.range n).drop m ↔ m ≤ i ∧ i < n := by
  constructor
  · intro h
    rcases List.getElem_of_mem h with ⟨k, hk, hget⟩
    rw [List.getElem_drop] at hget
    have hlt : m + k < n := by
      have h2 := hk
      simp [List.length_drop, List.length_range] at h2
      omega
    rw [List.getElem_range] at hget
    omega
  · rintro ⟨h1, h2⟩
    have hk : i - m < ((List.range n).drop m).length := by
      simp [List.length_drop, List.length_range]
      omega
    have hget : getElem ((List.range n).drop m) (i - m) hk = i := by
      rw [List.getElem_drop, List.getElem_range]
      omega
    rw [← hget]
    exact List.getElem_mem hk

theorem PushNegFold_excess (g : FlowGraph) (bA : Nat → Int) (m : Int) :
    ∀ (l : List Nat) (s : MFState) (v : Nat),
    (PushNegFold g bA m l s).node_excess v =
      s.node_excess v + ((l.map bA).map (fun a =>
        ((if v = Tail g a then m else 0) -
          (if v = Head g a then m else 0)))).sum := by
  intro l
  induction l with
  | nil => intro s v; simp [PushNegFold_nil]
  | cons j rest ih =>
    intro s v
    rw [PushNegFold_cons, ih, List.map_cons, List.map_cons, List.sum_cons,
      PushFlow_excess]
    by_cases h1 : v = Tail g (bA j) <;> by_cases h2 : v = Head g (bA j)
    · rw [if_pos h1, if_pos h2, if_pos h1, if_pos h2]
      ring
    · rw [if_pos h1, if_neg h2, if_pos h1, if_neg h2]
      ring
    · rw [if_neg h1, if_pos h2, if_neg h1, if_pos h2]
      ring
    · rw [if_neg h1, if_neg h2, if_neg h1, if_neg h2]
      ring

theorem CancelCycle_st (g : FlowGraph) (node : Nat) (arc flow : Int)
    (head : Nat) (d : DfsState) (cb : Nat) (m : Int) (fsi : Nat)
    (hcb : cb = FindCycleBegin g d.arc_stack d.index_branch head
      d.index_branch.length)
    (hmf : (m, fsi) = FindMaxFlowAndFirstSaturated g d.st d.arc_stack
      d.index_branch cb flow) :
    (CancelCycle g node arc flow head d).1.st =
      PushNegFold g
        (fun i => d.arc_stack.getD (d.index_branch.getD i 0) 0) m
        (((List.range d.index_branch.length).drop cb).reverse)
        (PushFlow g d.st (-m) node arc) := by
  have hmfsi := hmf.symm
  simp only [CancelCycle, ← hcb, hmfsi]
  split_ifs <;>
    exact pushNegFold_st g
      (fun i => d.arc_stack.getD (d.index_branch.getD i 0) 0) m fsi _ _

theorem CancelCycle_visited_iff (g : FlowGraph) (node : Nat)
    (arc flow : Int) (head : Nat) (d : DfsState) (cb : Nat) (m : Int)
    (fsi : Nat)
    (hcb : cb = FindCycleBegin g d.arc_stack d.index_branch head
      d.index_branch.length)
    (hmf : (m, fsi) = FindMaxFlowAndFirstSaturated g d.st d.arc_stack
      d.index_branch cb flow) (v : Nat) :
    ((CancelCycle g node arc flow head d).1.visited v = false ↔
      (d.visited v = false ∨ ∃ i, (cb ≤ i ∧ i < d.index_branch.length) ∧
        fsi ≤ i ∧
        Head g (d.arc_stack.getD (d.index_branch.getD i 0) 0) = v)) := by
  have hmfsi := hmf.symm
  have hmem : ∀ i : Nat,
      (i ∈ ((List.range d.index_branch.length).drop cb).reverse) =
        (cb ≤ i ∧ i < d.index_branch.length) := by
    intro i
    rw [List.mem_reverse]
    exact propext mem_drop_range
  simp only [CancelCycle, ← hcb, hmfsi]
  split_ifs <;>
    (rw [pushNegFold_visited g
      (fun i => d.arc_stack.getD (d.index_branch.getD i 0) 0) m fsi _ _ v]
     simp only [hmem])

theorem CancelCycle_shape (g : FlowGraph) (node : Nat) (arc flow : Int)
    (head : Nat) (d : DfsState) (cb : Nat) (m : Int) (fsi : Nat)
    (hcb : cb = FindCycleBegin g d.arc_stack d.index_branch head
      d.index_branch.length)
    (hmf : (m, fsi) = FindMaxFlowAndFirstSaturated g d.st d.arc_stack
      d.index_branch cb flow) :
    (fsi < d.index_branch.length ∧
      (CancelCycle g node arc flow head d).2 = true ∧
      (CancelCycle g node arc flow head d).1.arc_stack =
        d.arc_stack.take (d.index_branch.getD fsi 0) ∧
      (CancelCycle g node arc flow head d).1.index_branch =
        d.index_branch.take fsi) ∨
    (d.index_branch.length ≤ fsi ∧
      (CancelCycle g node arc flow head d).2 = false ∧
      (CancelCycle g node arc flow head d).1.arc_stack = d.arc_stack ∧
      (CancelCycle g node arc flow head d).1.index_branch =
        d.index_branch) := by
  have hmfsi := hmf.symm
  simp only [CancelCycle, ← hcb, hmfsi]
  split_ifs with hlt
  · exact Or.inl ⟨hlt, rfl, rfl, rfl⟩
  · exact Or.inr ⟨by omega, rfl, rfl, rfl⟩

theorem CancelCycle_frame (g : FlowGraph) (node : Nat) (arc flow : Int)
    (head : Nat) (d : DfsState) :
    (CancelCycle g node arc flow head d).1.stored = d.stored ∧
    (CancelCycle g node arc flow head d).1.reverse_topological_order =
      d.reverse_topological_order := by
  simp only [CancelCycle]
  split_ifs <;> exact ⟨rfl, rfl⟩

theorem FMF_props (g : FlowGraph) (st : MFState) (stack : List Int)
    (ib : List Nat) (cb : Nat) (flow : Int) (m : Int) (fsi : Nat)
    (hmf : (m, fsi) = FindMaxFlowAndFirstSaturated g st stack ib cb flow) :
    m ≤ flow ∧
    (∀ i, cb ≤ i → i < ib.length →
      m ≤ Flow g st (stack.getD (ib.getD i 0) 0)) ∧
    (fsi < ib.length →
      (cb ≤ fsi ∧ m = Flow g st (stack.getD (ib.getD fsi 0) 0))) ∧
    (¬ fsi < ib.length → m = flow ∧ fsi = ib.length) := by
  have hfold : (m, fsi) =
      ((List.range ib.length).drop cb).reverse.foldl
        (fun q i =>
          if Flow g st (stack.getD (ib.getD i 0) 0) ≤ q.1 then
            (Flow g st (stack.getD (ib.getD i 0) 0), i)
          else q) (flow, ib.length) := hmf
  have hle := foldMin_le (fun i => Flow g st (stack.getD (ib.getD i 0) 0))
    (((List.range ib.length).drop cb).reverse) (flow, ib.length)
  have hcase := foldMin_cases
    (fun i => Flow g st (stack.getD (ib.getD i 0) 0))
    (((List.range ib.length).drop cb).reverse) (flow, ib.length)
  rw [← hfold] at hle hcase
  refine ⟨hle.1, ?_, ?_, ?_⟩
  · intro i h1 h2
    exact hle.2 i (List.mem_reverse.2 (mem_drop_range.2 ⟨h1, h2⟩))
  · intro hlt
    rcases hcase with h | ⟨i, hi, h⟩
    · rw [Prod.mk.injEq] at h
      omega
    · rw [Prod.mk.injEq] at h
      rcases h with ⟨hm, hf⟩
      rcases mem_drop_range.1 (List.mem_reverse.1 hi) with ⟨h1, h2⟩
      subst hf
      exact ⟨h1, hm⟩
  · intro hge
    rcases hcase with h | ⟨i, hi, h⟩
    · rw [Prod.mk.injEq] at h
      exact ⟨h.1, h.2⟩
    · rw [Prod.mk.injEq] at h
      rcases mem_drop_range.1 (List.mem_reverse.1 hi) with ⟨h1, h2⟩
      omega

theorem CancelCycle_excess_eq (g : FlowGraph) (node : Nat)
    (arc flow : Int) (head : Nat) (d : DfsState) (cb : Nat) (m : Int)
    (fsi : Nat) (L : List Int)
    (hcb : cb = FindCycleBegin g d.arc_stack d.index_branch head
      d.index_branch.length)
    (hmf : (m, fsi) = FindMaxFlowAndFirstSaturated g d.st d.arc_stack
      d.index_branch cb flow)
    (hL : L = ((List.range d.index_branch.length).drop cb).map
      (fun i => d.arc_stack.getD (d.index_branch.getD i 0) 0))
    (hchain : List.Chain' (fun a b => Head g a = Tail g b) L)
    (hclose_nil : L = [] → Head g arc = node)
    (hclose_cons : ∀ hne : L ≠ [], Head g arc = Tail g L.headI ∧
      Head g (L.getLast hne) = node) :
    ∀ v, (CancelCycle g node arc flow head d).1.st.node_excess v =
      d.st.node_excess v := by
  intro v
  rw [CancelCycle_st g node arc flow head d cb m fsi hcb hmf,
    PushNegFold_excess, PushFlow_excess]
  rw [List.map_reverse, ← hL, List.map_reverse, List.sum_reverse]
  rcases hLe : L with _ | ⟨a0, Lrest⟩
  · have hcn := hclose_nil hLe
    rw [List.map_nil, List.sum_nil, hcn]
    by_cases h1 : v = node
    · rw [if_pos h1]
      ring
    · rw [if_neg h1]
      ring
  · rw [← hLe]
    have hne : L ≠ [] := by rw [hLe]; simp
    rw [chain_sum g m v L hne hchain]
    obtain ⟨hc1, hc2⟩ := hclose_cons hne
    rw [← hc1, hc2]
    by_cases h1 : v = node
    · by_cases h2 : v = Head g arc
      · rw [if_pos h1, if_pos h2, if_pos h2, if_pos h1]
        ring
      · rw [if_pos h1, if_neg h2, if_neg h2, if_pos h1]
        ring
    · by_cases h2 : v = Head g arc
      · rw [if_neg h1, if_pos h2, if_pos h2, if_neg h1]
        ring
      · rw [if_neg h1, if_neg h2, if_neg h2, if_neg h1]
        ring

theorem CancelCycle_res (g : FlowGraph) (node : Nat) (arc flow : Int)
    (head : Nat) (d : DfsState) (cb : Nat) (m : Int) (fsi : Nat)
    (L : List Int)
    (hcb : cb = FindCycleBegin g d.arc_stack d.index_branch head
      d.index_branch.length)
    (hmf : (m, fsi) = FindMaxFlowAndFirstSaturated g d.st d.arc_stack
      d.index_branch cb flow)
    (hL : L = ((List.range d.index_branch.length).drop cb).map
      (fun i => d.arc_stack.getD (d.index_branch.getD i 0) 0))
    (harc : IsArcDirect g arc = true)
    (hLdir : ∀ e ∈ L, IsArcDirect g e = true)
    (hnd : (arc :: L).Nodup) :
    ∀ b : Int,
    (CancelCycle g node arc flow head d).1.st.residual_arc_capacity b =
      if b ∈ arc :: L then d.st.residual_arc_capacity b + m
      else if Opposite b ∈ arc :: L then d.st.residual_arc_capacity b - m
      else d.st.residual_arc_capacity b := by
  intro b
  have harcL : arc ∉ L := (List.nodup_cons.1 hnd).1
  have harc0 := (IsArcDirect_nonneg harc).1
  have hLrev : ((List.range d.index_branch.length).drop cb).reverse.map
      (fun i => d.arc_stack.getD (d.index_branch.getD i 0) 0) =
      L.reverse := by
    rw [List.map_reverse, ← hL]
  have hLnn : ∀ i ∈ ((List.range d.index_branch.length).drop cb).reverse,
      0 ≤ d.arc_stack.getD (d.index_branch.getD i 0) 0 := by
    intro i hi
    refine (IsArcDirect_nonneg (hLdir _ ?_)).1
    rw [hL]
    exact List.mem_map_of_mem _ (List.mem_reverse.1 hi)
  have hndrev : (((List.range d.index_branch.length).drop cb).reverse.map
      (fun i => d.arc_stack.getD (d.index_branch.getD i 0) 0)).Nodup := by
    rw [hLrev]
    exact List.nodup_reverse.2 (List.nodup_cons.1 hnd).2
  rw [CancelCycle_st g node arc flow head d cb m fsi hcb hmf,
    pushNegFold_res g _ m _ _ b hLnn hndrev, hLrev]
  simp only [List.mem_reverse]
  by_cases hmem1 : b ∈ L
  · have hb0 : 0 ≤ b := (IsArcDirect_nonneg (hLdir b hmem1)).1
    have hbarc : b ≠ arc := fun hc => harcL (hc ▸ hmem1)
    have hbopp : b ≠ Opposite arc := by unfold Opposite; omega
    rw [if_pos hmem1, if_pos (List.mem_cons_of_mem _ hmem1),
      PushFlow_resCap, if_neg hbopp, if_neg hbarc]
  · by_cases hbarc : b = arc
    · subst hbarc
      have hoppM : Opposite b ∉ L := by
        intro hc
        have := (IsArcDirect_nonneg (hLdir _ hc)).1
        unfold Opposite at this
        omega
      rw [if_neg hmem1, if_neg hoppM, if_pos (List.mem_cons_self _ _),
        PushFlow_resCap, if_neg (ne_Opposite b), if_pos rfl]
      ring
    · by_cases hbopp : b = Opposite arc
      · subst hbopp
        have h1 : Opposite arc ∉ L := hmem1
        have h2 : Opposite (Opposite arc) ∈ arc :: L := by
          rw [Opposite_Opposite]
          exact List.mem_cons_self _ _
        have h3 : Opposite (Opposite arc) ∉ L := by
          rw [Opposite_Opposite]
          exact harcL
        have h4 : Opposite arc ∉ arc :: L := by
          intro hc
          rcases List.mem_cons.1 hc with hc | hc
          · exact (Opposite_ne arc) hc
          · exact h1 hc
        rw [if_neg h1, if_neg h3, if_neg h4, if_pos h2,
          PushFlow_resCap, if_pos rfl]
        ring
      · by_cases hOppL : Opposite b ∈ L
        · have h4 : b ∉ arc :: L := by
            intro hc
            rcases List.mem_cons.1 hc with hc | hc
            · exact hbarc hc
            · exact hmem1 hc
          rw [if_neg hmem1, if_pos hOppL, if_neg h4,
            if_pos (List.mem_cons_of_mem _ hOppL), PushFlow_resCap,
            if_neg hbopp, if_neg hbarc]
        · have h4 : b ∉ arc :: L := by
            intro hc
            rcases List.mem_cons.1 hc with hc | hc
            · exact hbarc hc
            · exact hmem1 hc
          have h5 : Opposite b ∉ arc :: L := by
            intro hc
            rcases List.mem_cons.1 hc with hc | hc
            · exact hbopp (by rw [← hc, Opposite_Opposite])
            · exact hOppL hc
          rw [if_neg hmem1, if_neg hOppL, if_neg h4, if_neg h5,
            PushFlow_resCap, if_neg hbopp, if_neg hbarc]

theorem CancelCycle_Inv (g : FlowGraph) (source sink : Nat) (node : Nat)
    (arc flow : Int) (head : Nat) (d : DfsState) (cb : Nat) (m : Int)
    (fsi : Nat) (L : List Int)
    (hcb : cb = FindCycleBegin g d.arc_stack d.index_branch head
      d.index_branch.length)
    (hmf : (m, fsi) = FindMaxFlowAndFirstSaturated g d.st d.arc_stack
      d.index_branch cb flow)
    (hL : L = ((List.range d.index_branch.length).drop cb).map
      (fun i => d.arc_stack.getD (d.index_branch.getD i 0) 0))
    (harc : IsArcDirect g arc = true)
    (hLdir : ∀ e ∈ L, IsArcDirect g e = true)
    (hnd : (arc :: L).Nodup)
    (htail : Tail g arc = node)
    (hflow : flow = Flow g d.st arc)
    (hchain : List.Chain' (fun a b => Head g a = Tail g b) L)
    (hclose_nil : L = [] → Head g arc = node)
    (hclose_cons : ∀ hne : L ≠ [], Head g arc = Tail g L.headI ∧
      Head g (L.getLast hne) = node)
    (hI : Inv g source sink d.st) :
    Inv g source sink (CancelCycle g node arc flow head d).1.st := by
  have hres := CancelCycle_res g node arc flow head d cb m fsi L hcb hmf hL
    harc hLdir hnd
  have hexc := CancelCycle_excess_eq g node arc flow head d cb m fsi L hcb
    hmf hL hchain hclose_nil hclose_cons
  have hprops := FMF_props g d.st d.arc_stack d.index_branch cb flow m fsi
    hmf
  have hmarc : m ≤ Flow g d.st arc := hflow ▸ hprops.1
  have hmL : ∀ e ∈ L, m ≤ Flow g d.st e := by
    intro e he
    rw [hL] at he
    rcases List.mem_map.1 he with ⟨i, hi, rfl⟩
    rcases mem_drop_range.1 hi with ⟨h1, h2⟩
    exact hprops.2.1 i h1 h2
  have hm0 : 0 ≤ m := by
    by_cases hlt : fsi < d.index_branch.length
    · obtain ⟨hcbfsi, hmeq⟩ := hprops.2.2.1 hlt
      have hmemL : d.arc_stack.getD (d.index_branch.getD fsi 0) 0 ∈ L := by
        rw [hL]
        exact List.mem_map_of_mem _ (mem_drop_range.2 ⟨hcbfsi, hlt⟩)
      have hdir := hLdir _ hmemL
      rw [hmeq, Flow_direct hdir]
      exact hI.res_nonneg _
        (by rw [IsArcValid_Opposite]; exact (IsArcDirect_nonneg hdir).2)
    · obtain ⟨hmeq, _⟩ := hprops.2.2.2 hlt
      rw [hmeq, hflow, Flow_direct harc]
      exact hI.res_nonneg _
        (by rw [IsArcValid_Opposite]; exact (IsArcDirect_nonneg harc).2)
  have hmemdir : ∀ e ∈ arc :: L, IsArcDirect g e = true := by
    intro e he
    rcases List.mem_cons.1 he with rfl | he
    · exact harc
    · exact hLdir e he
  have hmemflow : ∀ e ∈ arc :: L,
      m ≤ d.st.residual_arc_capacity (Opposite e) := by
    intro e he
    rcases List.mem_cons.1 he with rfl | he
    · rw [← Flow_direct harc]
      exact hmarc
    · rw [← Flow_direct (hLdir e he)]
      exact hmL e he
  refine ⟨?_, ?_, ?_, ?_, ?_, ?_, ?_⟩
  · -- res_nonneg
    intro b hb
    rw [hres b]
    split_ifs with h1 h2
    · have h3 := hI.res_nonneg b hb
      omega
    · have h3 := hmemflow _ h2
      rw [Opposite_Opposite] at h3
      omega
    · exact hI.res_nonneg b hb
  · -- excess_derived
    intro v hv
    rw [CancelCycle_st g node arc flow head d cb m fsi hcb hmf]
    refine pushNegFold_derived g _ m _ _ ?_ ?_ v hv
    · intro i hi
      have hmemL : d.arc_stack.getD (d.index_branch.getD i 0) 0 ∈ L := by
        rw [hL]
        exact List.mem_map_of_mem _ (List.mem_reverse.1 hi)
      exact (IsArcDirect_nonneg (hLdir _ hmemL)).2
    · intro w hw
      exact PushFlow_derived (IsArcDirect_nonneg harc).2 htail w
        (hI.excess_derived w hw)
  · -- interior_nonneg
    intro v hv hvs
    rw [hexc v]
    exact hI.interior_nonneg v hv hvs
  · -- source_bound
    rw [hexc source]
    exact hI.source_bound
  · -- pot_source
    rw [CancelCycle_st g node arc flow head d cb m fsi hcb hmf,
      pushFold_pot, PushFlow_potential]
    exact hI.pot_source
  · -- sink_tail_zero
    intro a ha hta
    rw [hres (Opposite ((a : Int)))]
    have hneg1 : Opposite ((a : Int)) ∉ arc :: L := by
      intro hc
      have h3 := (IsArcDirect_nonneg (hmemdir _ hc)).1
      unfold Opposite at h3
      omega
    by_cases hmem : ((a : Int)) ∈ arc :: L
    · rw [if_neg hneg1, if_pos (by rw [Opposite_Opposite]; exact hmem)]
      have h1 := hI.sink_tail_zero a ha hta
      have h2 := hmemflow _ hmem
      omega
    · rw [if_neg hneg1, if_neg (by rw [Opposite_Opposite]; exact hmem)]
      exact hI.sink_tail_zero a ha hta
  · -- source_self_zero
    intro a ha hta hha
    rw [hres (Opposite ((a : Int)))]
    have hneg1 : Opposite ((a : Int)) ∉ arc :: L := by
      intro hc
      have h3 := (IsArcDirect_nonneg (hmemdir _ hc)).1
      unfold Opposite at h3
      omega
    by_cases hmem : ((a : Int)) ∈ arc :: L
    · rw [if_neg hneg1, if_pos (by rw [Opposite_Opposite]; exact hmem)]
      have h1 := hI.source_self_zero a ha hta hha
      have h2 := hmemflow _ hmem
      omega
    · rw [if_neg hneg1, if_neg (by rw [Opposite_Opposite]; exact hmem)]
      exact hI.source_self_zero a ha hta hha

/-! ### List-access helpers for the DFS invariant -/

theorem getD_take {α : Type} (l : List α) (n i : Nat) (d : α) (h : i < n) :
    (l.take n).getD i d = l.getD i d := by
  by_cases h2 : i < l.length
  · have h3 : i < (l.take n).length := by
      rw [List.length_take]
      omega
    rw [List.getD_eq_getElem _ d h3, List.getD_eq_getElem l d h2]
    exact List.getElem_take l
  · rw [List.getD_eq_default _ _ (by rw [List.length_take]; omega),
      List.getD_eq_default _ _ (by omega)]

theorem getD_append_left {α : Type} (l l' : List α) (i : Nat) (d : α)
    (h : i < l.length) : (l ++ l').getD i d = l.getD i d := by
  have h2 : i < (l ++ l').length := by
    rw [List.length_append]
    omega
  rw [List.getD_eq_getElem _ d h2, List.getD_eq_getElem l d h]
  exact List.getElem_append_left h

theorem getD_append_last {α : Type} (l : List α) (x : α) (d : α) :
    (l ++ [x]).getD l.length d = x := by
  have h2 : l.length < (l ++ [x]).length := by
    rw [List.length_append]
    simp
  rw [List.getD_eq_getElem _ d h2]
  exact List.getElem_concat_length _ _ _ rfl _

theorem getD_dropLast {α : Type} (l : List α) (i : Nat) (d : α)
    (h : i < l.length - 1) : l.dropLast.getD i d = l.getD i d := by
  rw [List.dropLast_eq_take]
  exact getD_take l _ i d h

theorem getD_mem {α : Type} {l : List α} {i : Nat} {d : α}
    (h : i < l.length) : l.getD i d ∈ l := by
  rw [List.getD_eq_getElem l d h]
  exact List.getElem_mem h

theorem sorted_getD_lt {l : List Nat} (hs : l.Pairwise (· < ·)) {i j : Nat}
    (hj : j < l.length) (hij : i < j) : l.getD i 0 < l.getD j 0 := by
  have hi : i < l.length := by omega
  rw [List.getD_eq_getElem l 0 hi, List.getD_eq_getElem l 0 hj]
  exact List.pairwise_iff_getElem.1 hs i j hi hj hij

/-! ### The postorder predicate used by the excess-return phase -/

/-- Processing-order soundness of a suffix of `reverse_topological_order`:
every flow-carrying arc into the suffix head comes from the source, the
sink, or a node at the same or a later position of the suffix. -/
def Respect (g : FlowGraph) (st : MFState) (source sink : Nat) :
    List Nat → Prop
  | [] => True
  | w :: rest =>
    (∀ a : Nat, a < g.numArcs → 0 < Flow g st ((a : Int)) →
      g.heads a = w →
      g.tails a = source ∨ g.tails a = sink ∨ g.tails a ∈ w :: rest) ∧
    Respect g st source sink rest

/-- The same predicate relative to a `stored` set still being built: arcs
from not-yet-stored tails are also allowed (the DFS rules them out at the
end by a counting argument). -/
def RespectAux (g : FlowGraph) (st : MFState) (source sink : Nat) :
    List Nat → (Nat → Bool) → Prop
  | [], _ => True
  | w :: rest, stored =>
    (∀ a : Nat, a < g.numArcs → 0 < Flow g st ((a : Int)) →
      g.heads a = w →
      g.tails a = source ∨ g.tails a = sink ∨ g.tails a ∈ w :: rest ∨
        stored (g.tails a) = false) ∧
    RespectAux g st source sink rest stored

theorem Respect_mono (g : FlowGraph) (st st' : MFState) (source sink : Nat)
    (hflow : ∀ a : Nat, a < g.numArcs → 0 < Flow g st' ((a : Int)) →
      0 < Flow g st ((a : Int))) :
    ∀ l : List Nat, Respect g st source sink l →
      Respect g st' source sink l := by
  intro l
  induction l with
  | nil => intro h; exact h
  | cons w rest ih =>
    intro h
    exact ⟨fun a ha hf hh => h.1 a ha (hflow a ha hf) hh, ih h.2⟩

theorem RespectAux_mono (g : FlowGraph) (st st' : MFState)
    (source sink : Nat)
    (hflow : ∀ a : Nat, a < g.numArcs → 0 < Flow g st' ((a : Int)) →
      0 < Flow g st ((a : Int))) :
    ∀ l : List Nat, ∀ stored : Nat → Bool,
      RespectAux g st source sink l stored →
      RespectAux g st' source sink l stored := by
  intro l
  induction l with
  | nil => intro stored h; exact h
  | cons w rest ih =>
    intro stored h
    exact ⟨fun a ha hf hh => h.1 a ha (hflow a ha hf) hh, ih _ h.2⟩

theorem RespectAux_append (g : FlowGraph) (st : MFState)
    (source sink : Nat) (rto : List Nat) (stored : Nat → Bool) (node : Nat)
    (hra : RespectAux g st source sink rto stored)
    (hnew : ∀ a : Nat, a < g.numArcs → 0 < Flow g st ((a : Int)) →
      g.heads a = node →
      g.tails a = source ∨ g.tails a = sink ∨ g.tails a = node ∨
        (stored (g.tails a) = false ∧ g.tails a ≠ node)) :
    RespectAux g st source sink (rto ++ [node])
      (Function.update stored node true) := by
  induction rto with
  | nil =>
    refine ⟨?_, trivial⟩
    intro a ha hf hh
    rcases hnew a ha hf hh with h | h | h | ⟨h, hne⟩
    · exact Or.inl h
    · exact Or.inr (Or.inl h)
    · exact Or.inr (Or.inr (Or.inl (by rw [h]; exact List.mem_cons_self _ _)))
    · refine Or.inr (Or.inr (Or.inr ?_))
      rw [Function.update_noteq hne]
      exact h
  | cons w rest ih =>
    obtain ⟨hw, hrest⟩ := hra
    refine ⟨?_, ih hrest⟩
    intro a ha hf hh
    rcases hw a ha hf hh with h | h | h | h
    · exact Or.inl h
    · exact Or.inr (Or.inl h)
    · refine Or.inr (Or.inr (Or.inl ?_))
      rcases List.mem_cons.1 h with h | h
      · rw [h]
        exact List.mem_cons_self _ _
      · exact List.mem_cons_of_mem _ (List.mem_append_left _ h)
    · by_cases hn : g.tails a = node
      · refine Or.inr (Or.inr (Or.inl ?_))
        rw [hn]
        exact List.mem_cons_of_mem _
          (List.mem_append_right _ (List.mem_singleton.2 rfl))
      · refine Or.inr (Or.inr (Or.inr ?_))
        rw [Function.update_noteq hn]
        exact h

/-! ### The DFS invariant of `PushFlowExcessBackToSource` -/

/-- The `i`-th branch arc, `arc_stack[index_branch[i]]`. -/
def BranchArc (d : DfsState) (i : Nat) : Int :=
  d.arc_stack.getD (d.index_branch.getD i 0) 0

/-- The `i`-th branch node, the head of the `i`-th branch arc. -/
def BranchHead (g : FlowGraph) (d : DfsState) (i : Nat) : Nat :=
  Head g (BranchArc d i)

/-- A pending copy of arc `a` on the stack strictly above branch entry `j`
and at or below every deeper branch entry. -/
def SegWitness (d : DfsState) (j : Nat) (a : Int) : Prop :=
  ∃ p, p < d.arc_stack.length ∧ d.arc_stack.getD p 0 = a ∧
    d.index_branch.getD j 0 < p ∧
    ∀ j', j < j' → j' < d.index_branch.length →
      p ≤ d.index_branch.getD j' 0

/-- A pending copy of a source arc on the stack below every branch entry. -/
def SrcWitness (d : DfsState) (a : Int) : Prop :=
  ∃ p, p < d.arc_stack.length ∧ d.arc_stack.getD p 0 = a ∧
    ∀ j', j' < d.index_branch.length → p ≤ d.index_branch.getD j' 0

/-- The loop invariant of the DFS in `PushFlowExcessBackToSource()`.
`pending` is the suffix of the current node's outgoing arcs that the inner
`for` loop has not yet processed (`[]` at `while`-loop boundaries). -/
structure DInvP (g : FlowGraph) (source sink : Nat) (pending : List Int)
    (d : DfsState) : Prop where
  inv : Inv g source sink d.st
  stack_dir : ∀ a ∈ d.arc_stack, IsArcDirect g a = true
  head_ne_source : ∀ a ∈ d.arc_stack, Head g a ≠ source
  ib_lt : ∀ q ∈ d.index_branch, q < d.arc_stack.length
  ib_sorted : d.index_branch.Pairwise (· < ·)
  stack_tail : ∀ p, p < d.arc_stack.length →
    ((∀ j, j < d.index_branch.length → p ≤ d.index_branch.getD j 0) ∧
      Tail g (d.arc_stack.getD p 0) = source) ∨
    (∃ j, j < d.index_branch.length ∧ d.index_branch.getD j 0 < p ∧
      Tail g (d.arc_stack.getD p 0) = BranchHead g d j ∧
      ∀ j', j < j' → j' < d.index_branch.length →
        p ≤ d.index_branch.getD j' 0)
  stored_sink : d.stored sink = true
  visited_sink : d.visited sink = true
  visited_source : d.visited source = true
  stored_source : d.stored source = false
  rto_iff : ∀ v, v ∈ d.reverse_topological_order ↔
    (d.stored v = true ∧ v ≠ sink)
  rto_nodup : d.reverse_topological_order.Nodup
  rto_lt : ∀ v ∈ d.reverse_topological_order, v < g.numNodes
  rto_ne_source : ∀ v ∈ d.reverse_topological_order, v ≠ source
  stored_visited : ∀ v, d.stored v = true → d.visited v = true
  bh_visited : ∀ i, i < d.index_branch.length →
    d.visited (BranchHead g d i) = true
  bh_not_stored : ∀ i, i < d.index_branch.length →
    d.stored (BranchHead g d i) = false
  bh_distinct : ∀ i j, i < d.index_branch.length →
    j < d.index_branch.length → i ≠ j →
    BranchHead g d i ≠ BranchHead g d j
  visited_class : ∀ v, d.visited v = true →
    v = source ∨ v = sink ∨ d.stored v = true ∨
    ∃ i, i < d.index_branch.length ∧ BranchHead g d i = v
  pending_ok : ∀ p, p < d.arc_stack.length → p ∉ d.index_branch →
    d.visited (Head g (d.arc_stack.getD p 0)) = true →
    d.stored (Head g (d.arc_stack.getD p 0)) = true ∨
    ∃ j, j < d.index_branch.length ∧
      BranchHead g d j = Head g (d.arc_stack.getD p 0) ∧
      p < d.index_branch.getD j 0
  seg : ∀ j, j < d.index_branch.length →
    ∀ a ∈ OutgoingArcs g (BranchHead g d j), 0 < Flow g d.st a →
      d.stored (Head g a) = true ∨ SegWitness d j a ∨
      (j + 1 = d.index_branch.length ∧ a ∈ pending)
  src_seg : ∀ a ∈ OutgoingArcs g source, 0 < Flow g d.st a →
    d.stored (Head g a) = true ∨ SrcWitness d a
  closure : ∀ a : Nat, a < g.numArcs → 0 < Flow g d.st ((a : Int)) →
    d.stored (g.tails a) = true → g.tails a ≠ sink →
    d.stored (g.heads a) = true
  respect : RespectAux g d.st source sink d.reverse_topological_order
    d.stored

/-- The DFS invariant at `while`-loop boundaries. -/
def DInv (g : FlowGraph) (source sink : Nat) (d : DfsState) : Prop :=
  DInvP g source sink [] d

theorem DInvP_bh_mem {g : FlowGraph} {source sink : Nat} {pending : List Int}
    {d : DfsState} (hD : DInvP g source sink pending d) {i : Nat}
    (h : i < d.index_branch.length) : BranchArc d i ∈ d.arc_stack := by
  unfold BranchArc
  exact getD_mem (hD.ib_lt _ (getD_mem h))

theorem DInvP_bh_dir {g : FlowGraph} {source sink : Nat} {pending : List Int}
    {d : DfsState} (hD : DInvP g source sink pending d) {i : Nat}
    (h : i < d.index_branch.length) : IsArcDirect g (BranchArc d i) = true :=
  hD.stack_dir _ (DInvP_bh_mem hD h)

theorem DInvP_bh_ne_source {g : FlowGraph} {source sink : Nat}
    {pending : List Int} {d : DfsState} (hD : DInvP g source sink pending d)
    {i : Nat} (h : i < d.index_branch.length) :
    BranchHead g d i ≠ source :=
  hD.head_ne_source _ (DInvP_bh_mem hD h)

theorem DInvP_bh_ne_sink {g : FlowGraph} {source sink : Nat}
    {pending : List Int} {d : DfsState} (hD : DInvP g source sink pending d)
    {i : Nat} (h : i < d.index_branch.length) : BranchHead g d i ≠ sink := by
  intro hc
  have h1 := hD.bh_not_stored i h
  rw [hc, hD.stored_sink] at h1
  exact Bool.noConfusion h1

theorem DInvP_chain {g : FlowGraph} {source sink : Nat}
    {pending : List Int} {d : DfsState} (hD : DInvP g source sink pending d)
    {i : Nat} (h : i + 1 < d.index_branch.length) :
    Head g (BranchArc d i) = Tail g (BranchArc d (i + 1)) := by
  have hp : d.index_branch.getD (i + 1) 0 < d.arc_stack.length :=
    hD.ib_lt _ (getD_mem h)
  rcases hD.stack_tail _ hp with ⟨hall, _⟩ | ⟨j, hj, hlt, htl, hub⟩
  · exfalso
    have h1 := hall i (by omega)
    have h2 := sorted_getD_lt hD.ib_sorted h (Nat.lt_succ_self i)
    omega
  · have hji : j = i := by
      rcases Nat.lt_trichotomy j i with hc | hc | hc
      · have h1 := hub i hc (by omega)
        have h2 := sorted_getD_lt hD.ib_sorted h (Nat.lt_succ_self i)
        omega
      · exact hc
      · rcases Nat.lt_or_ge (i + 1) j with hc2 | hc2
        · have h2 := sorted_getD_lt hD.ib_sorted hj hc2
          omega
        · have hje : j = i + 1 := by omega
          subst hje
          omega
    subst hji
    exact htl.symm

theorem DInvP_first {g : FlowGraph} {source sink : Nat}
    {pending : List Int} {d : DfsState} (hD : DInvP g source sink pending d)
    (h : 0 < d.index_branch.length) :
    Tail g (BranchArc d 0) = source := by
  have hp : d.index_branch.getD 0 0 < d.arc_stack.length :=
    hD.ib_lt _ (getD_mem h)
  rcases hD.stack_tail _ hp with ⟨_, htl⟩ | ⟨j, hj, hlt, htl, hub⟩
  · exact htl
  · exfalso
    rcases Nat.eq_zero_or_pos j with rfl | hjpos
    · omega
    · have h2 := sorted_getD_lt hD.ib_sorted hj hjpos
      omega

theorem DInvP_bh_lt {g : FlowGraph} {source sink : Nat}
    {pending : List Int} {d : DfsState} (hD : DInvP g source sink pending d)
    {i : Nat} (h : i < d.index_branch.length) :
    BranchHead g d i < g.numNodes :=
  Head_lt (IsArcDirect_nonneg (DInvP_bh_dir hD h)).2

/-! ### The `cycle_begin` scan -/

theorem FCB_le (g : FlowGraph) (stack : List Int) (ib : List Nat)
    (head : Nat) : ∀ k, FindCycleBegin g stack ib head k ≤ k := by
  intro k
  induction k with
  | zero => exact le_refl 0
  | succ c ih =>
    unfold FindCycleBegin
    split_ifs
    · exact le_refl _
    · omega

theorem FCB_zero (g : FlowGraph) (stack : List Int) (ib : List Nat)
    (head : Nat) : ∀ k, FindCycleBegin g stack ib head k = 0 →
      ∀ c, c < k → Head g (stack.getD (ib.getD c 0) 0) ≠ head := by
  intro k
  induction k with
  | zero => intro _ c hc; omega
  | succ c' ih =>
    intro hk c hc
    unfold FindCycleBegin at hk
    split_ifs at hk with hh
    rcases Nat.lt_succ_iff_lt_or_eq.1 hc with hc | rfl
    · exact ih hk c hc
    · exact hh

theorem FCB_pos (g : FlowGraph) (stack : List Int) (ib : List Nat)
    (head : Nat) : ∀ k c, FindCycleBegin g stack ib head k = c + 1 →
      Head g (stack.getD (ib.getD c 0) 0) = head ∧ c + 1 ≤ k := by
  intro k
  induction k with
  | zero => intro c hc; exact Nat.noConfusion hc
  | succ k' ih =>
    intro c hc
    unfold FindCycleBegin at hc
    split_ifs at hc with hh
    · have : c = k' := by omega
      subst this
      exact ⟨hh, le_refl _⟩
    · have h1 := ih c hc
      exact ⟨h1.1, by omega⟩

theorem headI_eq_getElem {α : Type} [Inhabited α] {l : List α}
    (h : l ≠ []) : l.headI = getElem l 0 (List.length_pos.2 h) := by
  cases l with
  | nil => exact absurd rfl h
  | cons x xs => rfl

theorem L_length (d : DfsState) (cb : Nat) :
    (((List.range d.index_branch.length).drop cb).map
      (fun i => d.arc_stack.getD (d.index_branch.getD i 0) 0)).length =
      d.index_branch.length - cb := by
  rw [List.length_map, List.length_drop, List.length_range]

theorem L_get (d : DfsState) (cb : Nat) (t : Nat)
    (ht : t < (((List.range d.index_branch.length).drop cb).map
      (fun i => d.arc_stack.getD (d.index_branch.getD i 0) 0)).length) :
    (((List.range d.index_branch.length).drop cb).map
      (fun i => d.arc_stack.getD (d.index_branch.getD i 0) 0))[t] =
      BranchArc d (cb + t) := by
  rw [List.getElem_map, List.getElem_drop, List.getElem_range]
  rfl

theorem L_chain {g : FlowGraph} {source sink : Nat} {pending : List Int}
    {d : DfsState} (hD : DInvP g source sink pending d) (cb : Nat) :
    List.Chain' (fun a b => Head g a = Tail g b)
      (((List.range d.index_branch.length).drop cb).map
        (fun i => d.arc_stack.getD (d.index_branch.getD i 0) 0)) := by
  rw [List.chain'_iff_get]
  intro i h
  rw [L_length] at h
  rw [List.get_eq_getElem, List.get_eq_getElem, L_get, L_get]
  have hch := DInvP_chain hD
    (show (cb + i) + 1 < d.index_branch.length by omega)
  rw [show cb + (i + 1) = (cb + i) + 1 from by omega]
  exact hch

theorem L_tail {g : FlowGraph} {source sink : Nat} {pending : List Int}
    {d : DfsState} (hD : DInvP g source sink pending d) {i : Nat}
    (h0 : 0 < i) (h : i < d.index_branch.length) :
    Tail g (BranchArc d i) = BranchHead g d (i - 1) := by
  have hch := DInvP_chain hD
    (show (i - 1) + 1 < d.index_branch.length by omega)
  rw [show i - 1 + 1 = i from by omega] at hch
  exact hch.symm

theorem L_nodup {g : FlowGraph} {source sink : Nat} {pending : List Int}
    {d : DfsState} (hD : DInvP g source sink pending d) (cb : Nat)
    (arc : Int) (node : Nat)
    (hk : d.index_branch ≠ [])
    (hnode : node = BranchHead g d (d.index_branch.length - 1))
    (htailarc : Tail g arc = node) :
    (arc :: ((List.range d.index_branch.length).drop cb).map
      (fun i => d.arc_stack.getD (d.index_branch.getD i 0) 0)).Nodup := by
  have hlen0 : 0 < d.index_branch.length := List.length_pos.2 hk
  have htailt : ∀ t (ht : t <
      (((List.range d.index_branch.length).drop cb).map
        (fun i => d.arc_stack.getD (d.index_branch.getD i 0) 0)).length),
      (cb + t = 0 →
        Tail g ((((List.range d.index_branch.length).drop cb).map
          (fun i => d.arc_stack.getD (d.index_branch.getD i 0) 0))[t]) =
          source) ∧
      (0 < cb + t →
        Tail g ((((List.range d.index_branch.length).drop cb).map
          (fun i => d.arc_stack.getD (d.index_branch.getD i 0) 0))[t]) =
          BranchHead g d (cb + t - 1)) := by
    intro t ht
    rw [L_get]
    have hbound : cb + t < d.index_branch.length := by
      rw [L_length] at ht
      omega
    constructor
    · intro h0
      rw [h0]
      exact DInvP_first hD hlen0
    · intro h0
      exact L_tail hD h0 hbound
  refine List.pairwise_iff_getElem.2 ?_
  intro i j hi hj hij
  match i, j with
  | 0, 0 => omega
  | 0, s + 1 =>
    rw [List.getElem_cons_zero, List.getElem_cons_succ]
    intro hc
    have hs : s < (((List.range d.index_branch.length).drop cb).map
        (fun i => d.arc_stack.getD (d.index_branch.getD i 0) 0)).length := by
      simp only [List.length_cons] at hj
      omega
    have htl := htailt s hs
    by_cases h0 : cb + s = 0
    · have h1 := (htl.1 h0)
      rw [← hc, htailarc, hnode] at h1
      exact DInvP_bh_ne_source hD (by omega) h1
    · have h1 := htl.2 (by omega)
      rw [← hc, htailarc, hnode] at h1
      have hbound : cb + s < d.index_branch.length := by
        rw [L_length] at hs
        omega
      exact hD.bh_distinct _ _ (by omega) (by omega) (by omega) h1
  | s1 + 1, s2 + 1 =>
    rw [List.getElem_cons_succ, List.getElem_cons_succ]
    intro hc
    have hs1 : s1 < (((List.range d.index_branch.length).drop cb).map
        (fun i => d.arc_stack.getD (d.index_branch.getD i 0) 0)).length := by
      simp only [List.length_cons] at hi
      omega
    have hs2 : s2 < (((List.range d.index_branch.length).drop cb).map
        (fun i => d.arc_stack.getD (d.index_branch.getD i 0) 0)).length := by
      simp only [List.length_cons] at hj
      omega
    have hbound1 : cb + s1 < d.index_branch.length := by
      rw [L_length] at hs1
      omega
    have hbound2 : cb + s2 < d.index_branch.length := by
      rw [L_length] at hs2
      omega
    have ht1 := htailt s1 hs1
    have ht2 := htailt s2 hs2
    have hss : s1 < s2 := by omega
    by_cases h0 : cb + s1 = 0
    · have h1 := ht1.1 h0
      have h2 := ht2.2 (by omega)
      rw [hc, h2] at h1
      exact DInvP_bh_ne_source hD (by omega) h1
    · have h1 := ht1.2 (by omega)
      have h2 := ht2.2 (by omega)
      rw [hc, h2] at h1
      exact absurd h1.symm
        (hD.bh_distinct _ _ (by omega) (by omega) (by omega))

theorem cycle_close {g : FlowGraph} {source sink : Nat}
    {pending : List Int} {d : DfsState}
    (hD : DInvP g source sink pending d) (arc : Int) (node : Nat) (cb : Nat)
    (hcb : cb = FindCycleBegin g d.arc_stack d.index_branch (Head g arc)
      d.index_branch.length)
    (hk : d.index_branch ≠ [])
    (hnode : node = BranchHead g d (d.index_branch.length - 1))
    (hstored : d.stored (Head g arc) = false)
    (hvisited : d.visited (Head g arc) = true) :
    cb ≤ d.index_branch.length ∧
    (((List.range d.index_branch.length).drop cb).map
      (fun i => d.arc_stack.getD (d.index_branch.getD i 0) 0) = [] →
      Head g arc = node) ∧
    (∀ hne : ((List.range d.index_branch.length).drop cb).map
      (fun i => d.arc_stack.getD (d.index_branch.getD i 0) 0) ≠ [],
      Head g arc = Tail g ((((List.range d.index_branch.length).drop
        cb).map
        (fun i => d.arc_stack.getD (d.index_branch.getD i 0) 0)).headI) ∧
      Head g ((((List.range d.index_branch.length).drop cb).map
        (fun i => d.arc_stack.getD (d.index_branch.getD i 0) 0)).getLast
          hne) = node) := by
  have hlen0 : 0 < d.index_branch.length := List.length_pos.2 hk
  have hcble : cb ≤ d.index_branch.length := by
    rw [hcb]
    exact FCB_le g d.arc_stack d.index_branch (Head g arc) _
  have hnil_iff : ((List.range d.index_branch.length).drop cb).map
      (fun i => d.arc_stack.getD (d.index_branch.getD i 0) 0) = [] ↔
      d.index_branch.length ≤ cb := by
    rw [← List.length_eq_zero, L_length]
    omega
  have hlast : ∀ hne : ((List.range d.index_branch.length).drop cb).map
      (fun i => d.arc_stack.getD (d.index_branch.getD i 0) 0) ≠ [],
      Head g ((((List.range d.index_branch.length).drop cb).map
        (fun i => d.arc_stack.getD (d.index_branch.getD i 0) 0)).getLast
          hne) = node := by
    intro hne
    have hcblt : cb < d.index_branch.length := by
      rcases Nat.lt_or_ge cb d.index_branch.length with h | h
      · exact h
      · exact absurd (hnil_iff.2 h) hne
    rw [List.getLast_eq_getElem _ hne]
    have hlen : (((List.range d.index_branch.length).drop cb).map
        (fun i => d.arc_stack.getD (d.index_branch.getD i 0) 0)).length =
        d.index_branch.length - cb := L_length d cb
    simp only [hlen]
    rw [L_get d cb _ (by rw [hlen]; omega)]
    rw [show cb + (d.index_branch.length - cb - 1) =
      d.index_branch.length - 1 from by omega]
    exact hnode.symm
  by_cases hc0 : cb = 0
  · have hnb := FCB_zero g d.arc_stack d.index_branch (Head g arc)
      d.index_branch.length (by rw [← hcb, hc0])
    have hsrc : Head g arc = source := by
      rcases hD.visited_class _ hvisited with h | h | h | ⟨i, hi, hbh⟩
      · exact h
      · exfalso
        rw [h, hD.stored_sink] at hstored
        exact Bool.noConfusion hstored
      · exact absurd h (by rw [hstored]; exact Bool.noConfusion)
      · exact absurd hbh (hnb i hi)
    refine ⟨hcble, ?_, ?_⟩
    · intro hLnil
      exfalso
      have := hnil_iff.1 hLnil
      omega
    · intro hne
      refine ⟨?_, hlast hne⟩
      rw [headI_eq_getElem hne, L_get d cb 0 (List.length_pos.2 hne), hc0]
      rw [show (0 : Nat) + 0 = 0 from rfl]
      rw [DInvP_first hD hlen0]
      exact hsrc
  · have hpos := FCB_pos g d.arc_stack d.index_branch (Head g arc)
      d.index_branch.length (cb - 1) (by rw [← hcb]; omega)
    refine ⟨hcble, ?_, ?_⟩
    · intro hLnil
      have hge := hnil_iff.1 hLnil
      have hcbeq : cb = d.index_branch.length := by omega
      rw [hnode, ← hcbeq]
      rw [show cb - 1 = cb - 1 from rfl] at hpos
      exact hpos.1.symm
    · intro hne
      refine ⟨?_, hlast hne⟩
      have hcblt : cb < d.index_branch.length := by
        rcases Nat.lt_or_ge cb d.index_branch.length with h | h
        · exact h
        · exact absurd (hnil_iff.2 h) hne
      rw [headI_eq_getElem hne, L_get d cb 0 (List.length_pos.2 hne)]
      rw [show cb + 0 = cb from rfl]
      rw [L_tail hD (by omega) hcblt]
      exact hpos.1.symm

theorem bool_eq_of_false_iff {a b : Bool} (h : (a = false) ↔ (b = false)) :
    a = b := by
  cases a <;> cases b <;> simp_all

theorem BranchArc_congr {d d' : DfsState} (hs : d'.arc_stack = d.arc_stack)
    (hib : d'.index_branch = d.index_branch) (i : Nat) :
    BranchArc d' i = BranchArc d i := by
  unfold BranchArc
  rw [hs, hib]

theorem BranchHead_congr (g : FlowGraph) {d d' : DfsState}
    (hs : d'.arc_stack = d.arc_stack)
    (hib : d'.index_branch = d.index_branch) (i : Nat) :
    BranchHead g d' i = BranchHead g d i := by
  unfold BranchHead
  rw [BranchArc_congr hs hib]

theorem SegWitness_congr {d d' : DfsState} (hs : d'.arc_stack = d.arc_stack)
    (hib : d'.index_branch = d.index_branch) (j : Nat) (a : Int) :
    SegWitness d' j a ↔ SegWitness d j a := by
  unfold SegWitness
  rw [hs, hib]

theorem SrcWitness_congr {d d' : DfsState} (hs : d'.arc_stack = d.arc_stack)
    (hib : d'.index_branch = d.index_branch) (a : Int) :
    SrcWitness d' a ↔ SrcWitness d a := by
  unfold SrcWitness
  rw [hs, hib]

theorem mem_L {d : DfsState} {cb : Nat} {e : Int}
    (he : e ∈ ((List.range d.index_branch.length).drop cb).map
      (fun i => d.arc_stack.getD (d.index_branch.getD i 0) 0)) :
    ∃ i, cb ≤ i ∧ i < d.index_branch.length ∧ e = BranchArc d i := by
  rcases List.mem_map.1 he with ⟨i, hi, he'⟩
  rcases mem_drop_range.1 hi with ⟨h1, h2⟩
  exact ⟨i, h1, h2, he'.symm⟩

theorem bA_mem_L {d : DfsState} {cb i : Nat} (h1 : cb ≤ i)
    (h2 : i < d.index_branch.length) :
    BranchArc d i ∈ ((List.range d.index_branch.length).drop cb).map
      (fun i => d.arc_stack.getD (d.index_branch.getD i 0) 0) :=
  List.mem_map_of_mem _ (mem_drop_range.2 ⟨h1, h2⟩)

theorem mem_take_getD {α : Type} {l : List α} {n : Nat} {q : α} (d : α)
    (hq : q ∈ l.take n) : ∃ j, j < n ∧ j < l.length ∧ l.getD j d = q := by
  rcases List.mem_iff_getElem.1 hq with ⟨j, hjlen, hje⟩
  have h2 : j < n ∧ j < l.length := by
    rw [List.length_take] at hjlen
    omega
  refine ⟨j, h2.1, h2.2, ?_⟩
  rw [List.getD_eq_getElem l d h2.2, ← hje]
  exact (List.getElem_take l).symm

theorem FMF_m_nonneg {g : FlowGraph} {st : MFState} {source sink : Nat}
    (hI : Inv g source sink st) {stack : List Int} {ib : List Nat} {cb : Nat}
    {arcv : Int} {m : Int} {fsi : Nat}
    (harcdir : IsArcDirect g arcv = true)
    (hmf : (m, fsi) = FindMaxFlowAndFirstSaturated g st stack ib cb
      (Flow g st arcv))
    (hLdir : ∀ i, cb ≤ i → i < ib.length →
      IsArcDirect g (stack.getD (ib.getD i 0) 0) = true) :
    0 ≤ m := by
  have hprops := FMF_props g st stack ib cb (Flow g st arcv) m fsi hmf
  by_cases hlt : fsi < ib.length
  · obtain ⟨hcbfsi, hmeq⟩ := hprops.2.2.1 hlt
    have hdir := hLdir fsi hcbfsi hlt
    rw [hmeq, Flow_direct hdir]
    exact hI.res_nonneg _
      (by rw [IsArcValid_Opposite]; exact (IsArcDirect_nonneg hdir).2)
  · obtain ⟨hmeq, _⟩ := hprops.2.2.2 hlt
    rw [hmeq, Flow_direct harcdir]
    exact hI.res_nonneg _
      (by rw [IsArcValid_Opposite]; exact (IsArcDirect_nonneg harcdir).2)

theorem CancelCycle_Flow (g : FlowGraph) (node : Nat) (arc flow : Int)
    (head : Nat) (d : DfsState) (cb : Nat) (m : Int) (fsi : Nat)
    (L : List Int)
    (hcb : cb = FindCycleBegin g d.arc_stack d.index_branch head
      d.index_branch.length)
    (hmf : (m, fsi) = FindMaxFlowAndFirstSaturated g d.st d.arc_stack
      d.index_branch cb flow)
    (hL : L = ((List.range d.index_branch.length).drop cb).map
      (fun i => d.arc_stack.getD (d.index_branch.getD i 0) 0))
    (harc : IsArcDirect g arc = true)
    (hLdir : ∀ e ∈ L, IsArcDirect g e = true)
    (hnd : (arc :: L).Nodup) :
    ∀ e : Int, IsArcDirect g e = true →
      Flow g (CancelCycle g node arc flow head d).1.st e =
        (if e ∈ arc :: L then Flow g d.st e - m else Flow g d.st e) := by
  intro e he
  have hres := CancelCycle_res g node arc flow head d cb m fsi L hcb hmf hL
    harc hLdir hnd
  have hall : ∀ x ∈ arc :: L, (0 : Int) ≤ x := by
    intro x hx
    rcases List.mem_cons.1 hx with rfl | hx
    · exact (IsArcDirect_nonneg harc).1
    · exact (IsArcDirect_nonneg (hLdir _ hx)).1
  have he0 := (IsArcDirect_nonneg he).1
  have h1 : Opposite e ∉ arc :: L := by
    intro hc
    have := hall _ hc
    unfold Opposite at this
    omega
  rw [Flow_direct he, hres (Opposite e), if_neg h1, Opposite_Opposite,
    Flow_direct he]

/-- Effect of one execution of the cycle-cancellation block inside the DFS
`for` loop: if the `break` is taken the `while`-loop invariant is restored,
otherwise the `for`-loop invariant continues with the remaining pending
arcs; node excesses, the stored set and the reverse topological order are
untouched either way. -/
theorem DfsCancelStep {g : FlowGraph} {source sink : Nat} {rest : List Int}
    {d : DfsState} {arc : Int} {node : Nat}
    (hD : DInvP g source sink (arc :: rest) d)
    (hk : d.index_branch ≠ [])
    (hnode : node = BranchHead g d (d.index_branch.length - 1))
    (htailarc : Tail g arc = node)
    (harcdir : IsArcDirect g arc = true)
    (hstored : d.stored (Head g arc) = false)
    (hvisited : d.visited (Head g arc) = true) :
    ∀ pb, pb = CancelCycle g node arc (Flow g d.st arc) (Head g arc) d →
    ((pb.2 = true → DInvP g source sink [] pb.1) ∧
     (pb.2 = false → DInvP g source sink rest pb.1 ∧
       pb.1.arc_stack = d.arc_stack ∧
       pb.1.index_branch = d.index_branch)) ∧
    (∀ v, pb.1.st.node_excess v = d.st.node_excess v) ∧
    pb.1.stored = d.stored ∧
    pb.1.reverse_topological_order = d.reverse_topological_order := by
  intro pb hpb
  have hlen0 : 0 < d.index_branch.length := List.length_pos.2 hk
  obtain ⟨cb, hcb⟩ : ∃ cb, cb = FindCycleBegin g d.arc_stack d.index_branch
      (Head g arc) d.index_branch.length := ⟨_, rfl⟩
  obtain ⟨m, fsi, hmf⟩ : ∃ m fsi, (m, fsi) =
      FindMaxFlowAndFirstSaturated g d.st d.arc_stack d.index_branch cb
        (Flow g d.st arc) := ⟨_, _, Prod.mk.eta⟩
  have hLdir : ∀ e ∈ ((List.range d.index_branch.length).drop cb).map
      (fun i => d.arc_stack.getD (d.index_branch.getD i 0) 0),
      IsArcDirect g e = true := by
    intro e he
    rcases mem_L he with ⟨i, _, h2, he'⟩
    rw [he']
    exact DInvP_bh_dir hD h2
  have hchain := L_chain hD cb
  have hnd := L_nodup hD cb arc node hk hnode htailarc
  obtain ⟨hcble, hclose_nil, hclose_cons⟩ :=
    cycle_close hD arc node cb hcb hk hnode hstored hvisited
  have hInv' := CancelCycle_Inv g source sink node arc (Flow g d.st arc)
    (Head g arc) d cb m fsi _ hcb hmf rfl harcdir hLdir hnd htailarc rfl
    hchain hclose_nil hclose_cons hD.inv
  have hexc := CancelCycle_excess_eq g node arc (Flow g d.st arc)
    (Head g arc) d cb m fsi _ hcb hmf rfl hchain hclose_nil hclose_cons
  have hflowcc := CancelCycle_Flow g node arc (Flow g d.st arc) (Head g arc)
    d cb m fsi _ hcb hmf rfl harcdir hLdir hnd
  have hvis := CancelCycle_visited_iff g node arc (Flow g d.st arc)
    (Head g arc) d cb m fsi hcb hmf
  have hframe := CancelCycle_frame g node arc (Flow g d.st arc)
    (Head g arc) d
  have hshape := CancelCycle_shape g node arc (Flow g d.st arc) (Head g arc)
    d cb m fsi hcb hmf
  have hprops := FMF_props g d.st d.arc_stack d.index_branch cb
    (Flow g d.st arc) m fsi hmf
  have hm0 : 0 ≤ m := FMF_m_nonneg hD.inv harcdir hmf
    (fun i _ h2 => DInvP_bh_dir hD h2)
  rw [← hpb] at hInv' hexc hflowcc hvis hframe hshape
  have hflowmono : ∀ e : Int, IsArcDirect g e = true →
      0 < Flow g pb.1.st e → 0 < Flow g d.st e := by
    intro e he hpos
    rw [hflowcc e he] at hpos
    split_ifs at hpos with h
    · omega
    · exact hpos
  refine ⟨?_, hexc, hframe.1, hframe.2⟩
  rcases hshape with ⟨hfsilt, hb2, hstk, hib⟩ | ⟨hfsige, hb2, hstk, hib⟩
  · -- the break was taken: the stack and index_branch are truncated
    refine ⟨fun _ => ?_,
      fun hc => by rw [hb2] at hc; exact Bool.noConfusion hc⟩
    have hfsicb : cb ≤ fsi := (hprops.2.2.1 hfsilt).1
    have hmfsi : m = Flow g d.st (BranchArc d fsi) := (hprops.2.2.1 hfsilt).2
    have hfsistack : d.index_branch.getD fsi 0 < d.arc_stack.length :=
      hD.ib_lt _ (getD_mem hfsilt)
    have hstklen : pb.1.arc_stack.length =
        min (d.index_branch.getD fsi 0) d.arc_stack.length := by
      rw [hstk, List.length_take]
    have hiblen : pb.1.index_branch.length = fsi := by
      rw [hib, List.length_take]
      exact min_eq_left (Nat.le_of_lt hfsilt)
    have hib_getD : ∀ j, j < fsi →
        pb.1.index_branch.getD j 0 = d.index_branch.getD j 0 := by
      intro j hj
      rw [hib]
      exact getD_take _ _ _ _ hj
    have hstk_getD : ∀ p, p < d.index_branch.getD fsi 0 →
        pb.1.arc_stack.getD p 0 = d.arc_stack.getD p 0 := by
      intro p hp
      rw [hstk]
      exact getD_take _ _ _ _ hp
    have hBA : ∀ j, j < fsi → BranchArc pb.1 j = BranchArc d j := by
      intro j hj
      unfold BranchArc
      rw [hib_getD j hj]
      exact hstk_getD _ (sorted_getD_lt hD.ib_sorted hfsilt hj)
    have hBH : ∀ j, j < fsi → BranchHead g pb.1 j = BranchHead g d j := by
      intro j hj
      unfold BranchHead
      rw [hBA j hj]
    have hvtrue : ∀ v, pb.1.visited v = true → (d.visited v = true ∧
        ∀ i, cb ≤ i → i < d.index_branch.length → fsi ≤ i →
          BranchHead g d i ≠ v) := by
      intro v hv
      constructor
      · rcases Bool.eq_false_or_eq_true (d.visited v) with h | h
        · exact h
        · exfalso
          have h2 := (hvis v).2 (Or.inl h)
          rw [hv] at h2
          exact Bool.noConfusion h2
      · intro i h1 h2 h3 hc
        have h4 := (hvis v).2 (Or.inr ⟨i, ⟨h1, h2⟩, h3, hc⟩)
        rw [hv] at h4
        exact Bool.noConfusion h4
    have hFbAfsi : Flow g pb.1.st (BranchArc d fsi) = 0 := by
      have hmemL := bA_mem_L hfsicb hfsilt
      have h1 := hflowcc (BranchArc d fsi) (DInvP_bh_dir hD hfsilt)
      rw [if_pos (List.mem_cons_of_mem _ hmemL)] at h1
      omega
    refine ⟨hInv', ?_, ?_, ?_, ?_, ?_, ?_, ?_, ?_, ?_, ?_, ?_, ?_, ?_, ?_,
      ?_, ?_, ?_, ?_, ?_, ?_, ?_, ?_, ?_⟩
    · -- stack_dir
      intro a ha
      rw [hstk] at ha
      exact hD.stack_dir a ((List.take_sublist _ _).subset ha)
    · -- head_ne_source
      intro a ha
      rw [hstk] at ha
      exact hD.head_ne_source a ((List.take_sublist _ _).subset ha)
    · -- ib_lt
      intro q hq
      rw [hib] at hq
      have hqstack : q < d.arc_stack.length :=
        hD.ib_lt q ((List.take_sublist _ _).subset hq)
      rcases mem_take_getD 0 hq with ⟨j, hjfsi, hjlen, hjq⟩
      have hlt2 : d.index_branch.getD j 0 < d.index_branch.getD fsi 0 :=
        sorted_getD_lt hD.ib_sorted hfsilt hjfsi
      rw [hstklen]
      omega
    · -- ib_sorted
      rw [hib]
      exact List.Pairwise.sublist (List.take_sublist _ _) hD.ib_sorted
    · -- stack_tail
      intro p hp
      rw [hstklen] at hp
      have hpfsi : p < d.index_branch.getD fsi 0 := by omega
      have hpstack : p < d.arc_stack.length := by omega
      rw [hstk_getD p hpfsi]
      rcases hD.stack_tail p hpstack with ⟨h1, h2⟩ | ⟨j, hj, hlt2, htl, hub⟩
      · left
        refine ⟨?_, h2⟩
        intro j hjl
        rw [hiblen] at hjl
        rw [hib_getD j hjl]
        exact h1 j (by omega)
      · right
        have hjfsi : j < fsi := by
          rcases Nat.lt_or_ge j fsi with h | h
          · exact h
          · exfalso
            rcases Nat.eq_or_lt_of_le h with heq | h'
            · rw [← heq] at hlt2
              omega
            · have := sorted_getD_lt hD.ib_sorted hj h'
              omega
        refine ⟨j, ?_, ?_, ?_, ?_⟩
        · rw [hiblen]
          exact hjfsi
        · rw [hib_getD j hjfsi]
          exact hlt2
        · rw [hBH j hjfsi]
          exact htl
        · intro j' hjj' hj'l
          rw [hiblen] at hj'l
          rw [hib_getD j' hj'l]
          exact hub j' hjj' (by omega)
    · -- stored_sink
      rw [hframe.1]
      exact hD.stored_sink
    · -- visited_sink
      rcases Bool.eq_false_or_eq_true (pb.1.visited sink) with h | h
      · exact h
      · exfalso
        rcases (hvis sink).1 h with h2 | ⟨i, ⟨h1, h2⟩, h3, h4⟩
        · rw [hD.visited_sink] at h2
          exact Bool.noConfusion h2
        · exact DInvP_bh_ne_sink hD h2 h4
    · -- visited_source
      rcases Bool.eq_false_or_eq_true (pb.1.visited source) with h | h
      · exact h
      · exfalso
        rcases (hvis source).1 h with h2 | ⟨i, ⟨h1, h2⟩, h3, h4⟩
        · rw [hD.visited_source] at h2
          exact Bool.noConfusion h2
        · exact DInvP_bh_ne_source hD h2 h4
    · -- stored_source
      rw [hframe.1]
      exact hD.stored_source
    · -- rto_iff
      intro v
      rw [hframe.1, hframe.2]
      exact hD.rto_iff v
    · -- rto_nodup
      rw [hframe.2]
      exact hD.rto_nodup
    · -- rto_lt
      intro v hv
      rw [hframe.2] at hv
      exact hD.rto_lt v hv
    · -- rto_ne_source
      intro v hv
      rw [hframe.2] at hv
      exact hD.rto_ne_source v hv
    · -- stored_visited
      intro v hv
      rw [hframe.1] at hv
      rcases Bool.eq_false_or_eq_true (pb.1.visited v) with h | h
      · exact h
      · exfalso
        rcases (hvis v).1 h with h2 | ⟨i, ⟨h1, h2⟩, h3, h4⟩
        · rw [hD.stored_visited v hv] at h2
          exact Bool.noConfusion h2
        · have h4' : BranchHead g d i = v := h4
          have h5 := hD.bh_not_stored i h2
          rw [h4', hv] at h5
          exact Bool.noConfusion h5
    · -- bh_visited
      intro i hi
      rw [hiblen] at hi
      rw [hBH i hi]
      rcases Bool.eq_false_or_eq_true (pb.1.visited (BranchHead g d i))
        with h | h
      · exact h
      · exfalso
        rcases (hvis _).1 h with h2 | ⟨i', ⟨h1, h2⟩, h3, h4⟩
        · rw [hD.bh_visited i (by omega)] at h2
          exact Bool.noConfusion h2
        · have h4' : BranchHead g d i' = BranchHead g d i := h4
          exact hD.bh_distinct i' i (by omega) (by omega) (by omega) h4'
    · -- bh_not_stored
      intro i hi
      rw [hiblen] at hi
      rw [hframe.1, hBH i hi]
      exact hD.bh_not_stored i (by omega)
    · -- bh_distinct
      intro i j hi hj hij
      rw [hiblen] at hi hj
      rw [hBH i hi, hBH j hj]
      exact hD.bh_distinct i j (by omega) (by omega) hij
    · -- visited_class
      intro v hv
      obtain ⟨hvd, hnoti⟩ := hvtrue v hv
      rcases hD.visited_class v hvd with h | h | h | ⟨i, hi, hbh⟩
      · exact Or.inl h
      · exact Or.inr (Or.inl h)
      · exact Or.inr (Or.inr (Or.inl (by rw [hframe.1]; exact h)))
      · rcases Nat.lt_or_ge i fsi with hifsi | hifsi
        · exact Or.inr (Or.inr (Or.inr ⟨i,
            by rw [hiblen]; exact hifsi, by rw [hBH i hifsi]; exact hbh⟩))
        · exact absurd hbh (hnoti i (by omega) hi hifsi)
    · -- pending_ok
      intro p hp hpnotin hvh
      rw [hstklen] at hp
      have hpfsi : p < d.index_branch.getD fsi 0 := by omega
      have hpstack : p < d.arc_stack.length := by omega
      rw [hstk_getD p hpfsi] at hvh ⊢
      obtain ⟨hvd, hnoti⟩ := hvtrue _ hvh
      have hpnotin' : p ∉ d.index_branch := by
        intro hc
        rcases List.mem_iff_getElem.1 hc with ⟨j, hjlen, hje⟩
        have hje' : d.index_branch.getD j 0 = p := by
          rw [List.getD_eq_getElem _ 0 hjlen]
          exact hje
        rcases Nat.lt_or_ge j fsi with hjfsi | hjfsi
        · apply hpnotin
          rw [hib, ← hje', ← getD_take d.index_branch fsi j 0 hjfsi]
          exact getD_mem (by rw [List.length_take]; omega)
        · rcases Nat.eq_or_lt_of_le hjfsi with heq | h'
          · rw [← heq] at hje'
            omega
          · have := sorted_getD_lt hD.ib_sorted hjlen h'
            omega
      rcases hD.pending_ok p hpstack hpnotin' hvd with h | ⟨j, hj, hbh, hpj⟩
      · left
        rw [hframe.1]
        exact h
      · have hjfsi : j < fsi := by
          rcases Nat.lt_or_ge j fsi with h' | h'
          · exact h'
          · exact absurd hbh (hnoti j (by omega) hj h')
        right
        refine ⟨j, by rw [hiblen]; exact hjfsi, ?_, ?_⟩
        · rw [hBH j hjfsi]
          exact hbh
        · rw [hib_getD j hjfsi]
          exact hpj
    · -- seg
      intro j hj a hamem hfl
      rw [hiblen] at hj
      rw [hBH j hj] at hamem
      rcases mem_OutgoingArcs hamem with ⟨n, rfl, hn, htn⟩
      have hadir : IsArcDirect g ((n : Int)) = true := IsArcDirect_coe hn
      have hflo : 0 < Flow g d.st ((n : Int)) := hflowmono _ hadir hfl
      rcases hD.seg j (by omega) _ hamem hflo with h | h | ⟨hj1, _⟩
      · left
        rw [hframe.1]
        exact h
      · right
        left
        obtain ⟨p, hpl, hpa, hlb, hub⟩ := h
        have hple : p ≤ d.index_branch.getD fsi 0 := hub fsi hj hfsilt
        have hpne : p ≠ d.index_branch.getD fsi 0 := by
          intro hc
          have hpa' : BranchArc d fsi = ((n : Int)) := by
            unfold BranchArc
            rw [← hc]
            exact hpa
          rw [← hpa'] at hfl
          omega
        have hplt : p < d.index_branch.getD fsi 0 := by omega
        unfold SegWitness
        refine ⟨p, ?_, ?_, ?_, ?_⟩
        · rw [hstklen]
          omega
        · rw [hstk_getD p hplt]
          exact hpa
        · rw [hib_getD j hj]
          exact hlb
        · intro j' hjj' hj'l
          rw [hiblen] at hj'l
          rw [hib_getD j' hj'l]
          exact hub j' hjj' (by omega)
      · omega
    · -- src_seg
      intro a hamem hfl
      rcases mem_OutgoingArcs hamem with ⟨n, rfl, hn, htn⟩
      have hadir : IsArcDirect g ((n : Int)) = true := IsArcDirect_coe hn
      have hflo : 0 < Flow g d.st ((n : Int)) := hflowmono _ hadir hfl
      rcases hD.src_seg _ hamem hflo with h | h
      · left
        rw [hframe.1]
        exact h
      · right
        obtain ⟨p, hpl, hpa, hub⟩ := h
        have hple : p ≤ d.index_branch.getD fsi 0 := hub fsi hfsilt
        have hpne : p ≠ d.index_branch.getD fsi 0 := by
          intro hc
          have hpa' : BranchArc d fsi = ((n : Int)) := by
            unfold BranchArc
            rw [← hc]
            exact hpa
          rw [← hpa'] at hfl
          omega
        have hplt : p < d.index_branch.getD fsi 0 := by omega
        unfold SrcWitness
        refine ⟨p, ?_, ?_, ?_⟩
        · rw [hstklen]
          omega
        · rw [hstk_getD p hplt]
          exact hpa
        · intro j' hj'l
          rw [hiblen] at hj'l
          rw [hib_getD j' hj'l]
          exact hub j' (by omega)
    · -- closure
      intro a ha hfl hst hts
      rw [hframe.1] at hst
      rw [hframe.1]
      exact hD.closure a ha (hflowmono _ (IsArcDirect_coe ha) hfl) hst hts
    · -- respect
      rw [hframe.1, hframe.2]
      exact RespectAux_mono g d.st pb.1.st source sink
        (fun a ha hf => hflowmono _ (IsArcDirect_coe ha) hf) _ _ hD.respect
  · -- no break: the saturated back arc is cancelled in place
    refine ⟨fun hc => by rw [hb2] at hc; exact Bool.noConfusion hc,
      fun _ => ⟨?_, hstk, hib⟩⟩
    have hnlt : ¬ fsi < d.index_branch.length := by omega
    have hmflow : m = Flow g d.st arc := (hprops.2.2.2 hnlt).1
    have hveq : ∀ v, pb.1.visited v = d.visited v := by
      intro v
      apply bool_eq_of_false_iff
      rw [hvis v]
      constructor
      · rintro (h | ⟨i, ⟨h1, h2⟩, h3, _⟩)
        · exact h
        · omega
      · exact Or.inl
    have hBA : ∀ i, BranchArc pb.1 i = BranchArc d i :=
      BranchArc_congr hstk hib
    have hBH : ∀ i, BranchHead g pb.1 i = BranchHead g d i :=
      BranchHead_congr g hstk hib
    have hFarc : Flow g pb.1.st arc = 0 := by
      have h1 := hflowcc arc harcdir
      rw [if_pos (List.mem_cons_self _ _)] at h1
      omega
    refine ⟨hInv', ?_, ?_, ?_, ?_, ?_, ?_, ?_, ?_, ?_, ?_, ?_, ?_, ?_, ?_,
      ?_, ?_, ?_, ?_, ?_, ?_, ?_, ?_, ?_⟩
    · -- stack_dir
      intro a ha
      rw [hstk] at ha
      exact hD.stack_dir a ha
    · -- head_ne_source
      intro a ha
      rw [hstk] at ha
      exact hD.head_ne_source a ha
    · -- ib_lt
      intro q hq
      rw [hib] at hq
      rw [hstk]
      exact hD.ib_lt q hq
    · -- ib_sorted
      rw [hib]
      exact hD.ib_sorted
    · -- stack_tail
      intro p hp
      rw [hstk] at hp
      simp only [hstk, hib, hBH]
      exact hD.stack_tail p hp
    · -- stored_sink
      rw [hframe.1]
      exact hD.stored_sink
    · -- visited_sink
      rw [hveq sink]
      exact hD.visited_sink
    · -- visited_source
      rw [hveq source]
      exact hD.visited_source
    · -- stored_source
      rw [hframe.1]
      exact hD.stored_source
    · -- rto_iff
      intro v
      rw [hframe.1, hframe.2]
      exact hD.rto_iff v
    · -- rto_nodup
      rw [hframe.2]
      exact hD.rto_nodup
    · -- rto_lt
      intro v hv
      rw [hframe.2] at hv
      exact hD.rto_lt v hv
    · -- rto_ne_source
      intro v hv
      rw [hframe.2] at hv
      exact hD.rto_ne_source v hv
    · -- stored_visited
      intro v hv
      rw [hframe.1] at hv
      rw [hveq v]
      exact hD.stored_visited v hv
    · -- bh_visited
      intro i hi
      rw [hib] at hi
      rw [hBH i, hveq (BranchHead g d i)]
      exact hD.bh_visited i hi
    · -- bh_not_stored
      intro i hi
      rw [hib] at hi
      rw [hframe.1, hBH i]
      exact hD.bh_not_stored i hi
    · -- bh_distinct
      intro i j hi hj hij
      rw [hib] at hi hj
      rw [hBH i, hBH j]
      exact hD.bh_distinct i j hi hj hij
    · -- visited_class
      intro v hv
      rw [hveq v] at hv
      rcases hD.visited_class v hv with h | h | h | ⟨i, hi, hbh⟩
      · exact Or.inl h
      · exact Or.inr (Or.inl h)
      · exact Or.inr (Or.inr (Or.inl (by rw [hframe.1]; exact h)))
      · exact Or.inr (Or.inr (Or.inr ⟨i, by rw [hib]; exact hi,
          by rw [hBH i]; exact hbh⟩))
    · -- pending_ok
      intro p hp hpnotin hvh
      rw [hstk] at hp
      rw [hib] at hpnotin
      rw [hstk] at hvh
      rw [hveq (Head g (d.arc_stack.getD p 0))] at hvh
      rcases hD.pending_ok p hp hpnotin hvh with h | ⟨j, hj, hbh, hpj⟩
      · left
        rw [hframe.1, hstk]
        exact h
      · right
        refine ⟨j, by rw [hib]; exact hj, ?_, by rw [hib]; exact hpj⟩
        rw [hBH j, hstk]
        exact hbh
    · -- seg
      intro j hj a hamem hfl
      rw [hib] at hj
      rw [hBH j] at hamem
      rcases mem_OutgoingArcs hamem with ⟨n, rfl, hn, htn⟩
      have hadir : IsArcDirect g ((n : Int)) = true := IsArcDirect_coe hn
      have hflo : 0 < Flow g d.st ((n : Int)) := hflowmono _ hadir hfl
      rcases hD.seg j hj _ hamem hflo with h | h | ⟨hj1, hmem2⟩
      · left
        rw [hframe.1]
        exact h
      · right
        left
        exact (SegWitness_congr hstk hib j _).2 h
      · rcases List.mem_cons.1 hmem2 with heq | hmem3
        · exfalso
          rw [heq] at hfl
          omega
        · right
          right
          refine ⟨?_, hmem3⟩
          rw [hib]
          exact hj1
    · -- src_seg
      intro a hamem hfl
      rcases mem_OutgoingArcs hamem with ⟨n, rfl, hn, htn⟩
      have hadir : IsArcDirect g ((n : Int)) = true := IsArcDirect_coe hn
      have hflo : 0 < Flow g d.st ((n : Int)) := hflowmono _ hadir hfl
      rcases hD.src_seg _ hamem hflo with h | h
      · left
        rw [hframe.1]
        exact h
      · right
        exact (SrcWitness_congr hstk hib _).2 h
    · -- closure
      intro a ha hfl hst hts
      rw [hframe.1] at hst
      rw [hframe.1]
      exact hD.closure a ha (hflowmono _ (IsArcDirect_coe ha) hfl) hst hts
    · -- respect
      rw [hframe.1, hframe.2]
      exact RespectAux_mono g d.st pb.1.st source sink
        (fun a ha hf => hflowmono _ (IsArcDirect_coe ha) hf) _ _ hD.respect

/-- Pushing a positive-flow arc towards an unvisited head onto the arc
stack preserves the `for`-loop invariant with the remaining pending arcs. -/
theorem DInvP_push {g : FlowGraph} {source sink : Nat} {arc : Int}
    {rest : List Int} {d d' : DfsState} {node : Nat}
    (hD : DInvP g source sink (arc :: rest) d)
    (hk : d.index_branch ≠ [])
    (hnode : node = BranchHead g d (d.index_branch.length - 1))
    (htailarc : Tail g arc = node)
    (harcdir : IsArcDirect g arc = true)
    (hvisF : d.visited (Head g arc) = false)
    (hst : d'.st = d.st) (hstored : d'.stored = d.stored)
    (hvis : d'.visited = d.visited)
    (hstack : d'.arc_stack = d.arc_stack ++ [arc])
    (hib : d'.index_branch = d.index_branch)
    (hrto : d'.reverse_topological_order = d.reverse_topological_order) :
    DInvP g source sink rest d' := by
  have hlen0 : 0 < d.index_branch.length := List.length_pos.2 hk
  have hstacklen : d'.arc_stack.length = d.arc_stack.length + 1 := by
    rw [hstack, List.length_append, List.length_singleton]
  have hhns : Head g arc ≠ source := by
    intro hc
    rw [hc, hD.visited_source] at hvisF
    exact Bool.noConfusion hvisF
  have hgetDold : ∀ p, p < d.arc_stack.length →
      d'.arc_stack.getD p 0 = d.arc_stack.getD p 0 := by
    intro p hp
    rw [hstack]
    exact getD_append_left _ _ _ _ hp
  have hgetDnew : d'.arc_stack.getD d.arc_stack.length 0 = arc := by
    rw [hstack]
    exact getD_append_last _ _ _
  have hBA : ∀ i, i < d.index_branch.length →
      BranchArc d' i = BranchArc d i := by
    intro i hi
    unfold BranchArc
    rw [hib]
    exact hgetDold _ (hD.ib_lt _ (getD_mem hi))
  have hBH : ∀ i, i < d.index_branch.length →
      BranchHead g d' i = BranchHead g d i := by
    intro i hi
    unfold BranchHead
    rw [hBA i hi]
  refine ⟨?_, ?_, ?_, ?_, ?_, ?_, ?_, ?_, ?_, ?_, ?_, ?_, ?_, ?_, ?_, ?_,
    ?_, ?_, ?_, ?_, ?_, ?_, ?_, ?_⟩
  · -- inv
    rw [hst]
    exact hD.inv
  · -- stack_dir
    intro a ha
    rw [hstack] at ha
    rcases List.mem_append.1 ha with h | h
    · exact hD.stack_dir a h
    · rw [List.mem_singleton.1 h]
      exact harcdir
  · -- head_ne_source
    intro a ha
    rw [hstack] at ha
    rcases List.mem_append.1 ha with h | h
    · exact hD.head_ne_source a h
    · rw [List.mem_singleton.1 h]
      exact hhns
  · -- ib_lt
    intro q hq
    rw [hib] at hq
    rw [hstacklen]
    have := hD.ib_lt q hq
    omega
  · -- ib_sorted
    rw [hib]
    exact hD.ib_sorted
  · -- stack_tail
    intro p hp
    rw [hstacklen] at hp
    rcases Nat.lt_or_ge p d.arc_stack.length with hplt | hpge
    · rw [hgetDold p hplt]
      rcases hD.stack_tail p hplt with ⟨h1, h2⟩ | ⟨j, hj, hlt2, htl, hub⟩
      · left
        refine ⟨?_, h2⟩
        intro j hjl
        rw [hib] at hjl ⊢
        exact h1 j hjl
      · right
        refine ⟨j, by rw [hib]; exact hj, by rw [hib]; exact hlt2,
          by rw [hBH j hj]; exact htl, ?_⟩
        intro j' hjj' hj'l
        rw [hib] at hj'l ⊢
        exact hub j' hjj' hj'l
    · have hpeq : p = d.arc_stack.length := by omega
      rw [hpeq, hgetDnew]
      right
      refine ⟨d.index_branch.length - 1, by rw [hib]; omega, ?_, ?_, ?_⟩
      · rw [hib]
        exact hD.ib_lt _ (getD_mem (show d.index_branch.length - 1 <
          d.index_branch.length by omega))
      · rw [hBH _ (show d.index_branch.length - 1 <
          d.index_branch.length by omega)]
        rw [htailarc, hnode]
      · intro j' hjj' hj'l
        rw [hib] at hj'l
        omega
  · -- stored_sink
    rw [hstored]
    exact hD.stored_sink
  · -- visited_sink
    rw [hvis]
    exact hD.visited_sink
  · -- visited_source
    rw [hvis]
    exact hD.visited_source
  · -- stored_source
    rw [hstored]
    exact hD.stored_source
  · -- rto_iff
    intro v
    rw [hrto, hstored]
    exact hD.rto_iff v
  · -- rto_nodup
    rw [hrto]
    exact hD.rto_nodup
  · -- rto_lt
    intro v hv
    rw [hrto] at hv
    exact hD.rto_lt v hv
  · -- rto_ne_source
    intro v hv
    rw [hrto] at hv
    exact hD.rto_ne_source v hv
  · -- stored_visited
    intro v hv
    rw [hstored] at hv
    rw [hvis]
    exact hD.stored_visited v hv
  · -- bh_visited
    intro i hi
    rw [hib] at hi
    rw [hvis, hBH i hi]
    exact hD.bh_visited i hi
  · -- bh_not_stored
    intro i hi
    rw [hib] at hi
    rw [hstored, hBH i hi]
    exact hD.bh_not_stored i hi
  · -- bh_distinct
    intro i j hi hj hij
    rw [hib] at hi hj
    rw [hBH i hi, hBH j hj]
    exact hD.bh_distinct i j hi hj hij
  · -- visited_class
    intro v hv
    rw [hvis] at hv
    rcases hD.visited_class v hv with h | h | h | ⟨i, hi, hbh⟩
    · exact Or.inl h
    · exact Or.inr (Or.inl h)
    · exact Or.inr (Or.inr (Or.inl (by rw [hstored]; exact h)))
    · exact Or.inr (Or.inr (Or.inr ⟨i, by rw [hib]; exact hi,
        by rw [hBH i hi]; exact hbh⟩))
  · -- pending_ok
    intro p hp hpnotin hvh
    rw [hstacklen] at hp
    rw [hib] at hpnotin
    rcases Nat.lt_or_ge p d.arc_stack.length with hplt | hpge
    · rw [hgetDold p hplt, hvis] at hvh
      rcases hD.pending_ok p hplt hpnotin hvh with h | ⟨j, hj, hbh, hpj⟩
      · left
        rw [hstored, hgetDold p hplt]
        exact h
      · right
        refine ⟨j, by rw [hib]; exact hj, ?_, by rw [hib]; exact hpj⟩
        rw [hBH j hj, hgetDold p hplt]
        exact hbh
    · have hpeq : p = d.arc_stack.length := by omega
      rw [hpeq, hgetDnew, hvis] at hvh
      rw [hvisF] at hvh
      exact Bool.noConfusion hvh
  · -- seg
    intro j hj a hamem hfl
    rw [hib] at hj
    rw [hBH j hj] at hamem
    rw [hst] at hfl
    rcases hD.seg j hj a hamem hfl with h | h | ⟨hj1, hmem2⟩
    · left
      rw [hstored]
      exact h
    · right
      left
      obtain ⟨p, hpl, hpa, hlb, hub⟩ := h
      unfold SegWitness
      refine ⟨p, ?_, ?_, ?_, ?_⟩
      · rw [hstacklen]
        omega
      · rw [hgetDold p hpl]
        exact hpa
      · rw [hib]
        exact hlb
      · intro j' hjj' hj'l
        rw [hib] at hj'l ⊢
        exact hub j' hjj' hj'l
    · rcases List.mem_cons.1 hmem2 with heq | hmem3
      · right
        left
        unfold SegWitness
        refine ⟨d.arc_stack.length, ?_, ?_, ?_, ?_⟩
        · rw [hstacklen]
          omega
        · rw [hgetDnew, heq]
        · rw [hib]
          exact hD.ib_lt _ (getD_mem (show j < d.index_branch.length
            from hj))
        · intro j' hjj' hj'l
          rw [hib] at hj'l
          omega
      · right
        right
        exact ⟨by rw [hib]; exact hj1, hmem3⟩
  · -- src_seg
    intro a hamem hfl
    rw [hst] at hfl
    rcases hD.src_seg a hamem hfl with h | h
    · left
      rw [hstored]
      exact h
    · right
      obtain ⟨p, hpl, hpa, hub⟩ := h
      unfold SrcWitness
      refine ⟨p, ?_, ?_, ?_⟩
      · rw [hstacklen]
        omega
      · rw [hgetDold p hpl]
        exact hpa
      · intro j' hj'l
        rw [hib] at hj'l ⊢
        exact hub j' hj'l
  · -- closure
    intro a ha hfl hst2 hts
    rw [hst] at hfl
    rw [hstored] at hst2 ⊢
    exact hD.closure a ha hfl hst2 hts
  · -- respect
    rw [hst, hstored, hrto]
    exact hD.respect

/-- Skipping a pending arc whose `for`-loop guard fails preserves the
invariant: if the arc still carries flow its head must be stored. -/
theorem DInvP_drop {g : FlowGraph} {source sink : Nat} {arc : Int}
    {rest : List Int} {d : DfsState}
    (hD : DInvP g source sink (arc :: rest) d)
    (hcond : ¬(Flow g d.st arc > 0 ∧ d.stored (Head g arc) = false)) :
    DInvP g source sink rest d := by
  refine ⟨hD.inv, hD.stack_dir, hD.head_ne_source, hD.ib_lt, hD.ib_sorted,
    hD.stack_tail, hD.stored_sink, hD.visited_sink, hD.visited_source,
    hD.stored_source, hD.rto_iff, hD.rto_nodup, hD.rto_lt, hD.rto_ne_source,
    hD.stored_visited, hD.bh_visited, hD.bh_not_stored, hD.bh_distinct,
    hD.visited_class, hD.pending_ok, ?_, hD.src_seg, hD.closure, hD.respect⟩
  intro j hj a hamem hfl
  rcases hD.seg j hj a hamem hfl with h | h | ⟨hj1, hmem2⟩
  · exact Or.inl h
  · exact Or.inr (Or.inl h)
  · rcases List.mem_cons.1 hmem2 with heq | hmem3
    · left
      rw [heq]
      rcases Bool.eq_false_or_eq_true (d.stored (Head g arc)) with h2 | h2
      · exact h2
      · exact absurd ⟨by rw [heq] at hfl; exact hfl, h2⟩ hcond
    · exact Or.inr (Or.inr ⟨hj1, hmem3⟩)

theorem DfsExploreArcs_cons (g : FlowGraph) (node : Nat) (arc : Int)
    (rest : List Int) (d : DfsState) :
    DfsExploreArcs g node (arc :: rest) d =
      if Flow g d.st arc > 0 ∧ d.stored (Head g arc) = false then
        if d.visited (Head g arc) = false then
          DfsExploreArcs g node rest
            { d with arc_stack := d.arc_stack ++ [arc] }
        else if (CancelCycle g node arc (Flow g d.st arc)
            (Head g arc) d).2 then
          (CancelCycle g node arc (Flow g d.st arc) (Head g arc) d).1
        else
          DfsExploreArcs g node rest
            (CancelCycle g node arc (Flow g d.st arc) (Head g arc) d).1
      else DfsExploreArcs g node rest d := rfl

/-- The `for` loop over the pending outgoing arcs of the current node
preserves the DFS invariant, and neither the node excesses nor the stored
set nor the reverse topological order change. -/
theorem DfsExploreArcs_inv {g : FlowGraph} {source sink node : Nat} :
    ∀ (pending : List Int) (d : DfsState),
    DInvP g source sink pending d →
    d.index_branch ≠ [] →
    node = BranchHead g d (d.index_branch.length - 1) →
    (∀ e ∈ pending, e ∈ OutgoingArcs g node) →
    DInv g source sink (DfsExploreArcs g node pending d) ∧
    (∀ v, (DfsExploreArcs g node pending d).st.node_excess v =
      d.st.node_excess v) ∧
    (DfsExploreArcs g node pending d).stored = d.stored ∧
    (DfsExploreArcs g node pending d).reverse_topological_order =
      d.reverse_topological_order := by
  intro pending
  induction pending with
  | nil =>
    intro d hD _ _ _
    exact ⟨hD, fun v => rfl, rfl, rfl⟩
  | cons arc rest ih =>
    intro d hD hk hnode hmem
    have hlen0 : 0 < d.index_branch.length := List.length_pos.2 hk
    have harcout : arc ∈ OutgoingArcs g node :=
      hmem arc (List.mem_cons_self _ _)
    rcases mem_OutgoingArcs harcout with ⟨n, ha_eq, hn, htn⟩
    have htailarc : Tail g arc = node := by
      rw [ha_eq, Tail_coe]
      exact htn
    have harcdir : IsArcDirect g arc = true := by
      rw [ha_eq]
      exact IsArcDirect_coe hn
    have hmem' : ∀ e ∈ rest, e ∈ OutgoingArcs g node :=
      fun e he => hmem e (List.mem_cons_of_mem _ he)
    rw [DfsExploreArcs_cons]
    by_cases h1 : Flow g d.st arc > 0 ∧ d.stored (Head g arc) = false
    · rw [if_pos h1]
      by_cases h2 : d.visited (Head g arc) = false
      · rw [if_pos h2]
        obtain ⟨d2, hd2⟩ : ∃ d2, d2 =
            ({ d with arc_stack := d.arc_stack ++ [arc] } : DfsState) :=
          ⟨_, rfl⟩
        rw [← hd2]
        have h2st : d2.st = d.st := by rw [hd2]
        have h2stored : d2.stored = d.stored := by rw [hd2]
        have h2vis : d2.visited = d.visited := by rw [hd2]
        have h2stack : d2.arc_stack = d.arc_stack ++ [arc] := by rw [hd2]
        have h2ib : d2.index_branch = d.index_branch := by rw [hd2]
        have h2rto : d2.reverse_topological_order =
            d.reverse_topological_order := by rw [hd2]
        have hD' := DInvP_push hD hk hnode htailarc harcdir h2 h2st
          h2stored h2vis h2stack h2ib h2rto
        have hk' : d2.index_branch ≠ [] := by
          rw [h2ib]
          exact hk
        have hnode' : node = BranchHead g d2
            (d2.index_branch.length - 1) := by
          rw [h2ib]
          have hBH2 : BranchHead g d2 (d.index_branch.length - 1) =
              BranchHead g d (d.index_branch.length - 1) := by
            unfold BranchHead BranchArc
            rw [h2stack, h2ib]
            rw [getD_append_left _ _ _ _
              (hD.ib_lt _ (getD_mem (show d.index_branch.length - 1 <
                d.index_branch.length by omega)))]
          rw [hBH2]
          exact hnode
        obtain ⟨hre1, hre2, hre3, hre4⟩ := ih d2 hD' hk' hnode' hmem'
        exact ⟨hre1, fun v => by rw [hre2 v, h2st],
          by rw [hre3, h2stored], by rw [hre4, h2rto]⟩
      · rw [if_neg h2]
        have hvisT : d.visited (Head g arc) = true := by
          rcases Bool.eq_false_or_eq_true (d.visited (Head g arc)) with h | h
          · exact h
          · exact absurd h h2
        obtain ⟨⟨hbreak, hnobreak⟩, hexc, hstf, hrtof⟩ :=
          DfsCancelStep hD hk hnode htailarc harcdir h1.2 hvisT
            (CancelCycle g node arc (Flow g d.st arc) (Head g arc) d) rfl
        by_cases h3 : (CancelCycle g node arc (Flow g d.st arc)
            (Head g arc) d).2 = true
        · rw [if_pos h3]
          exact ⟨hbreak h3, hexc, hstf, hrtof⟩
        · rw [if_neg h3]
          have hbF : (CancelCycle g node arc (Flow g d.st arc)
              (Head g arc) d).2 = false := by
            rcases Bool.eq_false_or_eq_true ((CancelCycle g node arc
                (Flow g d.st arc) (Head g arc) d).2) with h | h
            · exact absurd h h3
            · exact h
          obtain ⟨hD2, hstk2, hib2⟩ := hnobreak hbF
          have hk2 : (CancelCycle g node arc (Flow g d.st arc)
              (Head g arc) d).1.index_branch ≠ [] := by
            rw [hib2]
            exact hk
          have hnode2 : node = BranchHead g
              (CancelCycle g node arc (Flow g d.st arc) (Head g arc) d).1
              ((CancelCycle g node arc (Flow g d.st arc)
                (Head g arc) d).1.index_branch.length - 1) := by
            rw [hib2, BranchHead_congr g hstk2 hib2]
            exact hnode
          obtain ⟨hre1, hre2, hre3, hre4⟩ := ih _ hD2 hk2 hnode2 hmem'
          refine ⟨hre1, fun v => ?_, ?_, ?_⟩
          · rw [hre2 v, hexc v]
          · rw [hre3, hstf]
          · rw [hre4, hrtof]
    · rw [if_neg h1]
      exact ih d (DInvP_drop hD h1) hk hnode hmem'

theorem getLast?_getD {α : Type} {l : List α} {a : α} (d : α)
    (h : l.getLast? = some a) : l ≠ [] ∧ l.getD (l.length - 1) d = a := by
  have hne : l ≠ [] := by
    intro hc
    rw [hc] at h
    exact Option.noConfusion h
  refine ⟨hne, ?_⟩
  have h1 : some (l.getLast hne) = some a := by
    rw [← List.getLast?_eq_getLast l hne]
    exact h
  have h2 : l.getLast hne = a := Option.some.inj h1
  rw [← h2, List.getLast_eq_getElem l hne,
    List.getD_eq_getElem l d (show l.length - 1 < l.length by
      have := List.length_pos.2 hne
      omega)]

theorem nodup_append_singleton {α : Type} {l : List α} {x : α}
    (h : l.Nodup) (hx : x ∉ l) : (l ++ [x]).Nodup := by
  rw [List.nodup_append]
  refine ⟨h, List.nodup_singleton x, ?_⟩
  intro a ha hmem
  rw [List.mem_singleton] at hmem
  rw [hmem] at ha
  exact hx ha

theorem mem_append_singleton {α : Type} {l : List α} {x a : α} :
    a ∈ l ++ [x] ↔ (a ∈ l ∨ a = x) := by
  rw [List.mem_append, List.mem_singleton]

/-- Popping the top arc when its head is visited but not yet stored: the
head is appended to the reverse topological order, marked stored, and the
deepest branch entry is dropped together with the top of the arc stack. -/
theorem DInv_pop_store {g : FlowGraph} {source sink : Nat} {d d' : DfsState}
    {back_arc : Int}
    (hD : DInv g source sink d)
    (hlast : d.arc_stack.getLast? = some back_arc)
    (hvisT : d.visited (Head g back_arc) = true)
    (hstF : d.stored (Head g back_arc) = false)
    (hst : d'.st = d.st)
    (hstored : d'.stored = Function.update d.stored (Head g back_arc) true)
    (hvis : d'.visited = d.visited)
    (hstack : d'.arc_stack = d.arc_stack.dropLast)
    (hib : d'.index_branch = d.index_branch.dropLast)
    (hrto : d'.reverse_topological_order =
      d.reverse_topological_order ++ [Head g back_arc]) :
    DInv g source sink d' := by
  obtain ⟨hsne, hgetlast⟩ := getLast?_getD (0 : Int) hlast
  have hslen : 0 < d.arc_stack.length := List.length_pos.2 hsne
  have hpmem : d.arc_stack.length - 1 ∈ d.index_branch := by
    by_contra hnot
    have h1 := hD.pending_ok (d.arc_stack.length - 1) (by omega) hnot
      (by rw [hgetlast]; exact hvisT)
    rcases h1 with h | ⟨j, hj, hbh, hpj⟩
    · rw [hgetlast, hstF] at h
      exact Bool.noConfusion h
    · have := hD.ib_lt (d.index_branch.getD j 0) (getD_mem hj)
      omega
  have hknil : d.index_branch ≠ [] := by
    intro hc
    rw [hc] at hpmem
    exact List.not_mem_nil _ hpmem
  have hlen0 : 0 < d.index_branch.length := List.length_pos.2 hknil
  have hlastib : d.index_branch.getD (d.index_branch.length - 1) 0 =
      d.arc_stack.length - 1 := by
    rcases List.mem_iff_getElem.1 hpmem with ⟨j, hjlen, hje⟩
    have hje' : d.index_branch.getD j 0 = d.arc_stack.length - 1 := by
      rw [List.getD_eq_getElem _ 0 hjlen]
      exact hje
    have h1 : d.index_branch.getD (d.index_branch.length - 1) 0 <
        d.arc_stack.length :=
      hD.ib_lt _ (getD_mem (by omega))
    rcases Nat.eq_or_lt_of_le (show j ≤ d.index_branch.length - 1 by omega)
      with heq | hlt
    · rw [← heq]
      exact hje'
    · have := sorted_getD_lt hD.ib_sorted (show d.index_branch.length - 1 <
        d.index_branch.length by omega) hlt
      omega
  have hnodebh : Head g back_arc = BranchHead g d
      (d.index_branch.length - 1) := by
    unfold BranchHead BranchArc
    rw [hlastib, hgetlast]
  have hnode_ne_sink : Head g back_arc ≠ sink := by
    intro hc
    rw [hc, hD.stored_sink] at hstF
    exact Bool.noConfusion hstF
  have hnode_ne_source : Head g back_arc ≠ source := by
    rw [hnodebh]
    exact DInvP_bh_ne_source hD (by omega)
  have hnode_lt : Head g back_arc < g.numNodes := by
    rw [hnodebh]
    exact DInvP_bh_lt hD (by omega)
  have hnode_notin_rto : Head g back_arc ∉
      d.reverse_topological_order := by
    intro hc
    have h1 := ((hD.rto_iff _).1 hc).1
    rw [h1] at hstF
    exact Bool.noConfusion hstF
  have hstklen : d'.arc_stack.length = d.arc_stack.length - 1 := by
    rw [hstack]
    exact List.length_dropLast _
  have hiblen : d'.index_branch.length = d.index_branch.length - 1 := by
    rw [hib]
    exact List.length_dropLast _
  have hib_getD : ∀ j, j < d.index_branch.length - 1 →
      d'.index_branch.getD j 0 = d.index_branch.getD j 0 := by
    intro j hj
    rw [hib]
    exact getD_dropLast _ _ _ hj
  have hstk_getD : ∀ p, p < d.arc_stack.length - 1 →
      d'.arc_stack.getD p 0 = d.arc_stack.getD p 0 := by
    intro p hp
    rw [hstack]
    exact getD_dropLast _ _ _ hp
  have hibval_lt : ∀ j, j < d.index_branch.length - 1 →
      d.index_branch.getD j 0 < d.arc_stack.length - 1 := by
    intro j hj
    have h1 := sorted_getD_lt hD.ib_sorted
      (show d.index_branch.length - 1 < d.index_branch.length by omega) hj
    omega
  have hBA : ∀ j, j < d.index_branch.length - 1 →
      BranchArc d' j = BranchArc d j := by
    intro j hj
    unfold BranchArc
    rw [hib_getD j hj]
    exact hstk_getD _ (hibval_lt j hj)
  have hBH : ∀ j, j < d.index_branch.length - 1 →
      BranchHead g d' j = BranchHead g d j := by
    intro j hj
    unfold BranchHead
    rw [hBA j hj]
  have hstored_mono : ∀ v, d.stored v = true → d'.stored v = true := by
    intro v hv
    rw [hstored]
    by_cases hc : v = Head g back_arc
    · rw [hc, Function.update_same]
    · rw [Function.update_noteq hc]
      exact hv
  have hstored_node : d'.stored (Head g back_arc) = true := by
    rw [hstored, Function.update_same]
  have hstored_other : ∀ v, v ≠ Head g back_arc →
      d'.stored v = d.stored v := by
    intro v hv
    rw [hstored]
    exact Function.update_noteq hv _ _
  refine ⟨?_, ?_, ?_, ?_, ?_, ?_, ?_, ?_, ?_, ?_, ?_, ?_, ?_, ?_, ?_, ?_,
    ?_, ?_, ?_, ?_, ?_, ?_, ?_, ?_⟩
  · -- inv
    rw [hst]
    exact hD.inv
  · -- stack_dir
    intro a ha
    rw [hstack] at ha
    exact hD.stack_dir a ((List.dropLast_sublist _).subset ha)
  · -- head_ne_source
    intro a ha
    rw [hstack] at ha
    exact hD.head_ne_source a ((List.dropLast_sublist _).subset ha)
  · -- ib_lt
    intro q hq
    rw [hib, List.dropLast_eq_take] at hq
    rcases mem_take_getD 0 hq with ⟨j, hjlt, hjlen, hjq⟩
    have := hibval_lt j hjlt
    rw [hstklen]
    omega
  · -- ib_sorted
    rw [hib, List.dropLast_eq_take]
    exact List.Pairwise.sublist (List.take_sublist _ _) hD.ib_sorted
  · -- stack_tail
    intro p hp
    rw [hstklen] at hp
    have hplt : p < d.arc_stack.length := by omega
    rw [hstk_getD p hp]
    rcases hD.stack_tail p hplt with ⟨h1, h2⟩ | ⟨j, hj, hlt2, htl, hub⟩
    · left
      refine ⟨?_, h2⟩
      intro j hjl
      rw [hiblen] at hjl
      rw [hib_getD j hjl]
      exact h1 j (by omega)
    · right
      have hjlt : j < d.index_branch.length - 1 := by
        rcases Nat.lt_or_ge j (d.index_branch.length - 1) with h | h
        · exact h
        · have hje : j = d.index_branch.length - 1 := by omega
          rw [hje, hlastib] at hlt2
          omega
      refine ⟨j, ?_, ?_, ?_, ?_⟩
      · rw [hiblen]
        exact hjlt
      · rw [hib_getD j hjlt]
        exact hlt2
      · rw [hBH j hjlt]
        exact htl
      · intro j' hjj' hj'l
        rw [hiblen] at hj'l
        rw [hib_getD j' hj'l]
        exact hub j' hjj' (by omega)
  · -- stored_sink
    rw [hstored, Function.update_noteq (Ne.symm hnode_ne_sink)]
    exact hD.stored_sink
  · -- visited_sink
    rw [hvis]
    exact hD.visited_sink
  · -- visited_source
    rw [hvis]
    exact hD.visited_source
  · -- stored_source
    rw [hstored, Function.update_noteq (Ne.symm hnode_ne_source)]
    exact hD.stored_source
  · -- rto_iff
    intro v
    rw [hrto, hstored, mem_append_singleton]
    by_cases hc : v = Head g back_arc
    · rw [hc]
      constructor
      · intro _
        refine ⟨?_, hnode_ne_sink⟩
        rw [Function.update_same]
      · intro _
        exact Or.inr rfl
    · rw [Function.update_noteq hc]
      constructor
      · intro h
        rcases h with h | h
        · exact (hD.rto_iff v).1 h
        · exact absurd h hc
      · intro h
        exact Or.inl ((hD.rto_iff v).2 h)
  · -- rto_nodup
    rw [hrto]
    exact nodup_append_singleton hD.rto_nodup hnode_notin_rto
  · -- rto_lt
    intro v hv
    rw [hrto] at hv
    rcases mem_append_singleton.1 hv with h | h
    · exact hD.rto_lt v h
    · rw [h]
      exact hnode_lt
  · -- rto_ne_source
    intro v hv
    rw [hrto] at hv
    rcases mem_append_singleton.1 hv with h | h
    · exact hD.rto_ne_source v h
    · rw [h]
      exact hnode_ne_source
  · -- stored_visited
    intro v hv
    rw [hvis]
    by_cases hc : v = Head g back_arc
    · rw [hc]
      exact hvisT
    · rw [hstored_other v hc] at hv
      exact hD.stored_visited v hv
  · -- bh_visited
    intro i hi
    rw [hiblen] at hi
    rw [hvis, hBH i hi]
    exact hD.bh_visited i (by omega)
  · -- bh_not_stored
    intro i hi
    rw [hiblen] at hi
    rw [hBH i hi]
    have hne : BranchHead g d i ≠ Head g back_arc := by
      rw [hnodebh]
      exact hD.bh_distinct i (d.index_branch.length - 1) (by omega)
        (by omega) (by omega)
    rw [hstored_other _ hne]
    exact hD.bh_not_stored i (by omega)
  · -- bh_distinct
    intro i j hi hj hij
    rw [hiblen] at hi hj
    rw [hBH i hi, hBH j hj]
    exact hD.bh_distinct i j (by omega) (by omega) hij
  · -- visited_class
    intro v hv
    rw [hvis] at hv
    rcases hD.visited_class v hv with h | h | h | ⟨i, hi, hbh⟩
    · exact Or.inl h
    · exact Or.inr (Or.inl h)
    · exact Or.inr (Or.inr (Or.inl (hstored_mono v h)))
    · rcases Nat.lt_or_ge i (d.index_branch.length - 1) with hilt | hige
      · exact Or.inr (Or.inr (Or.inr ⟨i, by rw [hiblen]; exact hilt,
          by rw [hBH i hilt]; exact hbh⟩))
      · have hie : i = d.index_branch.length - 1 := by omega
        refine Or.inr (Or.inr (Or.inl ?_))
        rw [← hbh, hie, ← hnodebh]
        exact hstored_node
  · -- pending_ok
    intro p hp hpnotin hvh
    rw [hstklen] at hp
    rw [hstk_getD p hp] at hvh ⊢
    rw [hvis] at hvh
    have hpnotin' : p ∉ d.index_branch := by
      intro hc
      rcases List.mem_iff_getElem.1 hc with ⟨j, hjlen, hje⟩
      have hje' : d.index_branch.getD j 0 = p := by
        rw [List.getD_eq_getElem _ 0 hjlen]
        exact hje
      rcases Nat.lt_or_ge j (d.index_branch.length - 1) with hjlt | hjge
      · apply hpnotin
        rw [hib, ← hje', ← getD_dropLast d.index_branch j 0 hjlt]
        exact getD_mem (by rw [List.length_dropLast]; omega)
      · have hje2 : j = d.index_branch.length - 1 := by omega
        rw [hje2, hlastib] at hje'
        omega
    rcases hD.pending_ok p (by omega) hpnotin' hvh with h | ⟨j, hj, hbh, hpj⟩
    · left
      exact hstored_mono _ h
    · rcases Nat.lt_or_ge j (d.index_branch.length - 1) with hjlt | hjge
      · right
        refine ⟨j, by rw [hiblen]; exact hjlt, ?_, ?_⟩
        · rw [hBH j hjlt]
          exact hbh
        · rw [hib_getD j hjlt]
          exact hpj
      · left
        have hje : j = d.index_branch.length - 1 := by omega
        rw [← hbh, hje, ← hnodebh]
        exact hstored_node
  · -- seg
    intro j hj a hamem hfl
    rw [hiblen] at hj
    rw [hBH j hj] at hamem
    rw [hst] at hfl
    rcases hD.seg j (by omega) a hamem hfl with h | h | ⟨hj1, hmem2⟩
    · exact Or.inl (hstored_mono _ h)
    · obtain ⟨p, hpl, hpa, hlb, hub⟩ := h
      have hple : p ≤ d.arc_stack.length - 1 := by omega
      rcases Nat.eq_or_lt_of_le hple with heq | hlt
      · left
        have ha_eq : a = back_arc := by
          rw [← hpa, heq]
          exact hgetlast
        rw [ha_eq]
        exact hstored_node
      · right
        left
        unfold SegWitness
        refine ⟨p, ?_, ?_, ?_, ?_⟩
        · rw [hstklen]
          omega
        · rw [hstk_getD p hlt]
          exact hpa
        · rw [hib_getD j hj]
          exact hlb
        · intro j' hjj' hj'l
          rw [hiblen] at hj'l
          rw [hib_getD j' hj'l]
          exact hub j' hjj' (by omega)
    · exact absurd hmem2 (List.not_mem_nil a)
  · -- src_seg
    intro a hamem hfl
    rw [hst] at hfl
    rcases hD.src_seg a hamem hfl with h | h
    · exact Or.inl (hstored_mono _ h)
    · obtain ⟨p, hpl, hpa, hub⟩ := h
      have hple : p ≤ d.arc_stack.length - 1 := by omega
      rcases Nat.eq_or_lt_of_le hple with heq | hlt
      · left
        have ha_eq : a = back_arc := by
          rw [← hpa, heq]
          exact hgetlast
        rw [ha_eq]
        exact hstored_node
      · right
        unfold SrcWitness
        refine ⟨p, ?_, ?_, ?_⟩
        · rw [hstklen]
          omega
        · rw [hstk_getD p hlt]
          exact hpa
        · intro j' hj'l
          rw [hiblen] at hj'l
          rw [hib_getD j' hj'l]
          exact hub j' (by omega)
  · -- closure
    intro a ha hfl hst2 hts
    rw [hst] at hfl
    by_cases hc : g.tails a = Head g back_arc
    · have hamem : ((a : Int)) ∈ OutgoingArcs g
          (BranchHead g d (d.index_branch.length - 1)) :=
        mem_OutgoingArcs_of ha (by rw [← hnodebh]; exact hc)
      rcases hD.seg (d.index_branch.length - 1) (by omega) _ hamem hfl
        with h | h | ⟨_, hmem2⟩
      · rw [Head_coe] at h
        exact hstored_mono _ h
      · exfalso
        obtain ⟨p, hpl, _, hlb, _⟩ := h
        rw [hlastib] at hlb
        omega
      · exact absurd hmem2 (List.not_mem_nil _)
    · rw [hstored_other _ hc] at hst2
      exact hstored_mono _ (hD.closure a ha hfl hst2 hts)
  · -- respect
    rw [hst, hstored, hrto]
    refine RespectAux_append g d.st source sink _ _ _ hD.respect ?_
    intro a ha hfl hh
    by_cases hts : g.tails a = source
    · exact Or.inl hts
    by_cases hts2 : g.tails a = sink
    · exact Or.inr (Or.inl hts2)
    by_cases hts3 : g.tails a = Head g back_arc
    · exact Or.inr (Or.inr (Or.inl hts3))
    refine Or.inr (Or.inr (Or.inr ⟨?_, hts3⟩))
    rcases Bool.eq_false_or_eq_true (d.stored (g.tails a)) with h | h
    · exfalso
      have h4 := hD.closure a ha hfl h hts2
      rw [hh, hstF] at h4
      exact Bool.noConfusion h4
    · exact h

/-- Popping the top arc when its head is already stored only shortens the
arc stack; no branch entry can point at the popped position. -/
theorem DInv_pop_skip {g : FlowGraph} {source sink : Nat} {d d' : DfsState}
    {back_arc : Int}
    (hD : DInv g source sink d)
    (hlast : d.arc_stack.getLast? = some back_arc)
    (hstT : d.stored (Head g back_arc) = true)
    (hst : d'.st = d.st) (hstored : d'.stored = d.stored)
    (hvis : d'.visited = d.visited)
    (hstack : d'.arc_stack = d.arc_stack.dropLast)
    (hib : d'.index_branch = d.index_branch)
    (hrto : d'.reverse_topological_order =
      d.reverse_topological_order) :
    DInv g source sink d' := by
  obtain ⟨hsne, hgetlast⟩ := getLast?_getD (0 : Int) hlast
  have hslen : 0 < d.arc_stack.length := List.length_pos.2 hsne
  have hpnotib : d.arc_stack.length - 1 ∉ d.index_branch := by
    intro hc
    rcases List.mem_iff_getElem.1 hc with ⟨j, hjlen, hje⟩
    have hje' : d.index_branch.getD j 0 = d.arc_stack.length - 1 := by
      rw [List.getD_eq_getElem _ 0 hjlen]
      exact hje
    have h1 := hD.bh_not_stored j hjlen
    have h2 : BranchHead g d j = Head g back_arc := by
      unfold BranchHead BranchArc
      rw [hje', hgetlast]
    rw [h2, hstT] at h1
    exact Bool.noConfusion h1
  have hibv_lt : ∀ j, j < d.index_branch.length →
      d.index_branch.getD j 0 < d.arc_stack.length - 1 := by
    intro j hj
    have h1 := hD.ib_lt (d.index_branch.getD j 0) (getD_mem hj)
    have h2 : d.index_branch.getD j 0 ≠ d.arc_stack.length - 1 := by
      intro hc
      rw [← hc] at hpnotib
      exact hpnotib (getD_mem hj)
    omega
  have hstklen : d'.arc_stack.length = d.arc_stack.length - 1 := by
    rw [hstack]
    exact List.length_dropLast _
  have hstk_getD : ∀ p, p < d.arc_stack.length - 1 →
      d'.arc_stack.getD p 0 = d.arc_stack.getD p 0 := by
    intro p hp
    rw [hstack]
    exact getD_dropLast _ _ _ hp
  have hBA : ∀ j, j < d.index_branch.length →
      BranchArc d' j = BranchArc d j := by
    intro j hj
    unfold BranchArc
    rw [hib]
    exact hstk_getD _ (hibv_lt j hj)
  have hBH : ∀ j, j < d.index_branch.length →
      BranchHead g d' j = BranchHead g d j := by
    intro j hj
    unfold BranchHead
    rw [hBA j hj]
  refine ⟨?_, ?_, ?_, ?_, ?_, ?_, ?_, ?_, ?_, ?_, ?_, ?_, ?_, ?_, ?_, ?_,
    ?_, ?_, ?_, ?_, ?_, ?_, ?_, ?_⟩
  · rw [hst]
    exact hD.inv
  · intro a ha
    rw [hstack] at ha
    exact hD.stack_dir a ((List.dropLast_sublist _).subset ha)
  · intro a ha
    rw [hstack] at ha
    exact hD.head_ne_source a ((List.dropLast_sublist _).subset ha)
  · intro q hq
    rw [hib] at hq
    rw [hstklen]
    rcases List.mem_iff_getElem.1 hq with ⟨j, hjlen, hje⟩
    have hje' : d.index_branch.getD j 0 = q := by
      rw [List.getD_eq_getElem _ 0 hjlen]
      exact hje
    have := hibv_lt j hjlen
    omega
  · rw [hib]
    exact hD.ib_sorted
  · intro p hp
    rw [hstklen] at hp
    rw [hstk_getD p hp]
    rcases hD.stack_tail p (by omega) with ⟨h1, h2⟩ | ⟨j, hj, hlt2, htl, hub⟩
    · left
      refine ⟨?_, h2⟩
      intro j hjl
      rw [hib] at hjl ⊢
      exact h1 j hjl
    · right
      refine ⟨j, by rw [hib]; exact hj, by rw [hib]; exact hlt2,
        by rw [hBH j hj]; exact htl, ?_⟩
      intro j' hjj' hj'l
      rw [hib] at hj'l ⊢
      exact hub j' hjj' hj'l
  · rw [hstored]
    exact hD.stored_sink
  · rw [hvis]
    exact hD.visited_sink
  · rw [hvis]
    exact hD.visited_source
  · rw [hstored]
    exact hD.stored_source
  · intro v
    rw [hrto, hstored]
    exact hD.rto_iff v
  · rw [hrto]
    exact hD.rto_nodup
  · intro v hv
    rw [hrto] at hv
    exact hD.rto_lt v hv
  · intro v hv
    rw [hrto] at hv
    exact hD.rto_ne_source v hv
  · intro v hv
    rw [hstored] at hv
    rw [hvis]
    exact hD.stored_visited v hv
  · intro i hi
    rw [hib] at hi
    rw [hvis, hBH i hi]
    exact hD.bh_visited i hi
  · intro i hi
    rw [hib] at hi
    rw [hstored, hBH i hi]
    exact hD.bh_not_stored i hi
  · intro i j hi hj hij
    rw [hib] at hi hj
    rw [hBH i hi, hBH j hj]
    exact hD.bh_distinct i j hi hj hij
  · intro v hv
    rw [hvis] at hv
    rcases hD.visited_class v hv with h | h | h | ⟨i, hi, hbh⟩
    · exact Or.inl h
    · exact Or.inr (Or.inl h)
    · exact Or.inr (Or.inr (Or.inl (by rw [hstored]; exact h)))
    · exact Or.inr (Or.inr (Or.inr ⟨i, by rw [hib]; exact hi,
        by rw [hBH i hi]; exact hbh⟩))
  · intro p hp hpnotin hvh
    rw [hstklen] at hp
    rw [hstk_getD p hp] at hvh ⊢
    rw [hvis] at hvh
    rw [hib] at hpnotin
    rcases hD.pending_ok p (by omega) hpnotin hvh with h | ⟨j, hj, hbh, hpj⟩
    · left
      rw [hstored]
      exact h
    · right
      refine ⟨j, by rw [hib]; exact hj, ?_, by rw [hib]; exact hpj⟩
      rw [hBH j hj]
      exact hbh
  · intro j hj a hamem hfl
    rw [hib] at hj
    rw [hBH j hj] at hamem
    rw [hst] at hfl
    rcases hD.seg j hj a hamem hfl with h | h | ⟨_, hmem2⟩
    · left
      rw [hstored]
      exact h
    · obtain ⟨p, hpl, hpa, hlb, hub⟩ := h
      have hple : p ≤ d.arc_stack.length - 1 := by omega
      rcases Nat.eq_or_lt_of_le hple with heq | hlt
      · left
        have ha_eq : a = back_arc := by
          rw [← hpa, heq]
          exact hgetlast
        rw [hstored, ha_eq]
        exact hstT
      · right
        left
        unfold SegWitness
        refine ⟨p, ?_, ?_, ?_, ?_⟩
        · rw [hstklen]
          omega
        · rw [hstk_getD p hlt]
          exact hpa
        · rw [hib]
          exact hlb
        · intro j' hjj' hj'l
          rw [hib] at hj'l ⊢
          exact hub j' hjj' hj'l
    · exact absurd hmem2 (List.not_mem_nil a)
  · intro a hamem hfl
    rw [hst] at hfl
    rcases hD.src_seg a hamem hfl with h | h
    · left
      rw [hstored]
      exact h
    · obtain ⟨p, hpl, hpa, hub⟩ := h
      have hple : p ≤ d.arc_stack.length - 1 := by omega
      rcases Nat.eq_or_lt_of_le hple with heq | hlt
      · left
        have ha_eq : a = back_arc := by
          rw [← hpa, heq]
          exact hgetlast
        rw [hstored, ha_eq]
        exact hstT
      · right
        unfold SrcWitness
        refine ⟨p, ?_, ?_, ?_⟩
        · rw [hstklen]
          omega
        · rw [hstk_getD p hlt]
          exact hpa
        · intro j' hj'l
          rw [hib] at hj'l ⊢
          exact hub j' hj'l
  · intro a ha hfl hst2 hts
    rw [hst] at hfl
    rw [hstored] at hst2 ⊢
    exact hD.closure a ha hfl hst2 hts
  · rw [hst, hstored, hrto]
    exact hD.respect

/-- Expanding an unvisited head: mark it visited, record the branch entry
pointing at the top of the stack, and enter the `for` loop over its
outgoing arcs. -/
theorem DInv_expand {g : FlowGraph} {source sink : Nat} {d d' : DfsState}
    {back_arc : Int}
    (hD : DInv g source sink d)
    (hlast : d.arc_stack.getLast? = some back_arc)
    (hvisF : d.visited (Head g back_arc) = false)
    (hst : d'.st = d.st) (hstored : d'.stored = d.stored)
    (hvis : d'.visited = Function.update d.visited (Head g back_arc) true)
    (hstack : d'.arc_stack = d.arc_stack)
    (hib : d'.index_branch = d.index_branch ++ [d.arc_stack.length - 1])
    (hrto : d'.reverse_topological_order =
      d.reverse_topological_order) :
    DInvP g source sink (OutgoingArcs g (Head g back_arc)) d' ∧
    d'.index_branch ≠ [] ∧
    Head g back_arc = BranchHead g d' (d'.index_branch.length - 1) := by
  obtain ⟨hsne, hgetlast⟩ := getLast?_getD (0 : Int) hlast
  have hslen : 0 < d.arc_stack.length := List.length_pos.2 hsne
  have hnode_ne_source : Head g back_arc ≠ source := by
    intro hc
    rw [hc, hD.visited_source] at hvisF
    exact Bool.noConfusion hvisF
  have hnode_ne_sink : Head g back_arc ≠ sink := by
    intro hc
    rw [hc, hD.visited_sink] at hvisF
    exact Bool.noConfusion hvisF
  have hnode_not_stored : d.stored (Head g back_arc) = false := by
    rcases Bool.eq_false_or_eq_true (d.stored (Head g back_arc)) with h | h
    · rw [hD.stored_visited _ h] at hvisF
      exact Bool.noConfusion hvisF
    · exact h
  have hbh_ne : ∀ i, i < d.index_branch.length →
      BranchHead g d i ≠ Head g back_arc := by
    intro i hi hc
    have h1 := hD.bh_visited i hi
    rw [hc, hvisF] at h1
    exact Bool.noConfusion h1
  have hpnotib : d.arc_stack.length - 1 ∉ d.index_branch := by
    intro hc
    rcases List.mem_iff_getElem.1 hc with ⟨j, hjlen, hje⟩
    have hje' : d.index_branch.getD j 0 = d.arc_stack.length - 1 := by
      rw [List.getD_eq_getElem _ 0 hjlen]
      exact hje
    have h2 : BranchHead g d j = Head g back_arc := by
      unfold BranchHead BranchArc
      rw [hje', hgetlast]
    exact hbh_ne j hjlen h2
  have hibv_lt : ∀ j, j < d.index_branch.length →
      d.index_branch.getD j 0 < d.arc_stack.length - 1 := by
    intro j hj
    have h1 := hD.ib_lt (d.index_branch.getD j 0) (getD_mem hj)
    have h2 : d.index_branch.getD j 0 ≠ d.arc_stack.length - 1 := by
      intro hc
      rw [← hc] at hpnotib
      exact hpnotib (getD_mem hj)
    omega
  have hiblen : d'.index_branch.length = d.index_branch.length + 1 := by
    rw [hib, List.length_append, List.length_singleton]
  have hib_getD_old : ∀ j, j < d.index_branch.length →
      d'.index_branch.getD j 0 = d.index_branch.getD j 0 := by
    intro j hj
    rw [hib]
    exact getD_append_left _ _ _ _ hj
  have hib_getD_new : d'.index_branch.getD d.index_branch.length 0 =
      d.arc_stack.length - 1 := by
    rw [hib]
    exact getD_append_last _ _ _
  have hBA_old : ∀ j, j < d.index_branch.length →
      BranchArc d' j = BranchArc d j := by
    intro j hj
    unfold BranchArc
    rw [hstack, hib_getD_old j hj]
  have hBA_new : BranchArc d' d.index_branch.length = back_arc := by
    unfold BranchArc
    rw [hstack, hib_getD_new, hgetlast]
  have hBH_old : ∀ j, j < d.index_branch.length →
      BranchHead g d' j = BranchHead g d j := by
    intro j hj
    unfold BranchHead
    rw [hBA_old j hj]
  have hBH_new : BranchHead g d' d.index_branch.length =
      Head g back_arc := by
    unfold BranchHead
    rw [hBA_new]
  have hvis_true : d'.visited (Head g back_arc) = true := by
    rw [hvis, Function.update_same]
  have hvis_other : ∀ v, v ≠ Head g back_arc →
      d'.visited v = d.visited v := by
    intro v hv
    rw [hvis]
    exact Function.update_noteq hv _ _
  have hvis_mono : ∀ v, d.visited v = true → d'.visited v = true := by
    intro v hv
    by_cases hc : v = Head g back_arc
    · rw [hc]
      exact hvis_true
    · rw [hvis_other v hc]
      exact hv
  refine ⟨⟨?_, ?_, ?_, ?_, ?_, ?_, ?_, ?_, ?_, ?_, ?_, ?_, ?_, ?_, ?_, ?_,
    ?_, ?_, ?_, ?_, ?_, ?_, ?_, ?_⟩, ?_, ?_⟩
  · rw [hst]
    exact hD.inv
  · intro a ha
    rw [hstack] at ha
    exact hD.stack_dir a ha
  · intro a ha
    rw [hstack] at ha
    exact hD.head_ne_source a ha
  · intro q hq
    rw [hib] at hq
    rw [hstack]
    rcases mem_append_singleton.1 hq with h | h
    · exact hD.ib_lt q h
    · rw [h]
      omega
  · rw [hib, List.pairwise_append]
    refine ⟨hD.ib_sorted, by simp, ?_⟩
    intro a ha b hb
    rw [List.mem_singleton] at hb
    rw [hb]
    rcases List.mem_iff_getElem.1 ha with ⟨j, hjlen, hje⟩
    have hje' : d.index_branch.getD j 0 = a := by
      rw [List.getD_eq_getElem _ 0 hjlen]
      exact hje
    have := hibv_lt j hjlen
    omega
  · intro p hp
    rw [hstack] at hp
    rw [hstack]
    rcases hD.stack_tail p hp with ⟨h1, h2⟩ | ⟨j, hj, hlt2, htl, hub⟩
    · left
      refine ⟨?_, h2⟩
      intro j hjl
      rw [hiblen] at hjl
      rcases Nat.lt_or_ge j d.index_branch.length with hjlt | hjge
      · rw [hib_getD_old j hjlt]
        exact h1 j hjlt
      · have hje : j = d.index_branch.length := by omega
        rw [hje, hib_getD_new]
        omega
    · right
      refine ⟨j, ?_, ?_, ?_, ?_⟩
      · rw [hiblen]
        omega
      · rw [hib_getD_old j hj]
        exact hlt2
      · rw [hBH_old j hj]
        exact htl
      · intro j' hjj' hj'l
        rw [hiblen] at hj'l
        rcases Nat.lt_or_ge j' d.index_branch.length with hjlt | hjge
        · rw [hib_getD_old j' hjlt]
          exact hub j' hjj' hjlt
        · have hje : j' = d.index_branch.length := by omega
          rw [hje, hib_getD_new]
          omega
  · rw [hstored]
    exact hD.stored_sink
  · rw [hvis, Function.update_noteq (Ne.symm hnode_ne_sink)]
    exact hD.visited_sink
  · rw [hvis, Function.update_noteq (Ne.symm hnode_ne_source)]
    exact hD.visited_source
  · rw [hstored]
    exact hD.stored_source
  · intro v
    rw [hrto, hstored]
    exact hD.rto_iff v
  · rw [hrto]
    exact hD.rto_nodup
  · intro v hv
    rw [hrto] at hv
    exact hD.rto_lt v hv
  · intro v hv
    rw [hrto] at hv
    exact hD.rto_ne_source v hv
  · intro v hv
    rw [hstored] at hv
    exact hvis_mono v (hD.stored_visited v hv)
  · intro i hi
    rw [hiblen] at hi
    rcases Nat.lt_or_ge i d.index_branch.length with hilt | hige
    · rw [hBH_old i hilt]
      exact hvis_mono _ (hD.bh_visited i hilt)
    · have hie : i = d.index_branch.length := by omega
      rw [hie, hBH_new]
      exact hvis_true
  · intro i hi
    rw [hiblen] at hi
    rw [hstored]
    rcases Nat.lt_or_ge i d.index_branch.length with hilt | hige
    · rw [hBH_old i hilt]
      exact hD.bh_not_stored i hilt
    · have hie : i = d.index_branch.length := by omega
      rw [hie, hBH_new]
      exact hnode_not_stored
  · intro i j hi hj hij
    rw [hiblen] at hi hj
    rcases Nat.lt_or_ge i d.index_branch.length with hilt | hige
    · rcases Nat.lt_or_ge j d.index_branch.length with hjlt | hjge
      · rw [hBH_old i hilt, hBH_old j hjlt]
        exact hD.bh_distinct i j hilt hjlt hij
      · have hje : j = d.index_branch.length := by omega
        rw [hBH_old i hilt, hje, hBH_new]
        exact hbh_ne i hilt
    · rcases Nat.lt_or_ge j d.index_branch.length with hjlt | hjge
      · have hie : i = d.index_branch.length := by omega
        rw [hie, hBH_new, hBH_old j hjlt]
        exact fun hc => hbh_ne j hjlt hc.symm
      · omega
  · intro v hv
    by_cases hc : v = Head g back_arc
    · refine Or.inr (Or.inr (Or.inr
        ⟨d.index_branch.length, by rw [hiblen]; omega, ?_⟩))
      rw [hBH_new, hc]
    · rw [hvis_other v hc] at hv
      rcases hD.visited_class v hv with h | h | h | ⟨i, hi, hbh⟩
      · exact Or.inl h
      · exact Or.inr (Or.inl h)
      · exact Or.inr (Or.inr (Or.inl (by rw [hstored]; exact h)))
      · exact Or.inr (Or.inr (Or.inr ⟨i, by rw [hiblen]; omega,
          by rw [hBH_old i hi]; exact hbh⟩))
  · intro p hp hpnotin hvh
    rw [hstack] at hp
    rw [hstack] at hvh ⊢
    have hpnotin2 : p ∉ d.index_branch := by
      intro hc
      apply hpnotin
      rw [hib]
      exact List.mem_append_left _ hc
    have hpne : p ≠ d.arc_stack.length - 1 := by
      intro hc
      apply hpnotin
      rw [hib, hc]
      exact List.mem_append_right _ (List.mem_singleton.2 rfl)
    by_cases hch : Head g (d.arc_stack.getD p 0) = Head g back_arc
    · right
      refine ⟨d.index_branch.length, by rw [hiblen]; omega, ?_, ?_⟩
      · rw [hBH_new, hch]
      · rw [hib_getD_new]
        omega
    · rw [hvis_other _ hch] at hvh
      rcases hD.pending_ok p hp hpnotin2 hvh with h | ⟨j, hj, hbh, hpj⟩
      · left
        rw [hstored]
        exact h
      · right
        refine ⟨j, by rw [hiblen]; omega, ?_, ?_⟩
        · rw [hBH_old j hj]
          exact hbh
        · rw [hib_getD_old j hj]
          exact hpj
  · intro j hj a hamem hfl
    rw [hiblen] at hj
    rw [hst] at hfl
    rcases Nat.lt_or_ge j d.index_branch.length with hjlt | hjge
    · rw [hBH_old j hjlt] at hamem
      rcases hD.seg j hjlt a hamem hfl with h | h | ⟨_, hmem2⟩
      · left
        rw [hstored]
        exact h
      · right
        left
        obtain ⟨p, hpl, hpa, hlb, hub⟩ := h
        unfold SegWitness
        refine ⟨p, ?_, ?_, ?_, ?_⟩
        · rw [hstack]
          exact hpl
        · rw [hstack]
          exact hpa
        · rw [hib_getD_old j hjlt]
          exact hlb
        · intro j' hjj' hj'l
          rw [hiblen] at hj'l
          rcases Nat.lt_or_ge j' d.index_branch.length with h2 | h2
          · rw [hib_getD_old j' h2]
            exact hub j' hjj' h2
          · have hje : j' = d.index_branch.length := by omega
            rw [hje, hib_getD_new]
            omega
      · exact absurd hmem2 (List.not_mem_nil a)
    · have hje : j = d.index_branch.length := by omega
      right
      right
      refine ⟨by rw [hiblen]; omega, ?_⟩
      rw [hje, hBH_new] at hamem
      exact hamem
  · intro a hamem hfl
    rw [hst] at hfl
    rcases hD.src_seg a hamem hfl with h | h
    · left
      rw [hstored]
      exact h
    · right
      obtain ⟨p, hpl, hpa, hub⟩ := h
      unfold SrcWitness
      refine ⟨p, ?_, ?_, ?_⟩
      · rw [hstack]
        exact hpl
      · rw [hstack]
        exact hpa
      · intro j' hj'l
        rw [hiblen] at hj'l
        rcases Nat.lt_or_ge j' d.index_branch.length with h2 | h2
        · rw [hib_getD_old j' h2]
          exact hub j' h2
        · have hje : j' = d.index_branch.length := by omega
          rw [hje, hib_getD_new]
          omega
  · intro a ha hfl hst2 hts
    rw [hst] at hfl
    rw [hstored] at hst2 ⊢
    exact hD.closure a ha hfl hst2 hts
  · rw [hst, hstored, hrto]
    exact hD.respect
  · intro hc
    rw [hc, List.length_nil] at hiblen
    omega
  · rw [hiblen, Nat.add_sub_cancel]
    exact hBH_new.symm

theorem DfsLoop_succ_nil (g : FlowGraph) (fuel : Nat) (d : DfsState)
    (h : d.arc_stack.getLast? = none) :
    DfsLoop g (fuel + 1) d = some d := by
  unfold DfsLoop
  rw [h]

theorem DfsLoop_succ_some (g : FlowGraph) (fuel : Nat) (d : DfsState)
    (back_arc : Int) (h : d.arc_stack.getLast? = some back_arc) :
    DfsLoop g (fuel + 1) d =
      (if d.visited (Head g back_arc) then
        DfsLoop g fuel
          (let d1 := if d.stored (Head g back_arc) = false then
            { d with
              stored := Function.update d.stored (Head g back_arc) true
              reverse_topological_order :=
                d.reverse_topological_order ++ [Head g back_arc]
              index_branch := d.index_branch.dropLast }
          else d
          { d1 with arc_stack := d1.arc_stack.dropLast })
      else
        DfsLoop g fuel (DfsExploreArcs g (Head g back_arc)
          (OutgoingArcs g (Head g back_arc))
          { d with
            visited := Function.update d.visited (Head g back_arc) true
            index_branch :=
              d.index_branch ++ [d.arc_stack.length - 1] })) := by
  simp only [DfsLoop]
  rw [h]

/-- The DFS `while` loop preserves the invariant; on normal return the arc
stack is exhausted. -/
theorem DfsLoop_inv {g : FlowGraph} {source sink : Nat} :
    ∀ (fuel : Nat) (d d' : DfsState),
    DInv g source sink d →
    DfsLoop g fuel d = some d' →
    DInv g source sink d' ∧ d'.arc_stack = [] := by
  intro fuel
  induction fuel with
  | zero =>
    intro d d' _ h
    exact Option.noConfusion h
  | succ fuel ih =>
    intro d d' hD hrun
    rcases hL : d.arc_stack.getLast? with _ | back_arc
    · rw [DfsLoop_succ_nil g fuel d hL] at hrun
      have hd' : d = d' := Option.some.inj hrun
      rw [← hd']
      exact ⟨hD, List.getLast?_eq_none_iff.1 hL⟩
    · rw [DfsLoop_succ_some g fuel d back_arc hL] at hrun
      by_cases hv : d.visited (Head g back_arc) = true
      · rw [if_pos hv] at hrun
        by_cases hs : d.stored (Head g back_arc) = false
        · rw [if_pos hs] at hrun
          obtain ⟨d2, hd2⟩ : ∃ d2 : DfsState, d2 =
              { d with
                stored := Function.update d.stored (Head g back_arc) true
                reverse_topological_order :=
                  d.reverse_topological_order ++ [Head g back_arc]
                index_branch := d.index_branch.dropLast
                arc_stack := d.arc_stack.dropLast } := ⟨_, rfl⟩
          have h2st : d2.st = d.st := by rw [hd2]
          have h2stored : d2.stored =
              Function.update d.stored (Head g back_arc) true := by
            rw [hd2]
          have h2vis : d2.visited = d.visited := by rw [hd2]
          have h2stack : d2.arc_stack = d.arc_stack.dropLast := by rw [hd2]
          have h2ib : d2.index_branch = d.index_branch.dropLast := by
            rw [hd2]
          have h2rto : d2.reverse_topological_order =
              d.reverse_topological_order ++ [Head g back_arc] := by
            rw [hd2]
          have hD2 := DInv_pop_store hD hL hv hs h2st h2stored h2vis
            h2stack h2ib h2rto
          have hrun2 : DfsLoop g fuel d2 = some d' := by
            rw [hd2]
            exact hrun
          exact ih d2 d' hD2 hrun2
        · rw [if_neg hs] at hrun
          have hsT : d.stored (Head g back_arc) = true := by
            rcases Bool.eq_false_or_eq_true (d.stored (Head g back_arc))
              with h | h
            · exact h
            · exact absurd h hs
          obtain ⟨d2, hd2⟩ : ∃ d2 : DfsState, d2 =
              { d with arc_stack := d.arc_stack.dropLast } := ⟨_, rfl⟩
          have h2st : d2.st = d.st := by rw [hd2]
          have h2stored : d2.stored = d.stored := by rw [hd2]
          have h2vis : d2.visited = d.visited := by rw [hd2]
          have h2stack : d2.arc_stack = d.arc_stack.dropLast := by rw [hd2]
          have h2ib : d2.index_branch = d.index_branch := by rw [hd2]
          have h2rto : d2.reverse_topological_order =
              d.reverse_topological_order := by rw [hd2]
          have hD2 := DInv_pop_skip hD hL hsT h2st h2stored h2vis h2stack
            h2ib h2rto
          have hrun2 : DfsLoop g fuel d2 = some d' := by
            rw [hd2]
            exact hrun
          exact ih d2 d' hD2 hrun2
      · rw [if_neg hv] at hrun
        have hvF : d.visited (Head g back_arc) = false := by
          rcases Bool.eq_false_or_eq_true (d.visited (Head g back_arc))
            with h | h
          · exact absurd h hv
          · exact h
        obtain ⟨d2, hd2⟩ : ∃ d2 : DfsState, d2 =
            { d with
              visited := Function.update d.visited (Head g back_arc) true
              index_branch :=
                d.index_branch ++ [d.arc_stack.length - 1] } := ⟨_, rfl⟩
        have h2st : d2.st = d.st := by rw [hd2]
        have h2stored : d2.stored = d.stored := by rw [hd2]
        have h2vis : d2.visited =
            Function.update d.visited (Head g back_arc) true := by rw [hd2]
        have h2stack : d2.arc_stack = d.arc_stack := by rw [hd2]
        have h2ib : d2.index_branch =
            d.index_branch ++ [d.arc_stack.length - 1] := by rw [hd2]
        have h2rto : d2.reverse_topological_order =
            d.reverse_topological_order := by rw [hd2]
        obtain ⟨hD2, hknil2, hnode2⟩ := DInv_expand hD hL hvF h2st h2stored
          h2vis h2stack h2ib h2rto
        obtain ⟨hE1, _, _, _⟩ := DfsExploreArcs_inv
          (OutgoingArcs g (Head g back_arc)) d2 hD2 hknil2 hnode2
          (fun _ he => he)
        have hrun2 : DfsLoop g fuel (DfsExploreArcs g (Head g back_arc)
            (OutgoingArcs g (Head g back_arc)) d2) = some d' := by
          rw [hd2]
          exact hrun
        exact ih _ d' hE1 hrun2

/-- The initial DFS state of `PushFlowExcessBackToSource()` satisfies the
loop invariant. -/
theorem DInv_entry {g : FlowGraph} {source sink : Nat} {st : MFState}
    {d0 : DfsState}
    (hI : Inv g source sink st)
    (hss : source ≠ sink)
    (hst : d0.st = st)
    (hstored : d0.stored = Function.update (fun _ : Nat => false) sink true)
    (hvis : d0.visited = Function.update
      (Function.update (fun _ : Nat => false) sink true) source true)
    (hstack : d0.arc_stack =
      (OutgoingArcs g source).filter (fun a => Flow g st a > 0))
    (hib : d0.index_branch = [])
    (hrto : d0.reverse_topological_order = []) :
    DInv g source sink d0 := by
  have hmemstack : ∀ a, a ∈ d0.arc_stack →
      (a ∈ OutgoingArcs g source ∧ 0 < Flow g st a) := by
    intro a ha
    rw [hstack] at ha
    have h1 := List.mem_filter.1 ha
    exact ⟨h1.1, of_decide_eq_true h1.2⟩
  have hout : ∀ a, a ∈ OutgoingArcs g source →
      IsArcDirect g a = true ∧ Tail g a = source := by
    intro a ha
    rcases mem_OutgoingArcs ha with ⟨n, rfl, hn, htn⟩
    exact ⟨IsArcDirect_coe hn, by rw [Tail_coe]; exact htn⟩
  have hhns : ∀ a, a ∈ d0.arc_stack → Head g a ≠ source := by
    intro a ha hc
    obtain ⟨hmem, hflow⟩ := hmemstack a ha
    rcases mem_OutgoingArcs hmem with ⟨n, hne, hn, htn⟩
    rw [hne] at hc hflow
    rw [Head_coe] at hc
    have h1 := hI.source_self_zero n hn htn hc
    rw [Flow_direct (IsArcDirect_coe hn)] at hflow
    omega
  have hvis_src : d0.visited source = true := by
    rw [hvis, Function.update_same]
  have hvis_sink : d0.visited sink = true := by
    rw [hvis]
    by_cases hc : sink = source
    · rw [hc, Function.update_same]
    · rw [Function.update_noteq hc, Function.update_same]
  have hvis_val : ∀ v, v ≠ source → v ≠ sink → d0.visited v = false := by
    intro v h1 h2
    rw [hvis, Function.update_noteq h1, Function.update_noteq h2]
  have hstored_sink' : d0.stored sink = true := by
    rw [hstored, Function.update_same]
  have hstored_val : ∀ v, v ≠ sink → d0.stored v = false := by
    intro v h
    rw [hstored, Function.update_noteq h]
  refine ⟨?_, ?_, ?_, ?_, ?_, ?_, ?_, ?_, ?_, ?_, ?_, ?_, ?_, ?_, ?_, ?_,
    ?_, ?_, ?_, ?_, ?_, ?_, ?_, ?_⟩
  · rw [hst]
    exact hI
  · intro a ha
    exact (hout a (hmemstack a ha).1).1
  · intro a ha
    exact hhns a ha
  · intro q hq
    rw [hib] at hq
    exact absurd hq (List.not_mem_nil q)
  · rw [hib]
    exact List.Pairwise.nil
  · intro p hp
    left
    refine ⟨?_, ?_⟩
    · intro j hjl
      rw [hib, List.length_nil] at hjl
      omega
    · exact (hout _ (hmemstack _ (getD_mem hp)).1).2
  · exact hstored_sink'
  · exact hvis_sink
  · exact hvis_src
  · exact hstored_val source hss
  · intro v
    rw [hrto]
    constructor
    · intro h
      exact absurd h (List.not_mem_nil v)
    · rintro ⟨h1, h2⟩
      rw [hstored_val v h2] at h1
      exact Bool.noConfusion h1
  · rw [hrto]
    exact List.nodup_nil
  · intro v hv
    rw [hrto] at hv
    exact absurd hv (List.not_mem_nil v)
  · intro v hv
    rw [hrto] at hv
    exact absurd hv (List.not_mem_nil v)
  · intro v hv
    by_cases hc : v = sink
    · rw [hc]
      exact hvis_sink
    · rw [hstored_val v hc] at hv
      exact Bool.noConfusion hv
  · intro i hi
    rw [hib, List.length_nil] at hi
    omega
  · intro i hi
    rw [hib, List.length_nil] at hi
    omega
  · intro i j hi hj hij
    rw [hib, List.length_nil] at hi
    omega
  · intro v hv
    by_cases h1 : v = source
    · exact Or.inl h1
    by_cases h2 : v = sink
    · exact Or.inr (Or.inl h2)
    rw [hvis_val v h1 h2] at hv
    exact Bool.noConfusion hv
  · intro p hp hpnotin hvh
    left
    by_cases hsink : Head g (d0.arc_stack.getD p 0) = sink
    · rw [hsink]
      exact hstored_sink'
    · have h1 := hvis_val _ (hhns _ (getD_mem hp)) hsink
      rw [h1] at hvh
      exact Bool.noConfusion hvh
  · intro j hj
    rw [hib, List.length_nil] at hj
    omega
  · intro a hamem hfl
    rw [hst] at hfl
    right
    have hmem2 : a ∈ d0.arc_stack := by
      rw [hstack]
      exact List.mem_filter.2 ⟨hamem, decide_eq_true hfl⟩
    rcases List.mem_iff_getElem.1 hmem2 with ⟨p, hplen, hpe⟩
    unfold SrcWitness
    refine ⟨p, hplen, ?_, ?_⟩
    · rw [List.getD_eq_getElem _ 0 hplen]
      exact hpe
    · intro j' hj'l
      rw [hib, List.length_nil] at hj'l
      omega
  · intro a ha hfl hst2 hts
    by_cases hc : g.tails a = sink
    · exact absurd hc hts
    · rw [hstored_val _ hc] at hst2
      exact Bool.noConfusion hst2
  · rw [hrto]
    exact trivial

theorem sum_Excess_filter (g : FlowGraph) (st : MFState) (T : Finset Nat) :
    ∑ v ∈ T, Excess g st v =
    ∑ a ∈ Finset.range g.numArcs,
      ((if g.heads a ∈ T then
          st.residual_arc_capacity (Opposite ((a : Int))) else 0) -
       (if g.tails a ∈ T then
          st.residual_arc_capacity (Opposite ((a : Int))) else 0)) := by
  unfold Excess
  rw [Finset.sum_comm]
  refine Finset.sum_congr rfl ?_
  intro a _
  rw [Finset.sum_sub_distrib, Finset.sum_ite_eq, Finset.sum_ite_eq]

theorem RespectAux_to_Respect (g : FlowGraph) (st : MFState)
    (source sink : Nat) (stored : Nat → Bool)
    (hflow0 : ∀ a : Nat, a < g.numArcs → stored (g.tails a) = false →
      g.tails a ≠ source → stored (g.heads a) = true →
      ¬ (0 < Flow g st ((a : Int)))) :
    ∀ l : List Nat, RespectAux g st source sink l stored →
    (∀ w ∈ l, stored w = true) →
    Respect g st source sink l := by
  intro l
  induction l with
  | nil =>
    intro _ _
    exact trivial
  | cons w rest ih =>
    intro hra hstl
    obtain ⟨hw, hrest⟩ := hra
    refine ⟨?_, ih hrest (fun x hx => hstl x (List.mem_cons_of_mem _ hx))⟩
    intro a ha hf hh
    rcases hw a ha hf hh with h | h | h | h
    · exact Or.inl h
    · exact Or.inr (Or.inl h)
    · exact Or.inr (Or.inr h)
    · by_cases hts : g.tails a = source
      · exact Or.inl hts
      · exfalso
        refine hflow0 a ha h hts ?_ hf
        rw [hh]
        exact hstl w (List.mem_cons_self _ _)

/-- At the end of the DFS phase every unstored node other than the source
and the sink has zero excess, no flow leaves an unstored non-source node
towards a stored one, and the reverse topological order genuinely respects
the remaining flow. -/
theorem dfs_end_zero {g : FlowGraph} {source sink : Nat} {d : DfsState}
    (hD : DInv g source sink d)
    (hempty : d.arc_stack = []) :
    (∀ v, v < g.numNodes → v ≠ source → d.stored v = false →
      d.st.node_excess v = 0) ∧
    (∀ a : Nat, a < g.numArcs → d.stored (g.tails a) = false →
      g.tails a ≠ source → d.stored (g.heads a) = true →
      d.st.residual_arc_capacity (Opposite ((a : Int))) = 0) ∧
    Respect g d.st source sink d.reverse_topological_order := by
  have hin_zero : ∀ a : Nat, a < g.numArcs →
      d.stored (g.heads a) = false → g.heads a ≠ source →
      ¬ (d.stored (g.tails a) = false ∧ g.tails a ≠ source) →
      d.st.residual_arc_capacity (Opposite ((a : Int))) = 0 := by
    intro a ha hhead_unstored hhead_ne_src htout
    by_cases hts : g.tails a = source
    · have hamem : ((a : Int)) ∈ OutgoingArcs g source :=
        mem_OutgoingArcs_of ha hts
      by_contra hFne
      have hF0 : 0 ≤ d.st.residual_arc_capacity (Opposite ((a : Int))) :=
        hD.inv.res_nonneg _
          (by rw [IsArcValid_Opposite]; exact IsArcValid_coe ha)
      have hFpos : 0 < Flow g d.st ((a : Int)) := by
        rw [Flow_direct (IsArcDirect_coe ha)]
        omega
      rcases hD.src_seg _ hamem hFpos with h | h
      · rw [Head_coe] at h
        rw [h] at hhead_unstored
        exact Bool.noConfusion hhead_unstored
      · obtain ⟨p, hpl, _⟩ := h
        rw [hempty, List.length_nil] at hpl
        omega
    · have hstored_t : d.stored (g.tails a) = true := by
        rcases Bool.eq_false_or_eq_true (d.stored (g.tails a)) with h | h
        · exact h
        · exact absurd ⟨h, hts⟩ htout
      by_cases hsink : g.tails a = sink
      · exact hD.inv.sink_tail_zero a ha hsink
      · by_contra hFne
        have hF0 : 0 ≤ d.st.residual_arc_capacity (Opposite ((a : Int))) :=
          hD.inv.res_nonneg _
            (by rw [IsArcValid_Opposite]; exact IsArcValid_coe ha)
        have hFpos : 0 < Flow g d.st ((a : Int)) := by
          rw [Flow_direct (IsArcDirect_coe ha)]
          omega
        have h2 := hD.closure a ha hFpos hstored_t hsink
        rw [h2] at hhead_unstored
        exact Bool.noConfusion hhead_unstored
  have hTmem : ∀ v, v ∈ (Finset.range g.numNodes).filter
      (fun v => d.stored v = false ∧ v ≠ source) ↔
      (v < g.numNodes ∧ d.stored v = false ∧ v ≠ source) := by
    intro v
    rw [Finset.mem_filter, Finset.mem_range]
  have hterm : ∀ a ∈ Finset.range g.numArcs,
      ((if g.heads a ∈ (Finset.range g.numNodes).filter
          (fun v => d.stored v = false ∧ v ≠ source) then
          d.st.residual_arc_capacity (Opposite ((a : Int))) else 0) -
       (if g.tails a ∈ (Finset.range g.numNodes).filter
          (fun v => d.stored v = false ∧ v ≠ source) then
          d.st.residual_arc_capacity (Opposite ((a : Int))) else 0)) =
      -(if g.tails a ∈ (Finset.range g.numNodes).filter
          (fun v => d.stored v = false ∧ v ≠ source) ∧
        g.heads a ∉ (Finset.range g.numNodes).filter
          (fun v => d.stored v = false ∧ v ≠ source) then
          d.st.residual_arc_capacity (Opposite ((a : Int))) else 0) := by
    intro a ha
    rw [Finset.mem_range] at ha
    by_cases h1 : g.heads a ∈ (Finset.range g.numNodes).filter
        (fun v => d.stored v = false ∧ v ≠ source)
    · by_cases h2 : g.tails a ∈ (Finset.range g.numNodes).filter
          (fun v => d.stored v = false ∧ v ≠ source)
      · rw [if_pos h1, if_pos h2, if_neg (fun hc => hc.2 h1)]
        ring
      · have hz : d.st.residual_arc_capacity (Opposite ((a : Int))) = 0 := by
          have hh := (hTmem _).1 h1
          refine hin_zero a ha hh.2.1 hh.2.2 ?_
          intro hc
          exact h2 ((hTmem _).2 ⟨g.tails_lt a ha, hc⟩)
        rw [if_pos h1, if_neg h2, if_neg (fun hc => h2 hc.1), hz]
        ring
    · by_cases h2 : g.tails a ∈ (Finset.range g.numNodes).filter
          (fun v => d.stored v = false ∧ v ≠ source)
      · rw [if_neg h1, if_pos h2, if_pos ⟨h2, h1⟩]
        ring
      · rw [if_neg h1, if_neg h2, if_neg (fun hc => h2 hc.1)]
        ring
  have hexcess_nonneg : ∀ v ∈ (Finset.range g.numNodes).filter
      (fun v => d.stored v = false ∧ v ≠ source),
      0 ≤ Excess g d.st v := by
    intro v hv
    obtain ⟨hvlt, _, hvs⟩ := (hTmem v).1 hv
    have hvres : v < g.nodeReservation := by
      have := g.reservation_ok
      omega
    have h2 := hD.inv.interior_nonneg v hvres hvs
    rw [hD.inv.excess_derived v hvres] at h2
    exact h2
  have hnonneg_terms : ∀ a ∈ Finset.range g.numArcs,
      (0 : Int) ≤ (if g.tails a ∈ (Finset.range g.numNodes).filter
          (fun v => d.stored v = false ∧ v ≠ source) ∧
        g.heads a ∉ (Finset.range g.numNodes).filter
          (fun v => d.stored v = false ∧ v ≠ source) then
          d.st.residual_arc_capacity (Opposite ((a : Int))) else 0) := by
    intro a ha
    rw [Finset.mem_range] at ha
    split_ifs with h
    · exact hD.inv.res_nonneg _
        (by rw [IsArcValid_Opposite]; exact IsArcValid_coe ha)
    · exact le_refl 0
  have hsum : ∑ v ∈ (Finset.range g.numNodes).filter
      (fun v => d.stored v = false ∧ v ≠ source), Excess g d.st v =
      -∑ a ∈ Finset.range g.numArcs,
        (if g.tails a ∈ (Finset.range g.numNodes).filter
            (fun v => d.stored v = false ∧ v ≠ source) ∧
          g.heads a ∉ (Finset.range g.numNodes).filter
            (fun v => d.stored v = false ∧ v ≠ source) then
            d.st.residual_arc_capacity (Opposite ((a : Int))) else 0) := by
    rw [sum_Excess_filter, Finset.sum_congr rfl hterm,
      Finset.sum_neg_distrib]
  have hsum_nonneg := Finset.sum_nonneg hexcess_nonneg
  have hsum_nonpos : ∑ v ∈ (Finset.range g.numNodes).filter
      (fun v => d.stored v = false ∧ v ≠ source), Excess g d.st v ≤ 0 := by
    rw [hsum]
    exact neg_nonpos.2 (Finset.sum_nonneg hnonneg_terms)
  have hsum_zero := le_antisymm hsum_nonpos hsum_nonneg
  have hterms_zero : ∑ a ∈ Finset.range g.numArcs,
      (if g.tails a ∈ (Finset.range g.numNodes).filter
          (fun v => d.stored v = false ∧ v ≠ source) ∧
        g.heads a ∉ (Finset.range g.numNodes).filter
          (fun v => d.stored v = false ∧ v ≠ source) then
          d.st.residual_arc_capacity (Opposite ((a : Int))) else 0) = 0 := by
    rw [hsum_zero] at hsum
    omega
  have hexc_each := (Finset.sum_eq_zero_iff_of_nonneg hexcess_nonneg).1
    hsum_zero
  have hflow_each := (Finset.sum_eq_zero_iff_of_nonneg hnonneg_terms).1
    hterms_zero
  have hout_zero : ∀ a : Nat, a < g.numArcs →
      d.stored (g.tails a) = false → g.tails a ≠ source →
      d.stored (g.heads a) = true →
      d.st.residual_arc_capacity (Opposite ((a : Int))) = 0 := by
    intro a ha ht1 ht2 hh1
    have h1 := hflow_each a (Finset.mem_range.2 ha)
    rw [if_pos] at h1
    · exact h1
    · refine ⟨(hTmem _).2 ⟨g.tails_lt a ha, ht1, ht2⟩, ?_⟩
      intro hc
      obtain ⟨_, hc2, _⟩ := (hTmem _).1 hc
      rw [hh1] at hc2
      exact Bool.noConfusion hc2
  refine ⟨?_, hout_zero, ?_⟩
  · intro v hvlt hvs hvst
    have hvmem := (hTmem v).2 ⟨hvlt, hvst, hvs⟩
    have h1 := hexc_each v hvmem
    have hvres : v < g.nodeReservation := by
      have := g.reservation_ok
      omega
    rw [hD.inv.excess_derived v hvres]
    exact h1
  · refine RespectAux_to_Respect g d.st source sink d.stored ?_ _
      hD.respect ?_
    · intro a ha h1 h2 h3 hf
      have h4 := hout_zero a ha h1 h2 h3
      rw [Flow_direct (IsArcDirect_coe ha), h4] at hf
      omega
    · intro w hw
      exact ((hD.rto_iff w).1 hw).1

theorem filter_map_sum (n : Nat) (p : Nat → Bool) (F : Nat → Int) :
    (((List.range n).filter p).map F).sum =
    ∑ a ∈ Finset.range n, (if p a = true then F a else 0) := by
  induction n with
  | zero => rfl
  | succ m ih =>
    rw [List.range_succ, List.filter_append, List.map_append,
      List.sum_append, ih, Finset.sum_range_succ]
    by_cases h : p m = true
    · rw [if_pos h]
      simp [h]
    · rw [if_neg h]
      simp [h]

theorem IncomingArcs_nodup (g : FlowGraph) (v : Nat) :
    (IncomingArcs g v).Nodup := by
  rw [IncomingArcs_eq]
  exact (List.Nodup.filter _ (List.nodup_range _)).map Nat.cast_injective

/-- The excess of an interior node is bounded by the total flow coming in
on its non-loop incoming arcs. -/
theorem excess_le_inflow {g : FlowGraph} {source sink : Nat} {st : MFState}
    (hI : Inv g source sink st) (w : Nat) (hw : w < g.nodeReservation) :
    st.node_excess w ≤ ((IncomingArcs g w).map
      (fun e => if Tail g e ≠ w then
        st.residual_arc_capacity (Opposite e) else 0)).sum := by
  rw [hI.excess_derived w hw]
  have h1 : Excess g st w ≤ ∑ a ∈ Finset.range g.numArcs,
      (if g.heads a = w then (if g.tails a ≠ w then
        st.residual_arc_capacity (Opposite ((a : Int))) else 0) else 0) := by
    unfold Excess
    refine Finset.sum_le_sum ?_
    intro a ha
    rw [Finset.mem_range] at ha
    have hF0 : 0 ≤ st.residual_arc_capacity (Opposite ((a : Int))) :=
      hI.res_nonneg _
        (by rw [IsArcValid_Opposite]; exact IsArcValid_coe ha)
    split_ifs <;> omega
  have h2 : ((IncomingArcs g w).map
      (fun e => if Tail g e ≠ w then
        st.residual_arc_capacity (Opposite e) else 0)).sum =
      ∑ a ∈ Finset.range g.numArcs,
      (if g.heads a = w then (if g.tails a ≠ w then
        st.residual_arc_capacity (Opposite ((a : Int))) else 0) else 0) := by
    rw [IncomingArcs_eq, List.map_map, filter_map_sum]
    refine Finset.sum_congr rfl ?_
    intro a _
    by_cases h : g.heads a = w
    · rw [if_pos (decide_eq_true h), if_pos h]
      show (if Tail g ((a : Int)) ≠ w then
        st.residual_arc_capacity (Opposite ((a : Int))) else 0) = _
      simp only [Tail_coe]
    · rw [if_neg (fun hc => h (of_decide_eq_true hc)), if_neg h]
  rw [h2]
  exact h1

theorem ReturnExcessScan_cons (g : FlowGraph) (w : Nat) (e : Int)
    (rest : List Int) (st : MFState) :
    ReturnExcessScan g w (e :: rest) st =
      if st.residual_arc_capacity (Opposite e) > 0 then
        (if (PushFlow g st (min (st.node_excess w)
            (st.residual_arc_capacity (Opposite e))) w
            (Opposite e)).node_excess w = 0 then
          PushFlow g st (min (st.node_excess w)
            (st.residual_arc_capacity (Opposite e))) w (Opposite e)
        else ReturnExcessScan g w rest
          (PushFlow g st (min (st.node_excess w)
            (st.residual_arc_capacity (Opposite e))) w (Opposite e)))
      else ReturnExcessScan g w rest st := rfl

/-- The inner excess-return loop drains the node's excess completely,
preserves the invariant, only decreases flows, and only ships excess to
tails of flow-carrying incoming arcs. -/
theorem ReturnExcessScan_drain {g : FlowGraph} {source sink : Nat} {w : Nat}
    (hws : w ≠ source) (hwt : w ≠ sink) (hw : w < g.nodeReservation) :
    ∀ (l : List Int) (st : MFState),
    Inv g source sink st →
    (∀ e ∈ l, ∃ n : Nat, e = (n : Int) ∧ n < g.numArcs ∧ g.heads n = w) →
    l.Nodup →
    st.node_excess w ≤ (l.map (fun e => if Tail g e ≠ w then
      st.residual_arc_capacity (Opposite e) else 0)).sum →
    Inv g source sink (ReturnExcessScan g w l st) ∧
    (ReturnExcessScan g w l st).node_excess w = 0 ∧
    (∀ v, v ≠ w →
      (∀ n : Nat, n < g.numArcs → g.heads n = w → g.tails n = v →
        Flow g st ((n : Int)) ≤ 0) →
      (ReturnExcessScan g w l st).node_excess v = st.node_excess v) ∧
    (∀ e : Int, IsArcDirect g e = true →
      Flow g (ReturnExcessScan g w l st) e ≤ Flow g st e) := by
  intro l
  induction l with
  | nil =>
    intro st hI hmem hnd hbound
    refine ⟨hI, ?_, fun v _ _ => rfl, fun e _ => le_refl _⟩
    have h1 := hI.interior_nonneg w hw hws
    rw [List.map_nil, List.sum_nil] at hbound
    show st.node_excess w = 0
    omega
  | cons e rest ih =>
    intro st hI hmem hnd hbound
    obtain ⟨n, hne, hn, hhn⟩ := hmem e (List.mem_cons_self _ _)
    have hmem' : ∀ e' ∈ rest, ∃ n' : Nat, e' = ((n' : Int)) ∧
        n' < g.numArcs ∧ g.heads n' = w :=
      fun e' he' => hmem e' (List.mem_cons_of_mem _ he')
    have hnd' : rest.Nodup := (List.nodup_cons.1 hnd).2
    have henotin : e ∉ rest := (List.nodup_cons.1 hnd).1
    have hvalidOpp : IsArcValid g (Opposite e) = true := by
      rw [IsArcValid_Opposite, hne]
      exact IsArcValid_coe hn
    have htailOpp : Tail g (Opposite e) = w := by
      rw [Tail_Opposite, hne, Head_coe]
      exact hhn
    have hheadOpp : Head g (Opposite e) = g.tails n := by
      rw [Head_Opposite, hne, Tail_coe]
    have hFnn : 0 ≤ st.residual_arc_capacity (Opposite e) := by
      rw [hne]
      exact hI.res_nonneg _
        (by rw [IsArcValid_Opposite]; exact IsArcValid_coe hn)
    rw [ReturnExcessScan_cons]
    obtain ⟨f, hfdef⟩ : ∃ f, f = min (st.node_excess w)
        (st.residual_arc_capacity (Opposite e)) := ⟨_, rfl⟩
    rw [← hfdef]
    by_cases hF : st.residual_arc_capacity (Opposite e) > 0
    · rw [if_pos hF]
      have hexc0 : 0 ≤ st.node_excess w := hI.interior_nonneg w hw hws
      have hf0 : 0 ≤ f := by
        rw [hfdef]
        exact le_min hexc0 (le_of_lt hF)
      have hfF : f ≤ st.residual_arc_capacity (Opposite e) := by
        rw [hfdef]
        exact min_le_right _ _
      have hfexc : f ≤ st.node_excess w := by
        rw [hfdef]
        exact min_le_left _ _
      have hI' := Inv_PushFlow hI hvalidOpp htailOpp hf0 hfF hwt
        (fun hc => absurd hc hws) (Or.inl hfexc) (fun hc => absurd hc hws)
      have hstep_exc : ∀ v, (PushFlow g st f w (Opposite e)).node_excess v =
          st.node_excess v - (if v = w then f else 0) +
          (if v = g.tails n then f else 0) := by
        intro v
        rw [PushFlow_excess, hheadOpp]
      have hstep_flow : ∀ e' : Int, IsArcDirect g e' = true →
          Flow g (PushFlow g st f w (Opposite e)) e' =
          (if e' = e then Flow g st e' - f else Flow g st e') := by
        intro e' he'
        have he'0 := (IsArcDirect_nonneg he').1
        have he0 : (0 : Int) ≤ e := by
          rw [hne]
          exact Int.ofNat_nonneg n
        rw [Flow_direct he', Flow_direct he', PushFlow_resCap,
          Opposite_Opposite]
        have hne1 : Opposite e' ≠ e := by
          unfold Opposite
          omega
        rw [if_neg hne1]
        by_cases hc : e' = e
        · rw [if_pos (show Opposite e' = Opposite e by rw [hc]), if_pos hc,
            hc]
        · rw [if_neg (fun h => hc (Opposite_inj h)), if_neg hc]
      by_cases hz : (PushFlow g st f w (Opposite e)).node_excess w = 0
      · rw [if_pos hz]
        refine ⟨hI', hz, ?_, ?_⟩
        · intro v hv hnf
          rw [hstep_exc v, if_neg hv]
          by_cases hvt : v = g.tails n
          · exfalso
            have h1 := hnf n hn hhn hvt.symm
            rw [Flow_direct (IsArcDirect_coe hn)] at h1
            rw [hne] at hF
            omega
          · rw [if_neg hvt]
            ring
        · intro e' he'
          rw [hstep_flow e' he']
          split_ifs with h
          · omega
          · exact le_refl _
      · rw [if_neg hz]
        have hrest_sum : (rest.map (fun e' => if Tail g e' ≠ w then
            (PushFlow g st f w (Opposite e)).residual_arc_capacity
              (Opposite e') else 0)).sum =
            (rest.map (fun e' => if Tail g e' ≠ w then
              st.residual_arc_capacity (Opposite e') else 0)).sum := by
          refine congrArg List.sum (List.map_congr_left ?_)
          intro e' he'
          obtain ⟨n', hne', hn', hhn'⟩ := hmem' e' he'
          have he'ne : e' ≠ e := fun hc => henotin (hc ▸ he')
          have he'0 : (0 : Int) ≤ e' := by
            rw [hne']
            exact Int.ofNat_nonneg n'
          have he0 : (0 : Int) ≤ e := by
            rw [hne]
            exact Int.ofNat_nonneg n
          have hres_eq : (PushFlow g st f w
              (Opposite e)).residual_arc_capacity (Opposite e') =
              st.residual_arc_capacity (Opposite e') := by
            rw [PushFlow_resCap, Opposite_Opposite]
            have hne1 : Opposite e' ≠ e := by
              unfold Opposite
              omega
            rw [if_neg hne1,
              if_neg (fun h => he'ne (Opposite_inj h))]
          rw [hres_eq]
        have hexcw' : (PushFlow g st f w (Opposite e)).node_excess w =
            st.node_excess w - f + (if w = g.tails n then f else 0) := by
          rw [hstep_exc w, if_pos rfl]
        have hflowtrans : ∀ v, v ≠ w →
            (∀ m : Nat, m < g.numArcs → g.heads m = w → g.tails m = v →
              Flow g st ((m : Int)) ≤ 0) →
            (∀ m : Nat, m < g.numArcs → g.heads m = w → g.tails m = v →
              Flow g (PushFlow g st f w (Opposite e)) ((m : Int)) ≤ 0) := by
          intro v _ hnf m hm hh ht
          have h1 := hnf m hm hh ht
          rw [hstep_flow ((m : Int)) (IsArcDirect_coe hm)]
          split_ifs with h3
          · omega
          · exact h1
        by_cases htw : g.tails n = w
        · have hexc_eq : (PushFlow g st f w (Opposite e)).node_excess w =
              st.node_excess w := by
            rw [hexcw', if_pos htw.symm]
            ring
          have heterm : (if Tail g e ≠ w then
              st.residual_arc_capacity (Opposite e) else 0) = 0 := by
            rw [if_neg (fun hc => hc (by rw [hne, Tail_coe]; exact htw))]
          have hbound' : (PushFlow g st f w (Opposite e)).node_excess w ≤
              (rest.map (fun e' => if Tail g e' ≠ w then
                (PushFlow g st f w (Opposite e)).residual_arc_capacity
                  (Opposite e') else 0)).sum := by
            rw [hexc_eq, hrest_sum]
            rw [List.map_cons, List.sum_cons, heterm] at hbound
            omega
          obtain ⟨ih1, ih2, ih3, ih4⟩ := ih (PushFlow g st f w (Opposite e))
            hI' hmem' hnd' hbound'
          refine ⟨ih1, ih2, ?_, ?_⟩
          · intro v hv hnf
            rw [ih3 v hv (hflowtrans v hv hnf), hstep_exc v, if_neg hv]
            by_cases hvt : v = g.tails n
            · exfalso
              rw [htw] at hvt
              exact hv hvt
            · rw [if_neg hvt]
              ring
          · intro e' he'
            refine le_trans (ih4 e' he') ?_
            rw [hstep_flow e' he']
            split_ifs with h
            · omega
            · exact le_refl _
        · have hexc_eq : (PushFlow g st f w (Opposite e)).node_excess w =
              st.node_excess w - f := by
            rw [hexcw', if_neg (fun hc => htw hc.symm)]
            ring
          have hfeq : f = st.residual_arc_capacity (Opposite e) := by
            rcases le_total (st.node_excess w)
              (st.residual_arc_capacity (Opposite e)) with h | h
            · exfalso
              apply hz
              rw [hexc_eq, hfdef, min_eq_left h]
              ring
            · rw [hfdef]
              exact min_eq_right h
          have heterm : (if Tail g e ≠ w then
              st.residual_arc_capacity (Opposite e) else 0) =
              st.residual_arc_capacity (Opposite e) := by
            rw [if_pos (show Tail g e ≠ w by rw [hne, Tail_coe]; exact htw)]
          have hbound' : (PushFlow g st f w (Opposite e)).node_excess w ≤
              (rest.map (fun e' => if Tail g e' ≠ w then
                (PushFlow g st f w (Opposite e)).residual_arc_capacity
                  (Opposite e') else 0)).sum := by
            rw [hexc_eq, hrest_sum]
            rw [List.map_cons, List.sum_cons, heterm] at hbound
            omega
          obtain ⟨ih1, ih2, ih3, ih4⟩ := ih (PushFlow g st f w (Opposite e))
            hI' hmem' hnd' hbound'
          refine ⟨ih1, ih2, ?_, ?_⟩
          · intro v hv hnf
            rw [ih3 v hv (hflowtrans v hv hnf), hstep_exc v, if_neg hv]
            by_cases hvt : v = g.tails n
            · exfalso
              have h1 := hnf n hn hhn hvt.symm
              rw [Flow_direct (IsArcDirect_coe hn)] at h1
              rw [hne] at hF
              omega
            · rw [if_neg hvt]
              ring
          · intro e' he'
            refine le_trans (ih4 e' he') ?_
            rw [hstep_flow e' he']
            split_ifs with h
            · omega
            · exact le_refl _
    · rw [if_neg hF]
      have hbound' : st.node_excess w ≤
          (rest.map (fun e' => if Tail g e' ≠ w then
            st.residual_arc_capacity (Opposite e') else 0)).sum := by
        rw [List.map_cons, List.sum_cons] at hbound
        have hterm0 : (if Tail g e ≠ w then
            st.residual_arc_capacity (Opposite e) else 0) = 0 := by
          split_ifs
          · omega
          · rfl
        omega
      exact ih st hI hmem' hnd' hbound'

theorem ReturnExcess_cons (g : FlowGraph) (w : Nat) (rest : List Nat)
    (st : MFState) :
    ReturnExcess g (w :: rest) st =
      if st.node_excess w = 0 then ReturnExcess g rest st
      else ReturnExcess g rest
        (ReturnExcessScan g w (IncomingArcs g w) st) := rfl

/-- The excess-return phase over the reverse topological order zeroes the
excess of every interior node while preserving the invariant. -/
theorem ReturnExcess_inv {g : FlowGraph} {source sink : Nat} :
    ∀ (todo : List Nat) (st : MFState),
    Inv g source sink st →
    Respect g st source sink todo →
    (∀ w ∈ todo, w < g.numNodes ∧ w ≠ source ∧ w ≠ sink) →
    (∀ v, v < g.numNodes → v ≠ source → v ≠ sink → v ∉ todo →
      st.node_excess v = 0) →
    Inv g source sink (ReturnExcess g todo st) ∧
    (∀ v, v < g.numNodes → v ≠ source → v ≠ sink →
      (ReturnExcess g todo st).node_excess v = 0) := by
  intro todo
  induction todo with
  | nil =>
    intro st hI _ _ hz
    exact ⟨hI, fun v h1 h2 h3 => hz v h1 h2 h3 (List.not_mem_nil v)⟩
  | cons w rest ih =>
    intro st hI hR hmem hz
    obtain ⟨hwlt, hws, hwt⟩ := hmem w (List.mem_cons_self _ _)
    have hmem' : ∀ x ∈ rest, x < g.numNodes ∧ x ≠ source ∧ x ≠ sink :=
      fun x hx => hmem x (List.mem_cons_of_mem _ hx)
    have hwres : w < g.nodeReservation := by
      have := g.reservation_ok
      omega
    rw [ReturnExcess_cons]
    by_cases h0 : st.node_excess w = 0
    · rw [if_pos h0]
      refine ih st hI hR.2 hmem' ?_
      intro v h1 h2 h3 h4
      by_cases hvw : v = w
      · rw [hvw]
        exact h0
      · exact hz v h1 h2 h3
          (fun hc => (List.mem_cons.1 hc).elim hvw h4)
    · rw [if_neg h0]
      obtain ⟨hd1, hd2, hd3, hd4⟩ := ReturnExcessScan_drain hws hwt hwres
        (IncomingArcs g w) st hI (fun e he => mem_IncomingArcs he)
        (IncomingArcs_nodup g w) (excess_le_inflow hI w hwres)
      refine ih _ hd1 ?_ hmem' ?_
      · exact Respect_mono g st _ source sink
          (fun a ha hf => lt_of_lt_of_le hf (hd4 _ (IsArcDirect_coe ha)))
          rest hR.2
      · intro v h1 h2 h3 h4
        by_cases hvw : v = w
        · rw [hvw]
          exact hd2
        · have hnf : ∀ m : Nat, m < g.numArcs → g.heads m = w →
              g.tails m = v → Flow g st ((m : Int)) ≤ 0 := by
            intro m hm hh ht
            by_contra hpos
            have hpos' : 0 < Flow g st ((m : Int)) := lt_of_not_le hpos
            rcases hR.1 m hm hpos' hh with hc | hc | hc
            · rw [ht] at hc
              exact h2 hc
            · rw [ht] at hc
              exact h3 hc
            · rw [ht] at hc
              rcases List.mem_cons.1 hc with hc2 | hc2
              · exact hvw hc2
              · exact h4 hc2
          rw [hd3 v hvw hnf]
          exact hz v h1 h2 h3
            (fun hc => (List.mem_cons.1 hc).elim hvw h4)

theorem PFEBS_eq (g : FlowGraph) (source sink : Nat) (fuel : Nat)
    (st : MFState) :
    PushFlowExcessBackToSource g source sink fuel st =
      match DfsLoop g fuel
          { st := st
            stored := Function.update (fun _ : Nat => false) sink true
            visited := Function.update
              (Function.update (fun _ : Nat => false) sink true) source true
            arc_stack :=
              (OutgoingArcs g source).filter (fun a => Flow g st a > 0)
            index_branch := []
            reverse_topological_order := [] } with
      | none => none
      | some d => some (ReturnExcess g d.reverse_topological_order d.st) :=
  rfl

/-- Postcondition of `PushFlowExcessBackToSource()`: the invariant holds
and every node other than the source and the sink has zero excess. -/
theorem PFEBS_post {g : FlowGraph} {source sink : Nat} {st st' : MFState}
    {fuel : Nat}
    (hI : Inv g source sink st)
    (hss : source ≠ sink)
    (hrun : PushFlowExcessBackToSource g source sink fuel st = some st') :
    Inv g source sink st' ∧
    (∀ v, v < g.numNodes → v ≠ source → v ≠ sink →
      st'.node_excess v = 0) := by
  rw [PFEBS_eq] at hrun
  rcases hL : DfsLoop g fuel
      { st := st
        stored := Function.update (fun _ : Nat => false) sink true
        visited := Function.update
          (Function.update (fun _ : Nat => false) sink true) source true
        arc_stack :=
          (OutgoingArcs g source).filter (fun a => Flow g st a > 0)
        index_branch := []
        reverse_topological_order := [] } with _ | d
  · rw [hL] at hrun
    exact Option.noConfusion hrun
  · rw [hL] at hrun
    have hst' : ReturnExcess g d.reverse_topological_order d.st = st' :=
      Option.some.inj hrun
    have hD0 : DInv g source sink
        { st := st
          stored := Function.update (fun _ : Nat => false) sink true
          visited := Function.update
            (Function.update (fun _ : Nat => false) sink true) source true
          arc_stack :=
            (OutgoingArcs g source).filter (fun a => Flow g st a > 0)
          index_branch := []
          reverse_topological_order := [] } :=
      DInv_entry hI hss rfl rfl rfl rfl rfl rfl
    obtain ⟨hDd, hempty⟩ := DfsLoop_inv fuel _ d hD0 hL
    obtain ⟨hz, hout, hresp⟩ := dfs_end_zero hDd hempty
    have hrtoprops : ∀ w ∈ d.reverse_topological_order,
        w < g.numNodes ∧ w ≠ source ∧ w ≠ sink := by
      intro w hw
      exact ⟨hDd.rto_lt w hw, hDd.rto_ne_source w hw,
        ((hDd.rto_iff w).1 hw).2⟩
    have hcinit : ∀ v, v < g.numNodes → v ≠ source → v ≠ sink →
        v ∉ d.reverse_topological_order → d.st.node_excess v = 0 := by
      intro v h1 h2 h3 h4
      have hstv : d.stored v = false := by
        rcases Bool.eq_false_or_eq_true (d.stored v) with h | h
        · exact absurd ((hDd.rto_iff v).2 ⟨h, h3⟩) h4
        · exact h
      exact hz v h1 h2 hstv
    obtain ⟨hIfin, hzfin⟩ := ReturnExcess_inv d.reverse_topological_order
      d.st hDd.inv hresp hrtoprops hcinit
    rw [← hst']
    exact ⟨hIfin, hzfin⟩

theorem initFold_potential (g : FlowGraph) (l : List Nat) (st : MFState) :
    (l.foldl (fun st (a : Nat) => SetCapacityAndClearFlow st ((a : Int))
      (Capacity g st ((a : Int)))) st).node_potential =
      st.node_potential := by
  induction l generalizing st with
  | nil => rfl
  | cons b rest ih =>
    rw [List.foldl_cons, ih, SetCapacityAndClearFlow_potential]

theorem InitializePreflow_potential (g : FlowGraph) (source : Nat)
    (st : MFState) :
    (InitializePreflow g source st).node_potential =
      Function.update (fun v => if v < g.nodeReservation then 0
        else st.node_potential v) source g.numNodes := by
  unfold InitializePreflow
  simp only [initFold_potential]

/-- `InitializePreflow()` establishes the state invariant whenever all arc
capacities are nonnegative. -/
theorem Inv_InitializePreflow {g : FlowGraph} (source sink : Nat)
    (st : MFState)
    (hsource : source < g.numNodes)
    (hcap : ∀ a : Nat, a < g.numArcs → 0 ≤ Capacity g st ((a : Int))) :
    Inv g source sink (InitializePreflow g source st) := by
  have hsc := SameCaps_InitializePreflow g source st
  have hflow0 := InitializePreflow_flow_zero g source st
  have hexc := InitializePreflow_excess g source st
  have hoppzero : ∀ arc, IsArcDirect g arc = true →
      (InitializePreflow g source st).residual_arc_capacity
        (Opposite arc) = 0 := by
    intro arc hd
    have h1 := hflow0 arc hd
    rw [Flow_direct hd] at h1
    exact h1
  have hdirval : ∀ arc, IsArcDirect g arc = true →
      (InitializePreflow g source st).residual_arc_capacity arc =
        Capacity g st arc := by
    intro arc hd
    have h1 := hsc arc
    have h2 := hoppzero arc hd
    have h3 : Capacity g st arc = st.residual_arc_capacity arc +
        st.residual_arc_capacity (Opposite arc) := by
      unfold Capacity
      rw [if_pos hd]
    omega
  have hQpos : (0 : Int) ≤ kMaxFlowQuantity := by
    unfold kMaxFlowQuantity
    norm_num
  refine ⟨?_, ?_, ?_, ?_, ?_, ?_, ?_⟩
  · intro b hb
    by_cases hd : IsArcDirect g b = true
    · rw [hdirval b hd]
      obtain ⟨h1, h2, h3⟩ := (IsArcDirect_iff g b).1 hd
      have h4 := hcap b.toNat (by omega)
      rw [show ((b.toNat : Int)) = b from by omega] at h4
      exact h4
    · obtain ⟨h1, h2⟩ := IsArcValid_iff.1 hb
      have hneg : b < 0 := by
        by_contra hpos
        exact hd ((IsArcDirect_iff g b).2 ⟨h1, h2, by omega⟩)
      have hod : IsArcDirect g (Opposite b) = true := by
        refine (IsArcDirect_iff g _).2 ⟨?_, ?_, ?_⟩ <;>
          (unfold Opposite; omega)
      have h3 := hoppzero (Opposite b) hod
      rw [Opposite_Opposite] at h3
      omega
  · intro v hv
    rw [hexc v, if_pos hv]
    refine (Finset.sum_eq_zero ?_).symm
    intro a ha
    rw [Finset.mem_range] at ha
    rw [hoppzero ((a : Int)) (IsArcDirect_coe ha)]
    split_ifs <;> ring
  · intro v hv _
    rw [hexc v, if_pos hv]
  · have hsres : source < g.nodeReservation := by
      have := g.reservation_ok
      omega
    rw [hexc source, if_pos hsres]
    omega
  · rw [InitializePreflow_potential, Function.update_same]
  · intro a ha _
    exact hoppzero ((a : Int)) (IsArcDirect_coe ha)
  · intro a ha _ _
    exact hoppzero ((a : Int)) (IsArcDirect_coe ha)

theorem SaturateScan_cons (g : FlowGraph) (source : Nat) (arc : Int)
    (rest : List Int) (st : MFState) (fp : Bool) :
    SaturateScan g source (arc :: rest) st fp =
      if st.residual_arc_capacity arc = 0 ∨
          st.node_potential (Head g arc) ≥ g.numNodes then
        SaturateScan g source rest st fp
      else if kMaxFlowQuantity - -st.node_excess source <
          st.residual_arc_capacity arc then
        (if kMaxFlowQuantity - -st.node_excess source = 0 then (st, true)
         else (PushFlow g st (kMaxFlowQuantity - -st.node_excess source)
           source arc, true))
      else SaturateScan g source rest
        (PushFlow g st (st.residual_arc_capacity arc) source arc) true :=
  rfl

theorem SaturateScan_Inv {g : FlowGraph} {source sink : Nat}
    (hss : source ≠ sink) :
    ∀ (l : List Int) (st : MFState) (fp : Bool),
    Inv g source sink st →
    (∀ e ∈ l, e ∈ OutgoingArcs g source) →
    Inv g source sink (SaturateScan g source l st fp).1 := by
  intro l
  induction l with
  | nil =>
    intro st fp hI _
    exact hI
  | cons arc rest ih =>
    intro st fp hI hmem
    rcases mem_OutgoingArcs (hmem arc (List.mem_cons_self _ _)) with
      ⟨n, hne, hn, htn⟩
    have hv : IsArcValid g arc = true := by
      rw [hne]
      exact IsArcValid_coe hn
    have ht : Tail g arc = source := by
      rw [hne, Tail_coe]
      exact htn
    have hmem' : ∀ e ∈ rest, e ∈ OutgoingArcs g source :=
      fun e he => hmem e (List.mem_cons_of_mem _ he)
    rw [SaturateScan_cons]
    by_cases h1 : st.residual_arc_capacity arc = 0 ∨
        st.node_potential (Head g arc) ≥ g.numNodes
    · rw [if_pos h1]
      exact ih st fp hI hmem'
    · rw [if_neg h1]
      have hpot_lt : ¬ st.node_potential (Head g arc) ≥ g.numNodes :=
        fun hc => h1 (Or.inr hc)
      have hres0 : 0 ≤ st.residual_arc_capacity arc := hI.res_nonneg arc hv
      have hhead_ne : Head g arc ≠ source := by
        intro hc
        apply hpot_lt
        rw [hc, hI.pot_source]
      have hcap0 : 0 ≤ kMaxFlowQuantity - -st.node_excess source := by
        have := hI.source_bound
        omega
      by_cases h2 : kMaxFlowQuantity - -st.node_excess source <
          st.residual_arc_capacity arc
      · rw [if_pos h2]
        by_cases h3 : kMaxFlowQuantity - -st.node_excess source = 0
        · rw [if_pos h3]
          exact hI
        · rw [if_neg h3]
          exact Inv_PushFlow hI hv ht hcap0 (le_of_lt h2) hss
            (fun _ => Or.inl hhead_ne) (Or.inr rfl) (fun _ => by omega)
      · rw [if_neg h2]
        refine ih _ true ?_ hmem'
        exact Inv_PushFlow hI hv ht hres0 (le_refl _) hss
          (fun _ => Or.inl hhead_ne) (Or.inr rfl) (fun _ => by omega)

theorem SaturateScan_false {g : FlowGraph} {source : Nat} :
    ∀ (l : List Int) (st : MFState) (fp : Bool),
    (SaturateScan g source l st fp).2 = false →
    (SaturateScan g source l st fp).1 = st ∧ fp = false := by
  intro l
  induction l with
  | nil =>
    intro st fp h
    exact ⟨rfl, h⟩
  | cons arc rest ih =>
    intro st fp h
    rw [SaturateScan_cons] at h ⊢
    by_cases h1 : st.residual_arc_capacity arc = 0 ∨
        st.node_potential (Head g arc) ≥ g.numNodes
    · rw [if_pos h1] at h ⊢
      exact ih st fp h
    · rw [if_neg h1] at h ⊢
      by_cases h2 : kMaxFlowQuantity - -st.node_excess source <
          st.residual_arc_capacity arc
      · rw [if_pos h2] at h
        by_cases h3 : kMaxFlowQuantity - -st.node_excess source = 0
        · rw [if_pos h3] at h
          exact Bool.noConfusion h
        · rw [if_neg h3] at h
          exact Bool.noConfusion h
      · rw [if_neg h2] at h
        obtain ⟨_, h5⟩ := ih _ true h
        exact Bool.noConfusion h5

/-- `SaturateOutgoingArcsFromSource()` preserves the invariant, and when it
reports that no flow was pushed it leaves the state untouched. -/
theorem Saturate_cases {g : FlowGraph} {source sink : Nat} {st : MFState}
    (hss : source ≠ sink) (hI : Inv g source sink st) :
    Inv g source sink (SaturateOutgoingArcsFromSource g source sink st).1 ∧
    ((SaturateOutgoingArcsFromSource g source sink st).2 = false →
      (SaturateOutgoingArcsFromSource g source sink st).1 = st) := by
  unfold SaturateOutgoingArcsFromSource
  split_ifs with h1 h2
  · exact ⟨hI, fun _ => rfl⟩
  · exact ⟨hI, fun _ => rfl⟩
  · refine ⟨SaturateScan_Inv hss _ st false hI (fun e he => he), ?_⟩
    intro h
    exact (SaturateScan_false _ st false h).1

theorem Inv_Relabel {g : FlowGraph} {source sink : Nat} {st : MFState}
    (hI : Inv g source sink st) (node : Nat) (hns : node ≠ source) :
    Inv g source sink (Relabel g st node) := by
  obtain ⟨mh, fa, hmf⟩ : ∃ mh fa, (mh, fa) =
      RelabelScan g st (st.node_potential node) (IncidentArcs g node)
        (2 ^ 31 - 1) none := ⟨_, _, Prod.mk.eta⟩
  have hmfs := hmf.symm
  refine Inv_congr hI ?_ ?_ ?_
  · simp only [Relabel, hmfs]
  · simp only [Relabel, hmfs]
  · simp only [Relabel, hmfs]
    exact Function.update_noteq (fun hc => hns hc.symm) _ _

theorem DischargeScan_cons (g : FlowGraph) (node : Nat) (arc : Int)
    (rest : List Int) (st : MFState) :
    DischargeScan g node (arc :: rest) st =
      if IsAdmissible g st node arc then
        (let st1 := if st.node_excess (Head g arc) = 0 then
            PushActiveNode st (Head g arc) else st
         let st2 := FastPushFlow g st1 (min (st1.node_excess node)
            (st1.residual_arc_capacity arc)) node arc
         if st2.node_excess node = 0 then
           ({ st2 with first_admissible_arc :=
              Function.update st2.first_admissible_arc node (some arc) },
            true)
         else DischargeScan g node rest st2)
      else DischargeScan g node rest st := rfl

theorem DischargeScan_Inv {g : FlowGraph} {source sink node : Nat}
    (hns : node ≠ source) (hnt : node ≠ sink) :
    ∀ (l : List Int) (st : MFState),
    Inv g source sink st →
    (∀ e ∈ l, e ∈ IncidentArcs g node) →
    Inv g source sink (DischargeScan g node l st).1 := by
  intro l
  induction l with
  | nil =>
    intro st hI _
    exact hI
  | cons arc rest ih =>
    intro st hI hmem
    obtain ⟨hv, ht⟩ :=
      mem_IncidentArcs_facts (hmem arc (List.mem_cons_self _ _))
    have hmem' : ∀ e ∈ rest, e ∈ IncidentArcs g node :=
      fun e he => hmem e (List.mem_cons_of_mem _ he)
    by_cases hadm : IsAdmissible g st node arc = true
    · have hres_pos : 0 < st.residual_arc_capacity arc := by
        rw [IsAdmissible, Bool.and_eq_true] at hadm
        exact of_decide_eq_true hadm.1
      have hnode_lt : node < g.numNodes := by
        rw [← ht]
        exact Tail_lt hv
      have hnode_res : node < g.nodeReservation :=
        lt_of_lt_of_le hnode_lt g.reservation_ok
      obtain ⟨st1, hst1⟩ : ∃ st1, st1 =
          (if st.node_excess (Head g arc) = 0 then
            PushActiveNode st (Head g arc) else st) := ⟨_, rfl⟩
      have hI1 : Inv g source sink st1 := by
        rw [hst1]
        split_ifs
        · exact Inv_congr hI rfl rfl rfl
        · exact hI
      have hexc1 : st1.node_excess = st.node_excess := by
        rw [hst1]
        split_ifs <;> rfl
      have hres1 : st1.residual_arc_capacity =
          st.residual_arc_capacity := by
        rw [hst1]
        split_ifs <;> rfl
      have hd0 : 0 ≤ min (st1.node_excess node)
          (st1.residual_arc_capacity arc) := by
        refine le_min ?_ ?_
        · rw [hexc1]
          exact hI.interior_nonneg node hnode_res hns
        · rw [hres1]
          omega
      have hI2 : Inv g source sink (FastPushFlow g st1
          (min (st1.node_excess node) (st1.residual_arc_capacity arc))
          node arc) :=
        Inv_PushFlow hI1 hv ht hd0 (min_le_right _ _) hnt
          (fun hc => absurd hc hns) (Or.inl (min_le_left _ _))
          (fun hc => absurd hc hns)
      have heq : DischargeScan g node (arc :: rest) st =
          (if (FastPushFlow g st1 (min (st1.node_excess node)
              (st1.residual_arc_capacity arc)) node arc).node_excess node
              = 0 then
            ({ FastPushFlow g st1 (min (st1.node_excess node)
                (st1.residual_arc_capacity arc)) node arc with
               first_admissible_arc := Function.update (FastPushFlow g st1
                 (min (st1.node_excess node)
                   (st1.residual_arc_capacity arc))
                 node arc).first_admissible_arc node (some arc) }, true)
          else DischargeScan g node rest (FastPushFlow g st1
            (min (st1.node_excess node) (st1.residual_arc_capacity arc))
            node arc)) := by
        rw [hst1]
        show DischargeScan g node (arc :: rest) st = _
        rw [DischargeScan_cons, if_pos hadm]
      rw [heq]
      split_ifs with hz
      · exact Inv_congr hI2 rfl rfl rfl
      · exact ih _ hI2 hmem'
    · have heq : DischargeScan g node (arc :: rest) st =
          DischargeScan g node rest st := by
        rw [DischargeScan_cons, if_neg hadm]
      rw [heq]
      exact ih st hI hmem'

theorem Discharge_succ (g : FlowGraph) (node : Nat) (fuel : Nat)
    (st st1 : MFState) (b : Bool)
    (hsc : DischargeScan g node
      (IncidentArcsFrom g node (st.first_admissible_arc node)) st =
      (st1, b)) :
    Discharge g node (fuel + 1) st =
      if b = true then some st1
      else (if (Relabel g st1 node).node_potential node ≥ g.numNodes then
        some (Relabel g st1 node)
      else Discharge g node fuel (Relabel g st1 node)) := by
  simp only [Discharge]
  rw [hsc]
  cases b
  · rfl
  · rfl

theorem Discharge_Inv {g : FlowGraph} {source sink node : Nat}
    (hns : node ≠ source) (hnt : node ≠ sink) :
    ∀ (fuel : Nat) (st st' : MFState),
    Inv g source sink st →
    Discharge g node fuel st = some st' →
    Inv g source sink st' := by
  intro fuel
  induction fuel with
  | zero =>
    intro st st' _ h
    exact Option.noConfusion h
  | succ fuel ih =>
    intro st st' hI hrun
    rcases hsc : DischargeScan g node
        (IncidentArcsFrom g node (st.first_admissible_arc node)) st
      with ⟨st1, b⟩
    have hI1 : Inv g source sink st1 := by
      have h1 := DischargeScan_Inv hns hnt
        (IncidentArcsFrom g node (st.first_admissible_arc node)) st hI
        (fun e he => mem_IncidentArcsFrom he)
      rw [hsc] at h1
      exact h1
    rw [Discharge_succ g node fuel st st1 b hsc] at hrun
    cases b
    · rw [if_neg (fun h => Bool.noConfusion h)] at hrun
      have hI2 := Inv_Relabel hI1 node hns
      by_cases hpot : (Relabel g st1 node).node_potential node ≥
          g.numNodes
      · rw [if_pos hpot] at hrun
        rw [← Option.some.inj hrun]
        exact hI2
      · rw [if_neg hpot] at hrun
        exact ih _ _ hI2 hrun
    · rw [if_pos rfl] at hrun
      rw [← Option.some.inj hrun]
      exact hI1

theorem GlobalUpdateScan_cons (g : FlowGraph) (cd : Nat) (arc : Int)
    (rest : List Int) (st : MFState) (in_queue : Nat → Bool)
    (news : List Nat) :
    GlobalUpdateScan g cd (arc :: rest) st in_queue news =
      if in_queue (Head g arc) then
        GlobalUpdateScan g cd rest st in_queue news
      else if st.residual_arc_capacity (Opposite arc) > 0 then
        (let st1 := if st.node_excess (Head g arc) > 0 then
            FastPushFlow g st (min (st.node_excess (Head g arc))
              (st.residual_arc_capacity (Opposite arc))) (Head g arc)
              (Opposite arc)
          else st
         if st1.residual_arc_capacity (Opposite arc) = 0 then
           GlobalUpdateScan g cd rest st1 in_queue news
         else
           GlobalUpdateScan g cd rest
             { st1 with node_potential :=
                Function.update st1.node_potential (Head g arc) cd }
             (Function.update in_queue (Head g arc) true)
             (news ++ [Head g arc]))
      else GlobalUpdateScan g cd rest st in_queue news := rfl

theorem GlobalUpdateScan_Inv {g : FlowGraph} {source sink : Nat}
    (cd : Nat) :
    ∀ (l : List Int) (st : MFState) (in_queue : Nat → Bool)
      (news : List Nat),
    Inv g source sink st →
    in_queue source = true → in_queue sink = true →
    (∀ e ∈ l, IsArcValid g e = true) →
    Inv g source sink (GlobalUpdateScan g cd l st in_queue news).1 ∧
      (GlobalUpdateScan g cd l st in_queue news).2.1 source = true ∧
      (GlobalUpdateScan g cd l st in_queue news).2.1 sink = true := by
  intro l
  induction l with
  | nil =>
    intro st in_queue news hI hqs hqt _
    exact ⟨hI, hqs, hqt⟩
  | cons arc rest ih =>
    intro st in_queue news hI hqs hqt hval
    have hv : IsArcValid g arc = true := hval arc (List.mem_cons_self _ _)
    have hval' : ∀ e ∈ rest, IsArcValid g e = true :=
      fun e he => hval e (List.mem_cons_of_mem _ he)
    rw [GlobalUpdateScan_cons]
    by_cases hq : in_queue (Head g arc) = true
    · rw [if_pos hq]
      exact ih st in_queue news hI hqs hqt hval'
    · rw [if_neg hq]
      have hhs : Head g arc ≠ source := fun hc => hq (hc ▸ hqs)
      have hht : Head g arc ≠ sink := fun hc => hq (hc ▸ hqt)
      by_cases hr : st.residual_arc_capacity (Opposite arc) > 0
      · rw [if_pos hr]
        obtain ⟨st1, hst1⟩ : ∃ st1, st1 =
            (if st.node_excess (Head g arc) > 0 then
              FastPushFlow g st (min (st.node_excess (Head g arc))
                (st.residual_arc_capacity (Opposite arc))) (Head g arc)
                (Opposite arc)
            else st) := ⟨_, rfl⟩
        have hI1 : Inv g source sink st1 := by
          rw [hst1]
          split_ifs with hpos
          · exact Inv_PushFlow hI
              (by rw [IsArcValid_Opposite]; exact hv)
              (Tail_Opposite g arc)
              (le_min (le_of_lt hpos) (le_of_lt hr))
              (min_le_right _ _) hht
              (fun hc => absurd hc hhs)
              (Or.inl (min_le_left _ _))
              (fun hc => absurd hc hhs)
          · exact hI
        rw [← hst1]
        by_cases hz : st1.residual_arc_capacity (Opposite arc) = 0
        · rw [if_pos hz]
          exact ih st1 in_queue news hI1 hqs hqt hval'
        · rw [if_neg hz]
          have hI2 : Inv g source sink
              { st1 with node_potential :=
                Function.update st1.node_potential (Head g arc) cd } :=
            Inv_congr hI1 rfl rfl
              (Function.update_noteq (Ne.symm hhs) _ _)
          have hqs' : Function.update in_queue (Head g arc) true source
              = true := by
            rw [Function.update_apply]
            split_ifs
            · rfl
            · exact hqs
          have hqt' : Function.update in_queue (Head g arc) true sink
              = true := by
            rw [Function.update_apply]
            split_ifs
            · rfl
            · exact hqt
          exact ih _ _ _ hI2 hqs' hqt' hval'
      · rw [if_neg hr]
        exact ih st in_queue news hI hqs hqt hval'

theorem GlobalUpdateBfs_succ_cons (g : FlowGraph) (fuel : Nat)
    (st : MFState) (in_queue : Nat → Bool) (node : Nat) (rest acc : List Nat)
    (st' : MFState) (iq' : Nat → Bool) (news : List Nat)
    (hsc : GlobalUpdateScan g (st.node_potential node + 1)
      (IncidentArcs g node) st in_queue [] = (st', iq', news)) :
    GlobalUpdateBfs g (fuel + 1) st in_queue (node :: rest) acc =
      GlobalUpdateBfs g fuel st' iq' (rest ++ news) (acc ++ news) := by
  simp only [GlobalUpdateBfs]
  rw [hsc]

theorem GlobalUpdateBfs_Inv {g : FlowGraph} {source sink : Nat} :
    ∀ (fuel : Nat) (st : MFState) (in_queue : Nat → Bool)
      (queue acc : List Nat)
      (out : MFState × (Nat → Bool) × List Nat),
    Inv g source sink st →
    in_queue source = true → in_queue sink = true →
    GlobalUpdateBfs g fuel st in_queue queue acc = some out →
    Inv g source sink out.1 ∧ out.2.1 source = true ∧
      out.2.1 sink = true := by
  intro fuel
  induction fuel with
  | zero =>
    intro st in_queue queue acc out _ _ _ h
    exact Option.noConfusion h
  | succ fuel ih =>
    intro st in_queue queue acc out hI hqs hqt hrun
    match queue with
    | [] =>
      have : (st, in_queue, acc) = out := Option.some.inj hrun
      rw [← this]
      exact ⟨hI, hqs, hqt⟩
    | node :: rest =>
      rcases hsc : GlobalUpdateScan g (st.node_potential node + 1)
          (IncidentArcs g node) st in_queue [] with ⟨st', iq', news⟩
      have hstep := GlobalUpdateScan_Inv (st.node_potential node + 1)
        (IncidentArcs g node) st in_queue [] hI hqs hqt
        (fun e he => (mem_IncidentArcs_facts he).1)
      rw [hsc] at hstep
      rw [GlobalUpdateBfs_succ_cons g fuel st in_queue node rest acc
        st' iq' news hsc] at hrun
      exact ih st' iq' (rest ++ news) (acc ++ news) out hstep.1
        hstep.2.1 hstep.2.2 hrun

theorem activeFold_Inv {g : FlowGraph} {source sink : Nat} :
    ∀ (l : List Nat) (st : MFState), Inv g source sink st →
    Inv g source sink (l.foldl
      (fun st node =>
        if st.node_excess node > 0 then PushActiveNode st node else st)
      st) := by
  intro l
  induction l with
  | nil => exact fun st hI => hI
  | cons node rest ih =>
    intro st hI
    rw [List.foldl_cons]
    refine ih _ ?_
    split_ifs
    · exact Inv_congr hI rfl rfl rfl
    · exact hI

theorem GlobalUpdate_eq (g : FlowGraph) (source sink : Nat) (fuel : Nat)
    (st : MFState) :
    GlobalUpdate g source sink fuel st =
      match GlobalUpdateBfs g fuel st
          (Function.update (Function.update (fun _ : Nat => false) sink true)
            source true) [sink] [sink] with
      | none => none
      | some (st1, iq, bq) =>
        some ((bq.drop 1).foldl
          (fun st node =>
            if st.node_excess node > 0 then PushActiveNode st node else st)
          { st1 with node_potential := fun v =>
              if v < g.numNodes ∧ iq v = false then 2 * g.numNodes - 1
              else st1.node_potential v }) := rfl

theorem GlobalUpdate_Inv {g : FlowGraph} {source sink : Nat}
    {fuel : Nat} {st st' : MFState}
    (hI : Inv g source sink st)
    (hrun : GlobalUpdate g source sink fuel st = some st') :
    Inv g source sink st' := by
  have hqs0 : (Function.update (Function.update (fun _ : Nat => false)
      sink true) source true) source = true := Function.update_same _ _ _
  have hqt0 : (Function.update (Function.update (fun _ : Nat => false)
      sink true) source true) sink = true := by
    rw [Function.update_apply]
    split_ifs
    · rfl
    · exact Function.update_same _ _ _
  rw [GlobalUpdate_eq] at hrun
  rcases hbfs : GlobalUpdateBfs g fuel st
      (Function.update (Function.update (fun _ : Nat => false) sink true)
        source true) [sink] [sink] with _ | ⟨st1, iq1, bq⟩
  · rw [hbfs] at hrun
    exact Option.noConfusion hrun
  · rw [hbfs] at hrun
    obtain ⟨hI1, hqs1, hqt1⟩ := GlobalUpdateBfs_Inv fuel st _ [sink] [sink]
      (st1, iq1, bq) hI hqs0 hqt0 hbfs
    have hqs1' : iq1 source = true := hqs1
    have hI2 : Inv g source sink
        { st1 with node_potential := fun v =>
            if v < g.numNodes ∧ iq1 v = false then 2 * g.numNodes - 1
            else st1.node_potential v } :=
      Inv_congr hI1 rfl rfl (by simp [hqs1'])
    have := activeFold_Inv (bq.drop 1) _ hI2
    rw [Option.some.inj hrun] at this
    exact this

theorem RefineInner_succ_none (g : FlowGraph) (source sink fuel : Nat)
    (st : MFState) (skip : Nat → Nat) (ns : Nat)
    (hpop : PQPop st.active_node_by_height = none) :
    RefineInner g source sink (fuel + 1) st skip ns = some (st, ns) := by
  simp only [RefineInner]
  rw [hpop]

theorem RefineInner_succ_some (g : FlowGraph) (source sink fuel : Nat)
    (st : MFState) (skip : Nat → Nat) (ns : Nat) (node : Nat)
    (q : PriorityQueueWithRestrictedPush Nat)
    (hpop : PQPop st.active_node_by_height = some (node, q)) :
    RefineInner g source sink (fuel + 1) st skip ns =
      (if skip node > 1 then
        RefineInner g source sink fuel
          { st with active_node_by_height := q } skip
          (if node ≠ sink ∧ node ≠ source then ns + 1 else ns)
      else
        match Discharge g node (fuel + 1)
            { st with active_node_by_height := q } with
        | none => none
        | some st2 =>
          RefineInner g source sink fuel st2
            (if st2.node_potential node > st.node_potential node + 1 then
              Function.update skip node (skip node + 1)
            else skip) ns) := by
  simp only [RefineInner]
  rw [hpop]

theorem RefineInner_Inv {g : FlowGraph} {source sink : Nat} :
    ∀ (fuel : Nat) (st : MFState) (skip : Nat → Nat) (ns : Nat)
      (out : MFState × Nat),
    Inv g source sink st →
    skip source > 1 → skip sink > 1 →
    RefineInner g source sink fuel st skip ns = some out →
    Inv g source sink out.1 := by
  intro fuel
  induction fuel with
  | zero =>
    intro st skip ns out _ _ _ h
    exact Option.noConfusion h
  | succ fuel ih =>
    intro st skip ns out hI hs hsk hrun
    rcases hpop : PQPop st.active_node_by_height with _ | ⟨node, q⟩
    · rw [RefineInner_succ_none g source sink fuel st skip ns hpop] at hrun
      rw [← Option.some.inj hrun]
      exact hI
    · rw [RefineInner_succ_some g source sink fuel st skip ns node q
        hpop] at hrun
      have hI' : Inv g source sink
          { st with active_node_by_height := q } :=
        Inv_congr hI rfl rfl rfl
      by_cases hskip : skip node > 1
      · rw [if_pos hskip] at hrun
        exact ih _ _ _ _ hI' hs hsk hrun
      · rw [if_neg hskip] at hrun
        have hns : node ≠ source := fun hc => hskip (hc ▸ hs)
        have hnt : node ≠ sink := fun hc => hskip (hc ▸ hsk)
        rcases hdis : Discharge g node (fuel + 1)
            { st with active_node_by_height := q } with _ | st2
        · rw [hdis] at hrun
          exact Option.noConfusion hrun
        · rw [hdis] at hrun
          have hrun' : RefineInner g source sink fuel st2
              (if st2.node_potential node > st.node_potential node + 1 then
                Function.update skip node (skip node + 1)
              else skip) ns = some out := hrun
          have hI2 : Inv g source sink st2 :=
            Discharge_Inv hns hnt (fuel + 1) _ st2 hI' hdis
          by_cases hpot : st2.node_potential node >
              st.node_potential node + 1
          · rw [if_pos hpot] at hrun'
            have hs' : Function.update skip node (skip node + 1) source
                > 1 := by
              rw [Function.update_apply]
              split_ifs with h
              · exact absurd h.symm (Ne.symm hns).symm
              · exact hs
            have hsk' : Function.update skip node (skip node + 1) sink
                > 1 := by
              rw [Function.update_apply]
              split_ifs with h
              · exact absurd h.symm (Ne.symm hnt).symm
              · exact hsk
            exact ih _ _ _ _ hI2 hs' hsk' hrun'
          · rw [if_neg hpot] at hrun'
            exact ih _ _ _ _ hI2 hs hsk hrun'

theorem RefineDo_succ_none (g : FlowGraph) (source sink fuel : Nat)
    (st : MFState)
    (hgu : GlobalUpdate g source sink (fuel + 1) st = none) :
    RefineDo g source sink (fuel + 1) st = none := by
  simp only [RefineDo]
  rw [hgu]

theorem RefineDo_succ_some (g : FlowGraph) (source sink fuel : Nat)
    (st st1 : MFState)
    (hgu : GlobalUpdate g source sink (fuel + 1) st = some st1) :
    RefineDo g source sink (fuel + 1) st =
      (match RefineInner g source sink (fuel + 1) st1
          (Function.update (Function.update (fun _ : Nat => 0) sink 2)
            source 2) 0 with
      | none => none
      | some (st2, ns) =>
        if ns > 0 then RefineDo g source sink fuel st2 else some st2) := by
  simp only [RefineDo]
  rw [hgu]

theorem RefineDo_Inv {g : FlowGraph} {source sink : Nat} :
    ∀ (fuel : Nat) (st st' : MFState),
    Inv g source sink st →
    RefineDo g source sink fuel st = some st' →
    Inv g source sink st' := by
  intro fuel
  induction fuel with
  | zero =>
    intro st st' _ h
    exact Option.noConfusion h
  | succ fuel ih =>
    intro st st' hI hrun
    rcases hgu : GlobalUpdate g source sink (fuel + 1) st with _ | st1
    · rw [RefineDo_succ_none g source sink fuel st hgu] at hrun
      exact Option.noConfusion hrun
    · rw [RefineDo_succ_some g source sink fuel st st1 hgu] at hrun
      have hI1 : Inv g source sink st1 := GlobalUpdate_Inv hI hgu
      have hs0 : (Function.update (Function.update (fun _ : Nat => 0)
          sink 2) source 2) source > 1 := by
        rw [Function.update_same]
        omega
      have hsk0 : (Function.update (Function.update (fun _ : Nat => 0)
          sink 2) source 2) sink > 1 := by
        rw [Function.update_apply]
        split_ifs
        · omega
        · rw [Function.update_same]
          omega
      rcases hri : RefineInner g source sink (fuel + 1) st1
          (Function.update (Function.update (fun _ : Nat => 0) sink 2)
            source 2) 0 with _ | ⟨st2, ns⟩
      · rw [hri] at hrun
        exact Option.noConfusion hrun
      · rw [hri] at hrun
        have hrun' : (if ns > 0 then RefineDo g source sink fuel st2
            else some st2) = some st' := hrun
        have hI2 : Inv g source sink st2 :=
          RefineInner_Inv (fuel + 1) st1 _ 0 (st2, ns) hI1 hs0 hsk0 hri
        by_cases hns : ns > 0
        · rw [if_pos hns] at hrun'
          exact ih st2 st' hI2 hrun'
        · rw [if_neg hns] at hrun'
          rw [← Option.some.inj hrun']
          exact hI2

theorem RefineOuter_succ_false (g : FlowGraph) (source sink fuel : Nat)
    (st st1 : MFState)
    (hsat : SaturateOutgoingArcsFromSource g source sink st =
      (st1, false)) :
    RefineOuter g source sink (fuel + 1) st = some st1 := by
  simp only [RefineOuter]
  rw [hsat]

theorem RefineOuter_succ_true (g : FlowGraph) (source sink fuel : Nat)
    (st st1 : MFState)
    (hsat : SaturateOutgoingArcsFromSource g source sink st =
      (st1, true)) :
    RefineOuter g source sink (fuel + 1) st =
      (match RefineDo g source sink (fuel + 1) st1 with
      | none => none
      | some st2 =>
        match PushFlowExcessBackToSource g source sink (fuel + 1) st2 with
        | none => none
        | some st3 => RefineOuter g source sink fuel st3) := by
  simp only [RefineOuter]
  rw [hsat]

theorem RefineOuter_post {g : FlowGraph} {source sink : Nat}
    (hss : source ≠ sink) :
    ∀ (fuel : Nat) (st st' : MFState),
    Inv g source sink st →
    (∀ v, v < g.numNodes → v ≠ source → v ≠ sink →
      st.node_excess v = 0) →
    RefineOuter g source sink fuel st = some st' →
    Inv g source sink st' ∧
    (∀ v, v < g.numNodes → v ≠ source → v ≠ sink →
      st'.node_excess v = 0) := by
  intro fuel
  induction fuel with
  | zero =>
    intro st st' _ _ h
    exact Option.noConfusion h
  | succ fuel ih =>
    intro st st' hI hz hrun
    rcases hsat : SaturateOutgoingArcsFromSource g source sink st
      with ⟨st1, b⟩
    have hc := Saturate_cases hss hI
    rw [hsat] at hc
    obtain ⟨hI1, hfalse⟩ := hc
    cases b with
    | false =>
      rw [RefineOuter_succ_false g source sink fuel st st1 hsat] at hrun
      have hst1 : st1 = st := hfalse rfl
      rw [← Option.some.inj hrun, hst1]
      exact ⟨hI, hz⟩
    | true =>
      rw [RefineOuter_succ_true g source sink fuel st st1 hsat] at hrun
      rcases hdo : RefineDo g source sink (fuel + 1) st1 with _ | st2
      · rw [hdo] at hrun
        exact Option.noConfusion hrun
      · rw [hdo] at hrun
        have hrun' : (match PushFlowExcessBackToSource g source sink
              (fuel + 1) st2 with
            | none => none
            | some st3 => RefineOuter g source sink fuel st3) =
            some st' := hrun
        have hI2 : Inv g source sink st2 := RefineDo_Inv (fuel + 1) st1 st2
          hI1 hdo
        rcases hpf : PushFlowExcessBackToSource g source sink (fuel + 1) st2
          with _ | st3
        · rw [hpf] at hrun'
          exact Option.noConfusion hrun'
        · rw [hpf] at hrun'
          obtain ⟨hI3, hz3⟩ := PFEBS_post hI2 hss hpf
          exact ih st3 st' hI3 hz3 hrun'

theorem excess_antisym {g : FlowGraph} {source sink : Nat} {st : MFState}
    (hsource : source < g.numNodes) (hsink : sink < g.numNodes)
    (hss : source ≠ sink)
    (hI : Inv g source sink st)
    (hz : ∀ v, v < g.numNodes → v ≠ source → v ≠ sink →
      st.node_excess v = 0) :
    st.node_excess source = - st.node_excess sink := by
  have hres := g.reservation_ok
  have hsum := sum_Excess g st
  have h1 : ∀ v ∈ Finset.range g.nodeReservation, Excess g st v =
      (if v = source then st.node_excess source else 0) +
      (if v = sink then st.node_excess sink else 0) := by
    intro v hv
    have hv' : v < g.nodeReservation := Finset.mem_range.1 hv
    by_cases h1 : v = source
    · subst h1
      rw [if_pos rfl, if_neg hss, add_zero, ← hI.excess_derived _ hv']
    · rw [if_neg h1, zero_add]
      by_cases h2 : v = sink
      · subst h2
        rw [if_pos rfl, ← hI.excess_derived _ hv']
      · rw [if_neg h2]
        by_cases h3 : v < g.numNodes
        · rw [← hI.excess_derived _ hv']
          exact hz v h3 h1 h2
        · exact Excess_of_ge (by omega)
  rw [Finset.sum_congr rfl h1, Finset.sum_add_distrib,
    Finset.sum_ite_eq' _ source (fun _ => st.node_excess source),
    Finset.sum_ite_eq' _ sink (fun _ => st.node_excess sink),
    if_pos (Finset.mem_range.2 (by omega)),
    if_pos (Finset.mem_range.2 (by omega))] at hsum
  omega

/-- C1: if `Solve()` returns with `status() == OPTIMAL` (for a source and
sink inside the graph and nonnegative input capacities), then the residual
state encodes a flow: every node other than the source and the sink has
zero excess, and `excess[s] = -excess[t]`. -/
theorem c1_optimal_flow_conservation (g : FlowGraph) (source sink : Nat)
    (st : MFState) (fuel : Nat) (st2 : MFState) (b : Bool)
    (hsource : source < g.numNodes) (hsink : sink < g.numNodes)
    (hss : source ≠ sink)
    (hcap : ∀ a : Nat, a < g.numArcs → 0 ≤ Capacity g st ((a : Int)))
    (hrun : Solve g source sink st fuel = some (st2, b))
    (hopt : status st2 = Status.OPTIMAL) :
    (∀ v, v < g.numNodes → v ≠ source → v ≠ sink →
      st2.node_excess v = 0) ∧
    st2.node_excess source = - st2.node_excess sink := by
  have hguard : ¬(sink ≥ g.numNodes ∨ source ≥ g.numNodes) := by omega
  unfold Solve at hrun
  rw [if_neg hguard] at hrun
  rcases hrwg : RefineWithGlobalUpdate g source sink fuel
      (InitializePreflow g source { st with status := Status.NOT_SOLVED })
    with _ | st1
  · rw [hrwg] at hrun
    exact Option.noConfusion hrun
  · rw [hrwg] at hrun
    have hI0 : Inv g source sink (InitializePreflow g source
        { st with status := Status.NOT_SOLVED }) :=
      Inv_InitializePreflow source sink _ hsource hcap
    have hz0 : ∀ v, v < g.numNodes → v ≠ source → v ≠ sink →
        (InitializePreflow g source
          { st with status := Status.NOT_SOLVED }).node_excess v = 0 := by
      intro v hv _ _
      rw [InitializePreflow_excess]
      have := g.reservation_ok
      rw [if_pos (by omega)]
    obtain ⟨hI1, hz1⟩ := RefineOuter_post hss fuel _ st1 hI0 hz0 hrwg
    have hanti := excess_antisym hsource hsink hss hI1 hz1
    have hrun' : (if GetOptimalFlow { st1 with status := Status.OPTIMAL }
          sink = kMaxFlowQuantity then
        match AugmentingPathExists g { st1 with status := Status.OPTIMAL }
            source sink fuel with
        | none => none
        | some bb =>
          some ((if bb then { st1 with status := Status.INT_OVERFLOW }
            else { st1 with status := Status.OPTIMAL }), true)
      else some ({ st1 with status := Status.OPTIMAL }, true)) =
        some (st2, b) := hrun
    by_cases hq : GetOptimalFlow { st1 with status := Status.OPTIMAL } sink
        = kMaxFlowQuantity
    · rw [if_pos hq] at hrun'
      rcases hape : AugmentingPathExists g
          { st1 with status := Status.OPTIMAL } source sink fuel
        with _ | bb
      · rw [hape] at hrun'
        exact Option.noConfusion hrun'
      · rw [hape] at hrun'
        have hp : ((if bb then { st1 with status := Status.INT_OVERFLOW }
              else { st1 with status := Status.OPTIMAL }), true) =
            (st2, b) := Option.some.inj hrun'
        have hst2 : st2 = (if bb then
              { st1 with status := Status.INT_OVERFLOW }
            else { st1 with status := Status.OPTIMAL }) :=
          (congrArg Prod.fst hp).symm
        have hne : st2.node_excess = st1.node_excess := by
          rw [hst2]
          cases bb
          · rfl
          · rfl
        refine ⟨fun v hv h1 h2 => ?_, ?_⟩
        · rw [hne]
          exact hz1 v hv h1 h2
        · rw [hne]
          exact hanti
    · rw [if_neg hq] at hrun'
      have hp : ({ st1 with status := Status.OPTIMAL }, true) = (st2, b) :=
        Option.some.inj hrun'
      have hst2 : st2 = { st1 with status := Status.OPTIMAL } :=
        (congrArg Prod.fst hp).symm
      have hne : st2.node_excess = st1.node_excess := by
        rw [hst2]
      refine ⟨fun v hv h1 h2 => ?_, ?_⟩
      · rw [hne]
        exact hz1 v hv h1 h2
      · rw [hne]
        exact hanti

/-- Witness fixture for C1: the chain `0 -> 1 -> 2` on `wG` with capacities
`5` and `3`. -/
def c1St : MFState := SetArcCapacity wG (SetArcCapacity wG wSt 0 5) 1 3

/-- The state returned by `Solve` on the C1 witness fixture. -/
def c1WitSt : MFState := ((Solve wG 0 2 c1St 4).getD (wSt, true)).1

theorem c1_witness :
    ((0 : Nat) < wG.numNodes) ∧ ((2 : Nat) < wG.numNodes) ∧
    ((0 : Nat) ≠ 2) ∧
    (∀ a : Nat, a < wG.numArcs → 0 ≤ Capacity wG c1St ((a : Int))) ∧
    Solve wG 0 2 c1St 4 = some (c1WitSt, true) ∧
    status c1WitSt = Status.OPTIMAL ∧
    ((∀ v, v < wG.numNodes → v ≠ 0 → v ≠ 2 →
        c1WitSt.node_excess v = 0) ∧
      c1WitSt.node_excess 0 = - c1WitSt.node_excess 2) := by
  have hcap : ∀ a : Nat, a < wG.numArcs →
      0 ≤ Capacity wG c1St ((a : Int)) := by
    intro a ha
    have h2 : a < 2 := ha
    interval_cases a
    · decide
    · decide
  have hrun : Solve wG 0 2 c1St 4 = some (c1WitSt, true) := rfl
  have hopt : status c1WitSt = Status.OPTIMAL := rfl
  exact ⟨by decide, by decide, by decide, hcap, hrun, hopt,
    c1_optimal_flow_conservation wG 0 2 c1St 4 c1WitSt true (by decide)
      (by decide) (by decide) hcap hrun hopt⟩

/-- Spec-side notion for C2: a node is reachable from `source` along
residual-sense arcs of positive residual capacity, i.e. an augmenting-path
prefix exists (this is the graph search that `AugmentingPathExists()`
implements). -/
inductive ResReach (g : FlowGraph) (st : MFState) (source : Nat) :
    Nat → Prop
  | base : ResReach g st source source
  | step {u : Nat} {arc : Int} : ResReach g st source u →
      arc ∈ IncidentArcs g u → st.residual_arc_capacity arc > 0 →
      ResReach g st source (Head g arc)

theorem ResReach_congr {g : FlowGraph} {st st' : MFState} {source : Nat}
    (h : st'.residual_arc_capacity = st.residual_arc_capacity) :
    ∀ v, ResReach g st source v → ResReach g st' source v := by
  intro v hv
  induction hv with
  | base => exact ResReach.base
  | @step u arc _ harc hres ih =>
    exact ResReach.step ih harc (by rw [h]; exact hres)

theorem ReachScanArcs_cons (g : FlowGraph) (st : MFState) (arc : Int)
    (rest : List Int) (ir : Nat → Bool) (tp : List Nat) :
    ReachScanArcs g st (arc :: rest) ir tp =
      if st.residual_arc_capacity arc > 0 then
        (if ir (Head g arc) then ReachScanArcs g st rest ir tp
         else ReachScanArcs g st rest
           (Function.update ir (Head g arc) true) (Head g arc :: tp))
      else ReachScanArcs g st rest ir tp := rfl

theorem ReachScan_mono (g : FlowGraph) (st : MFState) :
    ∀ (l : List Int) (ir : Nat → Bool) (tp : List Nat) (v : Nat),
    ir v = true → (ReachScanArcs g st l ir tp).1 v = true := by
  intro l
  induction l with
  | nil => exact fun ir tp v h => h
  | cons arc rest ih =>
    intro ir tp v h
    rw [ReachScanArcs_cons]
    split_ifs with h1 h2
    · exact ih ir tp v h
    · refine ih _ _ v ?_
      rw [Function.update_apply]
      split_ifs with h3
      · rfl
      · exact h
    · exact ih ir tp v h

theorem ReachScan_tp_sub (g : FlowGraph) (st : MFState) :
    ∀ (l : List Int) (ir : Nat → Bool) (tp : List Nat) (v : Nat),
    v ∈ tp → v ∈ (ReachScanArcs g st l ir tp).2 := by
  intro l
  induction l with
  | nil => exact fun ir tp v h => h
  | cons arc rest ih =>
    intro ir tp v h
    rw [ReachScanArcs_cons]
    split_ifs with h1 h2
    · exact ih ir tp v h
    · exact ih _ _ v (List.mem_cons_of_mem _ h)
    · exact ih ir tp v h

theorem ReachScan_scanned (g : FlowGraph) (st : MFState) :
    ∀ (l : List Int) (ir : Nat → Bool) (tp : List Nat) (arc : Int),
    arc ∈ l → st.residual_arc_capacity arc > 0 →
    (ReachScanArcs g st l ir tp).1 (Head g arc) = true := by
  intro l
  induction l with
  | nil =>
    intro ir tp arc h
    exact absurd h (List.not_mem_nil arc)
  | cons arc' rest ih =>
    intro ir tp arc hmem hres
    rw [ReachScanArcs_cons]
    rcases List.mem_cons.1 hmem with h | h
    · subst h
      rw [if_pos hres]
      split_ifs with h2
      · exact ReachScan_mono g st rest ir tp _ h2
      · refine ReachScan_mono g st rest _ _ _ ?_
        exact Function.update_same _ _ _
    · split_ifs with h1 h2
      · exact ih ir tp arc h hres
      · exact ih _ _ arc h hres
      · exact ih ir tp arc h hres

theorem ReachScan_new (g : FlowGraph) (st : MFState) :
    ∀ (l : List Int) (ir : Nat → Bool) (tp : List Nat) (v : Nat),
    (ReachScanArcs g st l ir tp).1 v = true →
    ir v = true ∨ ∃ arc, arc ∈ l ∧ st.residual_arc_capacity arc > 0 ∧
      Head g arc = v ∧ v ∈ (ReachScanArcs g st l ir tp).2 := by
  intro l
  induction l with
  | nil => exact fun ir tp v h => Or.inl h
  | cons arc rest ih =>
    intro ir tp v h
    rw [ReachScanArcs_cons] at h ⊢
    split_ifs at h ⊢ with h1 h2
    · rcases ih ir tp v h with h3 | ⟨a, ha, hr, hh, htp⟩
      · exact Or.inl h3
      · exact Or.inr ⟨a, List.mem_cons_of_mem _ ha, hr, hh, htp⟩
    · rcases ih _ _ v h with h3 | ⟨a, ha, hr, hh, htp⟩
      · rw [Function.update_apply] at h3
        by_cases h4 : v = Head g arc
        · refine Or.inr ⟨arc, List.mem_cons_self _ _, h1, h4.symm, ?_⟩
          exact ReachScan_tp_sub g st rest _ _ v
            (h4 ▸ List.mem_cons_self _ _)
        · rw [if_neg h4] at h3
          exact Or.inl h3
      · exact Or.inr ⟨a, List.mem_cons_of_mem _ ha, hr, hh, htp⟩
    · rcases ih ir tp v h with h3 | ⟨a, ha, hr, hh, htp⟩
      · exact Or.inl h3
      · exact Or.inr ⟨a, List.mem_cons_of_mem _ ha, hr, hh, htp⟩

theorem ReachScan_tp_cases (g : FlowGraph) (st : MFState) :
    ∀ (l : List Int) (ir : Nat → Bool) (tp : List Nat) (v : Nat),
    v ∈ (ReachScanArcs g st l ir tp).2 →
    v ∈ tp ∨ (ReachScanArcs g st l ir tp).1 v = true := by
  intro l
  induction l with
  | nil => exact fun ir tp v h => Or.inl h
  | cons arc rest ih =>
    intro ir tp v h
    rw [ReachScanArcs_cons] at h ⊢
    split_ifs at h ⊢ with h1 h2
    · exact ih ir tp v h
    · rcases ih _ _ v h with h3 | h3
      · rcases List.mem_cons.1 h3 with h4 | h4
        · subst h4
          refine Or.inr (ReachScan_mono g st rest _ _ _ ?_)
          exact Function.update_same _ _ _
        · exact Or.inl h4
      · exact Or.inr h3
    · exact ih ir tp v h

/-- Invariant of the BFS in `AugmentingPathExists()`: the source is marked,
queued nodes are marked, every marked node is residual-reachable, and every
marked node is still queued or fully scanned. -/
def ReachInv (g : FlowGraph) (st : MFState) (source : Nat)
    (ir : Nat → Bool) (tp : List Nat) : Prop :=
  ir source = true ∧
  (∀ v ∈ tp, ir v = true) ∧
  (∀ v, ir v = true → ResReach g st source v) ∧
  (∀ u, ir u = true → u ∈ tp ∨
    ∀ arc ∈ IncidentArcs g u, st.residual_arc_capacity arc > 0 →
      ir (Head g arc) = true)

theorem ReachLoop_succ_cons (g : FlowGraph) (st : MFState) (fuel : Nat)
    (ir : Nat → Bool) (node : Nat) (rest : List Nat) (ir1 : Nat → Bool)
    (tp1 : List Nat)
    (hsc : ReachScanArcs g st (IncidentArcs g node) ir rest = (ir1, tp1)) :
    ReachLoop g st (fuel + 1) ir (node :: rest) =
      ReachLoop g st fuel ir1 tp1 := by
  simp only [ReachLoop]
  rw [hsc]

theorem ReachLoop_inv {g : FlowGraph} {st : MFState} {source : Nat} :
    ∀ (fuel : Nat) (ir : Nat → Bool) (tp : List Nat) (ir' : Nat → Bool),
    ReachInv g st source ir tp →
    ReachLoop g st fuel ir tp = some ir' →
    ReachInv g st source ir' [] := by
  intro fuel
  induction fuel with
  | zero =>
    intro ir tp ir' _ h
    exact Option.noConfusion h
  | succ fuel ih =>
    intro ir tp ir' hInv hrun
    match tp, hInv with
    | [], hInv =>
      have h : ir = ir' := Option.some.inj hrun
      rw [← h]
      exact hInv
    | node :: rest, ⟨hsrc, htp, hsound, hclosed⟩ =>
      rcases hsc : ReachScanArcs g st (IncidentArcs g node) ir rest
        with ⟨ir1, tp1⟩
      rw [ReachLoop_succ_cons g st fuel ir node rest ir1 tp1 hsc] at hrun
      have hS1 : ∀ v, ir v = true → ir1 v = true := by
        intro v hv
        have h := ReachScan_mono g st (IncidentArcs g node) ir rest v hv
        rw [hsc] at h
        exact h
      have hS2 : ∀ v, v ∈ rest → v ∈ tp1 := by
        intro v hv
        have h := ReachScan_tp_sub g st (IncidentArcs g node) ir rest v hv
        rw [hsc] at h
        exact h
      have hS3 : ∀ v, ir1 v = true → ir v = true ∨
          ∃ arc, arc ∈ IncidentArcs g node ∧
            st.residual_arc_capacity arc > 0 ∧ Head g arc = v ∧
            v ∈ tp1 := by
        intro v hv
        have h := ReachScan_new g st (IncidentArcs g node) ir rest v
          (by rw [hsc]; exact hv)
        rw [hsc] at h
        exact h
      have hS4 : ∀ arc ∈ IncidentArcs g node,
          st.residual_arc_capacity arc > 0 →
          ir1 (Head g arc) = true := by
        intro arc ha hr
        have h := ReachScan_scanned g st (IncidentArcs g node) ir rest
          arc ha hr
        rw [hsc] at h
        exact h
      have hS5 : ∀ v, v ∈ tp1 → v ∈ rest ∨ ir1 v = true := by
        intro v hv
        have h := ReachScan_tp_cases g st (IncidentArcs g node) ir rest v
          (by rw [hsc]; exact hv)
        rw [hsc] at h
        exact h
      have hnode : ResReach g st source node :=
        hsound node (htp node (List.mem_cons_self _ _))
      refine ih ir1 tp1 ir' ⟨hS1 source hsrc, ?_, ?_, ?_⟩ hrun
      · intro v hv
        rcases hS5 v hv with h | h
        · exact hS1 v (htp v (List.mem_cons_of_mem _ h))
        · exact h
      · intro v hv
        rcases hS3 v hv with h | ⟨arc, ha, hr, hh, _⟩
        · exact hsound v h
        · rw [← hh]
          exact ResReach.step hnode ha hr
      · intro u hu
        rcases hS3 u hu with h | ⟨arc, ha, hr, hh, htp1⟩
        · rcases hclosed u h with h2 | h2
          · rcases List.mem_cons.1 h2 with h3 | h3
            · subst h3
              exact Or.inr hS4
            · exact Or.inl (hS2 u h3)
          · exact Or.inr (fun arc ha hr => hS1 _ (h2 arc ha hr))
        · exact Or.inl htp1

theorem Reach_complete {g : FlowGraph} {st : MFState} {source : Nat}
    {ir : Nat → Bool} (hInv : ReachInv g st source ir []) :
    ∀ v, ResReach g st source v → ir v = true := by
  intro v hv
  induction hv with
  | base => exact hInv.1
  | @step u arc _ harc hres ih =>
    rcases hInv.2.2.2 u ih with h | h
    · exact absurd h (List.not_mem_nil u)
    · exact h arc harc hres

theorem AugmentingPathExists_correct {g : FlowGraph} {st : MFState}
    {source sink : Nat} {fuel : Nat} {b : Bool}
    (h : AugmentingPathExists g st source sink fuel = some b) :
    (b = true ↔ ResReach g st source sink) := by
  unfold AugmentingPathExists at h
  rcases hL : ReachLoop g st fuel
      (Function.update (fun _ => false) source true) [source]
    with _ | ir'
  · rw [hL] at h
    exact Option.noConfusion h
  · rw [hL] at h
    have hb : ir' sink = b := Option.some.inj h
    have hInv0 : ReachInv g st source
        (Function.update (fun _ => false) source true) [source] := by
      refine ⟨Function.update_same _ _ _, ?_, ?_, ?_⟩
      · intro v hv
        rcases List.mem_cons.1 hv with h1 | h1
        · subst h1
          exact Function.update_same _ _ _
        · exact absurd h1 (List.not_mem_nil v)
      · intro v hv
        rw [Function.update_apply] at hv
        split_ifs at hv with h1
        · subst h1
          exact ResReach.base
      · intro u hu
        rw [Function.update_apply] at hu
        split_ifs at hu with h1
        · subst h1
          exact Or.inl (List.mem_cons_self _ _)
    have hInv' := ReachLoop_inv fuel _ _ ir' hInv0 hL
    constructor
    · intro hbt
      refine hInv'.2.2.1 sink ?_
      rw [hb, hbt]
    · intro hreach
      rw [← hb]
      exact Reach_complete hInv' sink hreach

/-- C2: for a source and a sink inside the graph (and nonnegative input
capacities), when `Solve()` returns, `status() == INT_OVERFLOW` iff
`-excess[s]` equals `kMaxFlowQuantity` and an augmenting `s -> t` path of
positive residual capacity still exists; in every other case
`status() == OPTIMAL`. -/
theorem c2_int_overflow_iff (g : FlowGraph) (source sink : Nat)
    (st : MFState) (fuel : Nat) (st2 : MFState) (b : Bool)
    (hsource : source < g.numNodes) (hsink : sink < g.numNodes)
    (hss : source ≠ sink)
    (hcap : ∀ a : Nat, a < g.numArcs → 0 ≤ Capacity g st ((a : Int)))
    (hrun : Solve g source sink st fuel = some (st2, b)) :
    (status st2 = Status.INT_OVERFLOW ↔
      (-(st2.node_excess source) = kMaxFlowQuantity ∧
        ResReach g st2 source sink)) ∧
    (status st2 ≠ Status.INT_OVERFLOW → status st2 = Status.OPTIMAL) := by
  have hguard : ¬(sink ≥ g.numNodes ∨ source ≥ g.numNodes) := by omega
  unfold Solve at hrun
  rw [if_neg hguard] at hrun
  rcases hrwg : RefineWithGlobalUpdate g source sink fuel
      (InitializePreflow g source { st with status := Status.NOT_SOLVED })
    with _ | st1
  · rw [hrwg] at hrun
    exact Option.noConfusion hrun
  · rw [hrwg] at hrun
    have hI0 : Inv g source sink (InitializePreflow g source
        { st with status := Status.NOT_SOLVED }) :=
      Inv_InitializePreflow source sink _ hsource hcap
    have hz0 : ∀ v, v < g.numNodes → v ≠ source → v ≠ sink →
        (InitializePreflow g source
          { st with status := Status.NOT_SOLVED }).node_excess v = 0 := by
      intro v hv _ _
      rw [InitializePreflow_excess]
      have := g.reservation_ok
      rw [if_pos (by omega)]
    obtain ⟨hI1, hz1⟩ := RefineOuter_post hss fuel _ st1 hI0 hz0 hrwg
    have hanti := excess_antisym hsource hsink hss hI1 hz1
    have hrun' : (if GetOptimalFlow { st1 with status := Status.OPTIMAL }
          sink = kMaxFlowQuantity then
        match AugmentingPathExists g { st1 with status := Status.OPTIMAL }
            source sink fuel with
        | none => none
        | some bb =>
          some ((if bb then { st1 with status := Status.INT_OVERFLOW }
            else { st1 with status := Status.OPTIMAL }), true)
      else some ({ st1 with status := Status.OPTIMAL }, true)) =
        some (st2, b) := hrun
    by_cases hq : GetOptimalFlow { st1 with status := Status.OPTIMAL } sink
        = kMaxFlowQuantity
    · rw [if_pos hq] at hrun'
      have hq' : st1.node_excess sink = kMaxFlowQuantity := hq
      rcases hape : AugmentingPathExists g
          { st1 with status := Status.OPTIMAL } source sink fuel
        with _ | bb
      · rw [hape] at hrun'
        exact Option.noConfusion hrun'
      · rw [hape] at hrun'
        have hiff := AugmentingPathExists_correct hape
        have hp : ((if bb then { st1 with status := Status.INT_OVERFLOW }
              else { st1 with status := Status.OPTIMAL }), true) =
            (st2, b) := Option.some.inj hrun'
        have hst2 : st2 = (if bb then
              { st1 with status := Status.INT_OVERFLOW }
            else { st1 with status := Status.OPTIMAL }) :=
          (congrArg Prod.fst hp).symm
        cases bb with
        | true =>
          rw [if_pos rfl] at hst2
          have hstat : status st2 = Status.INT_OVERFLOW := by
            rw [hst2]
            rfl
          have hne : st2.node_excess = st1.node_excess := by rw [hst2]
          refine ⟨⟨fun _ => ⟨?_, ?_⟩, fun _ => hstat⟩,
            fun hno => absurd hstat hno⟩
          · rw [hne, hanti, neg_neg, hq']
          · refine ResReach_congr
              (show st2.residual_arc_capacity =
                  ({ st1 with status := Status.OPTIMAL } :
                    MFState).residual_arc_capacity by rw [hst2])
              sink ?_
            exact hiff.mp rfl
        | false =>
          rw [if_neg Bool.false_ne_true] at hst2
          have hstat : status st2 = Status.OPTIMAL := by
            rw [hst2]
            rfl
          have hne : st2.node_excess = st1.node_excess := by rw [hst2]
          refine ⟨⟨fun hc => ?_, fun hcon => ?_⟩, fun _ => hstat⟩
          · exact Status.noConfusion (hstat.symm.trans hc)
          · obtain ⟨_, h2⟩ := hcon
            have hr : ResReach g { st1 with status := Status.OPTIMAL }
                source sink :=
              ResReach_congr
                (show ({ st1 with status := Status.OPTIMAL } :
                    MFState).residual_arc_capacity =
                  st2.residual_arc_capacity by rw [hst2])
                sink h2
            exact Bool.noConfusion (hiff.mpr hr)
    · rw [if_neg hq] at hrun'
      have hq' : ¬(st1.node_excess sink = kMaxFlowQuantity) := hq
      have hp : ({ st1 with status := Status.OPTIMAL }, true) = (st2, b) :=
        Option.some.inj hrun'
      have hst2 : st2 = { st1 with status := Status.OPTIMAL } :=
        (congrArg Prod.fst hp).symm
      have hstat : status st2 = Status.OPTIMAL := by
        rw [hst2]
        rfl
      have hne : st2.node_excess = st1.node_excess := by rw [hst2]
      refine ⟨⟨fun hc => ?_, fun hcon => ?_⟩, fun _ => hstat⟩
      · exact Status.noConfusion (hstat.symm.trans hc)
      · obtain ⟨h1, _⟩ := hcon
        rw [hne, hanti, neg_neg] at h1
        exact absurd h1 hq'

theorem c2_witness :
    ((0 : Nat) < wG.numNodes) ∧ ((2 : Nat) < wG.numNodes) ∧
    ((0 : Nat) ≠ 2) ∧
    (∀ a : Nat, a < wG.numArcs → 0 ≤ Capacity wG c1St ((a : Int))) ∧
    Solve wG 0 2 c1St 4 = some (c1WitSt, true) ∧
    ((status c1WitSt = Status.INT_OVERFLOW ↔
      (-(c1WitSt.node_excess 0) = kMaxFlowQuantity ∧
        ResReach wG c1WitSt 0 2)) ∧
     (status c1WitSt ≠ Status.INT_OVERFLOW →
       status c1WitSt = Status.OPTIMAL)) := by
  have hcap : ∀ a : Nat, a < wG.numArcs →
      0 ≤ Capacity wG c1St ((a : Int)) := by
    intro a ha
    have h2 : a < 2 := ha
    interval_cases a
    · decide
    · decide
  have hrun : Solve wG 0 2 c1St 4 = some (c1WitSt, true) := rfl
  exact ⟨by decide, by decide, by decide, hcap, hrun,
    c2_int_overflow_iff wG 0 2 c1St 4 c1WitSt true (by decide) (by decide)
      (by decide) hcap hrun⟩

end ORTools
